import Mathlib

/-!
Shallow embedding of the scoutfs in-memory item cache (src/src/item.c).

The item cache keeps a binary search tree of cached items augmented with
per-subtree dirty summary bits, a second tree of cached key ranges, and
three aggregate dirty counters.  The C code stores the trees as Linux
red-black trees; the red-black recolouring is pure balance bookkeeping and
is represented here by (a) plain binary-search-tree structure for the
descents and links, and (b) an explicit rotation step (RotStep below)
applying the augmented rotate callback, so that every rebalancing rotation
the library may perform is covered by the reachability relation.

External collaborators that are not part of this repository's sources
(key buffers, kvec values, the segment reader and writer) are modelled
from the spec where noted.
-/

/-- Modelled from the spec: a scoutfs key buffer (scoutfs_key_buf; key.h is
not among the sources) is a variable-length byte string. -/
abbrev Key := List Nat

/-- Modelled from the spec: scoutfs_key_compare is lexicographic by bytes up
to the shorter length, with the longer key greater on a tie. -/
def keyCompare : Key → Key → Ordering
  | [], [] => .eq
  | [], _ :: _ => .lt
  | _ :: _, [] => .gt
  | a :: as, b :: bs =>
    if a < b then .lt else if b < a then .gt else keyCompare as bs

/-- A key buffer that may hold the maximal sentinel written by
scoutfs_key_set_max; none stands for the sentinel, greater than every key. -/
abbrev KeyB := Option Key

/-- Compare key buffers where none is the maximal sentinel. -/
def kbCompare : KeyB → KeyB → Ordering
  | none, none => .eq
  | none, some _ => .gt
  | some _, none => .lt
  | some a, some b => keyCompare a b

/-- Modelled from the spec: scoutfs_key_compare_ranges returns lt when the
first range lies entirely before the second, gt when entirely after, and eq
when they overlap or touch. -/
def scoutfs_key_compare_ranges (as ae bs be : Key) : Ordering :=
  if keyCompare ae bs = .lt then .lt
  else if keyCompare as be = .gt then .gt
  else .eq

/-- Modelled from the spec: a kvec value is a byte sequence; the null value
(scoutfs_kvec_init_null) is distinct from the empty one. -/
abbrev Val := List Nat

/-- Modelled from the spec: scoutfs_kvec_length; a null value has length 0. -/
def scoutfs_kvec_length : Option Val → Nat
  | none => 0
  | some v => v.length

/-- Modelled from the spec: scoutfs_kvec_memcpy copies into the caller's
buffer, truncating to its length, and returns the number of bytes copied. -/
def scoutfs_kvec_memcpy (dst_len : Nat) (src : Option Val) : Int :=
  (min dst_len (scoutfs_kvec_length src) : Nat)

/-- The error codes surfaced by the cache, as positive constants; the C
functions return their negations. -/
def errENOENT : Int := 2
def errEio : Int := 5
def errENOMEM : Int := 12
def errEEXIST : Int := 17
def errEINVAL : Int := 22
def errENODATA : Int := 61

/-- The ITEM_DIRTY / LEFT_DIRTY / RIGHT_DIRTY bits of the C long bitmask
stored in cached_item.dirty, as a record of booleans. -/
structure DirtyBits where
  self : Bool
  left : Bool
  right : Bool
deriving DecidableEq, Repr

/-- The all-clear bitmask (a freshly kzalloc-ed item). -/
def DirtyBits.clean : DirtyBits := ⟨false, false, false⟩

/-- Truthiness of the C bitmask: any of the three bits is set. -/
def DirtyBits.any (d : DirtyBits) : Bool := d.self || d.left || d.right

/-- struct cached_item: key, value (possibly null), deletion flag and the
dirty bits.  The list entry of the union is represented by keeping batch
items in a Lean list. -/
structure CachedItem where
  key : Key
  val : Option Val
  deletion : Bool := false
  dirty : DirtyBits := .clean
deriving DecidableEq, Repr

/-- item_flags: only SCOUTFS_ITEM_FLAG_DELETION is defined at this layer. -/
def item_flags (item : CachedItem) : Bool := item.deletion

/-- The item rbtree, as a binary search tree carrying the items. -/
inductive ItemTree where
  | leaf
  | node (l : ItemTree) (item : CachedItem) (r : ItemTree)
deriving DecidableEq, Repr

def treeSize : ItemTree → Nat
  | .leaf => 0
  | .node l _ r => treeSize l + treeSize r + 1

/-- walk_items' loop with the prev/next accumulators threaded explicitly. -/
def walk_items_go : ItemTree → Key → Option CachedItem → Option CachedItem →
    Option CachedItem × Option CachedItem × Option CachedItem
  | .leaf, _, prev, next => (none, prev, next)
  | .node l item r, key, prev, next =>
    match keyCompare key item.key with
    | .lt => walk_items_go l key prev (some item)
    | .gt => walk_items_go r key (some item) next
    | .eq => (some item, prev, next)

/-- Walk the item rbtree and return the item found and the next and prev
items. -/
def walk_items (t : ItemTree) (key : Key) :
    Option CachedItem × Option CachedItem × Option CachedItem :=
  walk_items_go t key none none

/-- find_item: look for the item with the given key, returning null for
deletion items so callers see tombstones as absent. -/
def find_item (t : ItemTree) (key : Key) : Option CachedItem :=
  match (walk_items t key).1 with
  | some item => if item.deletion then none else some item
  | none => none

/-- next_item: the found item, or the next item recorded during the walk. -/
def next_item (t : ItemTree) (key : Key) : Option CachedItem :=
  match walk_items t key with
  | (some item, _, _) => some item
  | (none, _, next) => next

/-- node_dirty_bit: whether the root item of the given child subtree has any
dirty bit set (the C code returns the given bit in that case, 0 otherwise;
here the caller places the boolean in the corresponding field). -/
def node_any : ItemTree → Bool
  | .leaf => false
  | .node _ item _ => item.dirty.any

/-- compute_item_dirty: keep the item's own ITEM_DIRTY bit and set the
LEFT_DIRTY / RIGHT_DIRTY bits from the child subtrees' root items. -/
def compute_item_dirty (item : CachedItem) (l r : ItemTree) : DirtyBits :=
  ⟨item.dirty.self, node_any l, node_any r⟩

/-- One step of scoutfs_item_rb_propagate at a parent on the way back up
from a modification: recompute the stored bits from the children unless
propagation has already stopped, and stop once the recomputed bits equal
the stored bits. -/
def propagate_step (l : ItemTree) (item : CachedItem) (r : ItemTree)
    (stopped : Bool) : CachedItem × Bool :=
  if stopped then (item, true)
  else
    let d := compute_item_dirty item l r
    if item.dirty = d then (item, true)
    else ({item with dirty := d}, false)

/-- mark_item_dirty's tree work: descend to the key, set ITEM_DIRTY unless
already set, and run propagate on the parents (update_dirty_parents).
Returns the new tree, the propagate stop flag, and the pre-modification
item when its ITEM_DIRTY bit actually flipped (the case in which the C
code adjusts the aggregate counters). -/
def mark_dirty_at : ItemTree → Key → ItemTree × Bool × Option CachedItem
  | .leaf, _ => (.leaf, true, none)
  | .node l item r, key =>
    match keyCompare key item.key with
    | .lt =>
      let p := mark_dirty_at l key
      let q := propagate_step p.1 item r p.2.1
      (.node p.1 q.1 r, q.2, p.2.2)
    | .gt =>
      let p := mark_dirty_at r key
      let q := propagate_step l item p.1 p.2.1
      (.node l q.1 p.1, q.2, p.2.2)
    | .eq =>
      if item.dirty.self then (.node l item r, true, none)
      else (.node l { item with dirty := { item.dirty with self := true } } r,
            false, some item)

/-- clear_item_dirty's tree work, symmetric to mark_dirty_at. -/
def clear_dirty_at : ItemTree → Key → ItemTree × Bool × Option CachedItem
  | .leaf, _ => (.leaf, true, none)
  | .node l item r, key =>
    match keyCompare key item.key with
    | .lt =>
      let p := clear_dirty_at l key
      let q := propagate_step p.1 item r p.2.1
      (.node p.1 q.1 r, q.2, p.2.2)
    | .gt =>
      let p := clear_dirty_at r key
      let q := propagate_step l item p.1 p.2.1
      (.node l q.1 p.1, q.2, p.2.2)
    | .eq =>
      if item.dirty.self then
        (.node l { item with dirty := { item.dirty with self := false } } r,
         false, some item)
      else (.node l item r, true, none)

/-- Update the item at the key in place (value or deletion flag changes that
do not touch the tree structure or the dirty bits). -/
def modify_at (f : CachedItem → CachedItem) : ItemTree → Key → ItemTree
  | .leaf, _ => .leaf
  | .node l item r, key =>
    match keyCompare key item.key with
    | .lt => .node (modify_at f l key) item r
    | .gt => .node l item (modify_at f r key)
    | .eq => .node l (f item) r

/-- The successor-promotion part of rb_erase_augmented (the external Linux
rbtree library): remove the leftmost item of a nonempty subtree, recomputing
the stored dirty bits of the traversed spine on the way back up exactly as
the propagate callback does.  Returns the removed item, the remaining tree
and the propagate stop flag. -/
def remove_leftmost : ItemTree → Option (CachedItem × ItemTree × Bool)
  | .leaf => none
  | .node .leaf item r => some (item, r, false)
  | .node (.node a x b) item r =>
    match remove_leftmost (.node a x b) with
    | some (m, l', stopped) =>
      let q := propagate_step l' item r stopped
      some (m, .node l' q.1 r, q.2)
    | none => none

/-- rb_erase_augmented: descend to the key; splice the node out when a child
is missing, otherwise promote the in-order successor, whose bits are
recomputed from its new children (the copy callback) before propagation
continues towards the root.  Returns the new tree, the stop flag and the
erased item. -/
def erase_at : ItemTree → Key → ItemTree × Bool × Option CachedItem
  | .leaf, _ => (.leaf, true, none)
  | .node l item r, key =>
    match keyCompare key item.key with
    | .lt =>
      let p := erase_at l key
      let q := propagate_step p.1 item r p.2.1
      (.node p.1 q.1 r, q.2, p.2.2)
    | .gt =>
      let p := erase_at r key
      let q := propagate_step l item p.1 p.2.1
      (.node l q.1 p.1, q.2, p.2.2)
    | .eq =>
      match l, r with
      | .leaf, _ => (r, false, some item)
      | .node la lx lb, .leaf => (.node la lx lb, false, some item)
      | .node la lx lb, .node ra rx rb =>
        match remove_leftmost (.node ra rx rb) with
        | some (succ, r', _) =>
          (.node (.node la lx lb)
                 { succ with dirty := compute_item_dirty succ (.node la lx lb) r' }
                 r', false, some item)
        | none => (.node l item r, true, none)

/-- The outcome of one descent of insert_item's loop body. -/
inductive InsDescend where
  | inserted (t : ItemTree)
  | matched (live : Bool) (t : ItemTree)
deriving DecidableEq, Repr

/-- One descent of insert_item: walk by key, pre-seeding the parents'
LEFT_DIRTY / RIGHT_DIRTY bits on the branch taken when the inserted item is
dirty; link at the leaf, or stop at an item with an equal key, reporting
whether it is live. -/
def insert_descend (ins : CachedItem) : ItemTree → InsDescend
  | .leaf => .inserted (.node .leaf ins .leaf)
  | .node l item r =>
    match keyCompare ins.key item.key with
    | .lt =>
      let item' := if ins.dirty.any then
        { item with dirty := { item.dirty with left := true } } else item
      match insert_descend ins l with
      | .inserted l' => .inserted (.node l' item' r)
      | .matched live l' => .matched live (.node l' item' r)
    | .gt =>
      let item' := if ins.dirty.any then
        { item with dirty := { item.dirty with right := true } } else item
      match insert_descend ins r with
      | .inserted r' => .inserted (.node l item' r')
      | .matched live r' => .matched live (.node l item' r')
    | .eq => .matched (!item.deletion) (.node l item r)

/-- first_dirty: descend preferring LEFT_DIRTY, then the item itself, then
RIGHT_DIRTY, returning the smallest-keyed dirty item of the subtree. -/
def first_dirty : ItemTree → Option CachedItem
  | .leaf => none
  | .node l item r =>
    if item.dirty.left then first_dirty l
    else if item.dirty.self then some item
    else if item.dirty.right then first_dirty r
    else none

/-- next_dirty's parent ascent: the ancestors reached from a left child,
innermost first, each with its right subtree; for each, the C loop first
returns the ancestor itself if ITEM_DIRTY, then searches its right subtree
if RIGHT_DIRTY, then keeps ascending. -/
def next_dirty_anc : List (CachedItem × ItemTree) → Option CachedItem
  | [] => none
  | (item, r) :: rest =>
    if item.dirty.self then some item
    else if item.dirty.right then first_dirty r
    else next_dirty_anc rest

/-- next_dirty located by the current item's key: descend to the item,
collecting the ancestors the parent walk would ascend through, then search
the item's right subtree if RIGHT_DIRTY, else ascend. -/
def next_dirty_go : ItemTree → Key → List (CachedItem × ItemTree) →
    Option CachedItem
  | .leaf, _, anc => next_dirty_anc anc
  | .node l item r, key, anc =>
    match keyCompare key item.key with
    | .lt => next_dirty_go l key ((item, r) :: anc)
    | .gt => next_dirty_go r key anc
    | .eq => if item.dirty.right then first_dirty r else next_dirty_anc anc

/-- next_dirty: the next dirty item after the item with the given key. -/
def next_dirty (t : ItemTree) (key : Key) : Option CachedItem :=
  next_dirty_go t key []

/-- rb_next located by key: the in-order successor of the item with the
given key. -/
def rb_next_key : ItemTree → Key → Option CachedItem
  | .leaf, _ => none
  | .node l item r, key =>
    match keyCompare key item.key with
    | .lt =>
      match rb_next_key l key with
      | some it => some it
      | none => some item
    | _ => rb_next_key r key

/-- struct cached_range; the field stop is the C field named end (a Lean
keyword). -/
structure CachedRange where
  start : Key
  stop : Key
deriving DecidableEq, Repr

/-- The rbtree of cached ranges. -/
inductive RangeTree where
  | leaf
  | node (l : RangeTree) (rng : CachedRange) (r : RangeTree)
deriving DecidableEq, Repr

def rangeSize : RangeTree → Nat
  | .leaf => 0
  | .node l _ r => rangeSize l + rangeSize r + 1

/-- check_range's descent with the next-range accumulator: return (true,
range end) when the key is covered, else (false, start of the next cached
range or the maximal sentinel). -/
def check_range_go : RangeTree → Key → Option CachedRange → Bool × KeyB
  | .leaf, _, nxt =>
    (false, match nxt with | some rng => some rng.start | none => none)
  | .node l rng r, key, nxt =>
    match scoutfs_key_compare_ranges key key rng.start rng.stop with
    | .lt => check_range_go l key (some rng)
    | .gt => check_range_go r key nxt
    | .eq => (true, some rng.stop)

/-- check_range: whether the key is covered by a cached range; end is the
covered range's end on a hit, else the start of the next cached range. -/
def check_range (t : RangeTree) (key : Key) : Bool × KeyB :=
  check_range_go t key none

/-- Remove the leftmost range of a nonempty range tree (the successor
promotion inside the plain rb_erase). -/
def range_remove_leftmost : RangeTree → Option (CachedRange × RangeTree)
  | .leaf => none
  | .node .leaf rng r => some (rng, r)
  | .node (.node a x b) rng r =>
    match range_remove_leftmost (.node a x b) with
    | some (m, l') => some (m, .node l' rng r)
    | none => none

/-- rb_erase of the node whose children are l and r: splice when a child is
missing, else promote the in-order successor. -/
def range_join (l r : RangeTree) : RangeTree :=
  match l, r with
  | .leaf, _ => r
  | .node la lx lb, .leaf => .node la lx lb
  | .node la lx lb, .node ra rx rb =>
    match range_remove_leftmost (.node ra rx rb) with
    | some (m, r') => .node (.node la lx lb) m r'
    | none => .node la lx lb

/-- The outcome of one descent of insert_range's loop body. -/
inductive RangeIns where
  | placed (t : RangeTree)
  | dropped
  | overlap (ins : CachedRange) (t : RangeTree)
deriving Repr

/-- One descent of insert_range: iterate by range comparison until an
overlap; drop the insertion when it lies entirely within the existing
range, otherwise absorb the overlapping neighbour's far endpoints (the
swap calls), erase the neighbour and report the widened insertion so the
descent restarts. -/
def range_ins_descend (ins : CachedRange) : RangeTree → RangeIns
  | .leaf => .placed (.node .leaf ins .leaf)
  | .node l rng r =>
    match scoutfs_key_compare_ranges ins.start ins.stop rng.start rng.stop with
    | .lt =>
      match range_ins_descend ins l with
      | .placed l' => .placed (.node l' rng r)
      | .dropped => .dropped
      | .overlap i t' => .overlap i (.node t' rng r)
    | .gt =>
      match range_ins_descend ins r with
      | .placed r' => .placed (.node l rng r')
      | .dropped => .dropped
      | .overlap i t' => .overlap i (.node l rng t')
    | .eq =>
      let start_cmp := keyCompare ins.start rng.start
      let end_cmp := keyCompare ins.stop rng.stop
      if start_cmp ≠ .lt ∧ end_cmp ≠ .gt then .dropped
      else
        let ins' :=
          if start_cmp = .lt ∧ end_cmp = .lt then { ins with stop := rng.stop }
          else if start_cmp = .gt ∧ end_cmp = .gt then
            { ins with start := rng.start }
          else ins
        .overlap ins' (range_join l r)

/-- insert_range's restart loop; each restart erases one overlapping range,
so a fuel of the tree size plus one is never exhausted. -/
def insert_range_go : Nat → RangeTree → CachedRange → RangeTree
  | 0, t, _ => t
  | fuel + 1, t, ins =>
    match range_ins_descend ins t with
    | .placed t' => t'
    | .dropped => t
    | .overlap ins' t' => insert_range_go fuel t' ins'

/-- insert_range: insert a new cached range, combining with and freeing any
overlapping ranges. -/
def insert_range (t : RangeTree) (ins : CachedRange) : RangeTree :=
  insert_range_go (rangeSize t + 1) t ins

/-- struct item_cache: the two trees and the aggregate dirty counters (C
longs, so integers here). -/
structure ItemCache where
  items : ItemTree
  ranges : RangeTree
  nr_dirty_items : Int
  dirty_key_bytes : Int
  dirty_val_bytes : Int
deriving DecidableEq, Repr

/-- The cache as scoutfs_item_setup constructs it. -/
def empty_cache : ItemCache := ⟨.leaf, .leaf, 0, 0, 0⟩

/-- mark_item_dirty: set the item's ITEM_DIRTY bit; when the bit actually
flips, count the item and its key and current value lengths into the
aggregate counters and propagate to the parents. -/
def mark_item_dirty (cac : ItemCache) (key : Key) : ItemCache :=
  let p := mark_dirty_at cac.items key
  match p.2.2 with
  | none => { cac with items := p.1 }
  | some item =>
    { cac with
      items := p.1,
      nr_dirty_items := cac.nr_dirty_items + 1,
      dirty_key_bytes := cac.dirty_key_bytes + item.key.length,
      dirty_val_bytes := cac.dirty_val_bytes + scoutfs_kvec_length item.val }

/-- clear_item_dirty: clear the item's ITEM_DIRTY bit; when the bit actually
flips, subtract the item and its key and current value lengths from the
aggregate counters and propagate to the parents. -/
def clear_item_dirty (cac : ItemCache) (key : Key) : ItemCache :=
  let p := clear_dirty_at cac.items key
  match p.2.2 with
  | none => { cac with items := p.1 }
  | some item =>
    { cac with
      items := p.1,
      nr_dirty_items := cac.nr_dirty_items - 1,
      dirty_key_bytes := cac.dirty_key_bytes - item.key.length,
      dirty_val_bytes := cac.dirty_val_bytes - scoutfs_kvec_length item.val }

/-- erase_item: remove the item's dirty accounting, erase it with the
augmented erase, and free it. -/
def erase_item (cac : ItemCache) (key : Key) : ItemCache :=
  let cac' := clear_item_dirty cac key
  { cac' with items := (erase_at cac'.items key).1 }

/-- insert_item's loop: try to link the item; a live item with the same key
yields EEXIST, an existing deletion item is erased and the descent
restarts.  Each restart erases a node, so a fuel of the tree size plus one
is never exhausted. -/
def insert_item_go : Nat → ItemCache → CachedItem → Int × ItemCache
  | 0, cac, _ => (-errEINVAL, cac)
  | fuel + 1, cac, ins =>
    match insert_descend ins cac.items with
    | .inserted t => (0, { cac with items := t })
    | .matched true t => (-errEEXIST, { cac with items := t })
    | .matched false t =>
      insert_item_go fuel (erase_item { cac with items := t } ins.key) ins

/-- insert_item: see insert_item_go. -/
def insert_item (cac : ItemCache) (ins : CachedItem) : Int × ItemCache :=
  insert_item_go (treeSize cac.items + 1) cac ins

/-- scoutfs_item_create: allocate a new item with the key and value (the
alloc_ok flag models allocator success), insert it and mark it dirty. -/
def scoutfs_item_create (cac : ItemCache) (key : Key) (val : Option Val)
    (alloc_ok : Bool) : Int × ItemCache :=
  if !alloc_ok then (-errENOMEM, cac)
  else
    let p := insert_item cac { key := key, val := val }
    if p.1 = 0 then (0, mark_item_dirty p.2 key) else p

/-- The external segment reader scoutfs_manifest_read_items as the cache
sees it: called without the lock with a start key and an end buffer, it
returns an error code and may repopulate the cache (through add_batch and
insert_batch) arbitrarily. -/
abbrev Reader := ItemCache → Key → KeyB → Int × ItemCache

/-- The body of scoutfs_item_lookup's locked section: a found live item's
value is copied (the return is the bytes copied), a covered miss is ENOENT
and an uncovered miss is ENODATA with the end buffer set for the read. -/
def lookup_locked (cac : ItemCache) (key : Key) (buf : Nat) : Int × KeyB :=
  match find_item cac.items key with
  | some item => (scoutfs_kvec_memcpy buf item.val, none)
  | none =>
    match check_range cac.ranges key with
    | (true, endB) => (-errENOENT, endB)
    | (false, endB) => (-errENODATA, endB)

/-- scoutfs_item_lookup's retry loop: re-run the locked section until the
result is not ENODATA or the reader fails.  The fuel counts reader retries;
exhaustion (never reached in the theorems below) reports ENODATA. -/
def lookup_loop : Nat → ItemCache → Key → Nat → Reader → Int × ItemCache
  | 0, cac, _, _, _ => (-errENODATA, cac)
  | fuel + 1, cac, key, buf, reader =>
    let p := lookup_locked cac key buf
    if p.1 = -errENODATA then
      let q := reader cac key p.2
      if q.1 = 0 then lookup_loop fuel q.2 key buf reader else (q.1, q.2)
    else (p.1, cac)

/-- scoutfs_item_lookup; alloc_ok models the end-buffer allocation. -/
def scoutfs_item_lookup (fuel : Nat) (cac : ItemCache) (key : Key) (buf : Nat)
    (reader : Reader) (alloc_ok : Bool) : Int × ItemCache :=
  if !alloc_ok then (-errENOMEM, cac)
  else lookup_loop fuel cac key buf reader

/-- The body of scoutfs_item_dirty's locked section: mark a found item
dirty, else classify the miss. -/
def item_dirty_locked (cac : ItemCache) (key : Key) : Int × KeyB × ItemCache :=
  match find_item cac.items key with
  | some _ => (0, none, mark_item_dirty cac key)
  | none =>
    match check_range cac.ranges key with
    | (true, endB) => (-errENOENT, endB, cac)
    | (false, endB) => (-errENODATA, endB, cac)

/-- scoutfs_item_dirty's retry loop. -/
def item_dirty_loop : Nat → ItemCache → Key → Reader → Int × ItemCache
  | 0, cac, _, _ => (-errENODATA, cac)
  | fuel + 1, cac, key, reader =>
    let p := item_dirty_locked cac key
    if p.1 = -errENODATA then
      let q := reader cac key p.2.1
      if q.1 = 0 then item_dirty_loop fuel q.2 key reader else (q.1, q.2)
    else (p.1, p.2.2)

/-- scoutfs_item_dirty; alloc_ok models the end-buffer allocation. -/
def scoutfs_item_dirty (fuel : Nat) (cac : ItemCache) (key : Key)
    (reader : Reader) (alloc_ok : Bool) : Int × ItemCache :=
  if !alloc_ok then (-errENOMEM, cac)
  else item_dirty_loop fuel cac key reader

/-- The body of scoutfs_item_update's locked section: for a found item,
clear its dirty accounting, swap in the duplicated new value and re-mark it
dirty so the counters reflect the new value length. -/
def item_update_locked (cac : ItemCache) (key : Key) (val : Option Val) :
    Int × KeyB × ItemCache :=
  match find_item cac.items key with
  | some _ =>
    let c1 := clear_item_dirty cac key
    let c2 := { c1 with items := modify_at (fun it => { it with val := val }) c1.items key }
    (0, none, mark_item_dirty c2 key)
  | none =>
    match check_range cac.ranges key with
    | (true, endB) => (-errENOENT, endB, cac)
    | (false, endB) => (-errENODATA, endB, cac)

/-- scoutfs_item_update's retry loop. -/
def item_update_loop : Nat → ItemCache → Key → Option Val → Reader →
    Int × ItemCache
  | 0, cac, _, _, _ => (-errENODATA, cac)
  | fuel + 1, cac, key, val, reader =>
    let p := item_update_locked cac key val
    if p.1 = -errENODATA then
      let q := reader cac key p.2.1
      if q.1 = 0 then item_update_loop fuel q.2 key val reader else (q.1, q.2)
    else (p.1, p.2.2)

/-- scoutfs_item_update; alloc_ok models the end-buffer and value
duplication allocations. -/
def scoutfs_item_update (fuel : Nat) (cac : ItemCache) (key : Key)
    (val : Option Val) (reader : Reader) (alloc_ok : Bool) : Int × ItemCache :=
  if !alloc_ok then (-errENOMEM, cac)
  else item_update_loop fuel cac key val reader

/-- become_deletion_item: clone the value out for freeing, null the item's
value, set the deletion flag and mark the item dirty. -/
def become_deletion_item (cac : ItemCache) (key : Key) : ItemCache :=
  let t := modify_at (fun it => { it with val := none, deletion := true })
    cac.items key
  mark_item_dirty { cac with items := t } key

/-- The body of scoutfs_item_delete's locked section. -/
def item_delete_locked (cac : ItemCache) (key : Key) : Int × KeyB × ItemCache :=
  match find_item cac.items key with
  | some _ => (0, none, become_deletion_item cac key)
  | none =>
    match check_range cac.ranges key with
    | (true, endB) => (-errENOENT, endB, cac)
    | (false, endB) => (-errENODATA, endB, cac)

/-- scoutfs_item_delete's retry loop. -/
def item_delete_loop : Nat → ItemCache → Key → Reader → Int × ItemCache
  | 0, cac, _, _ => (-errENODATA, cac)
  | fuel + 1, cac, key, reader =>
    let p := item_delete_locked cac key
    if p.1 = -errENODATA then
      let q := reader cac key p.2.1
      if q.1 = 0 then item_delete_loop fuel q.2 key reader else (q.1, q.2)
    else (p.1, p.2.2)

/-- scoutfs_item_delete; alloc_ok models the end-buffer allocation. -/
def scoutfs_item_delete (fuel : Nat) (cac : ItemCache) (key : Key)
    (reader : Reader) (alloc_ok : Bool) : Int × ItemCache :=
  if !alloc_ok then (-errENOMEM, cac)
  else item_delete_loop fuel cac key reader

/-- scoutfs_item_delete_dirty: turn a found item into a deletion item; a
miss (no item, or only a tombstone) is a silent no-op. -/
def scoutfs_item_delete_dirty (cac : ItemCache) (key : Key) : ItemCache :=
  match find_item cac.items key with
  | some _ => become_deletion_item cac key
  | none => cac

/-- item_for_next's successor walk: starting from a candidate item, stop
past the bound, return the first live item, and skip deletion items by
stepping to the in-order successor (rb_next).  The fuel bounds the number
of skipped tombstones; the tree size plus one always suffices. -/
def for_next_loop : Nat → ItemTree → Option CachedItem → KeyB →
    Option CachedItem
  | 0, _, _, _ => none
  | fuel + 1, t, cur, lastB =>
    match cur with
    | none => none
    | some item =>
      if kbCompare (some item.key) lastB = .gt then none
      else if !item.deletion then some item
      else for_next_loop fuel t (rb_next_key t item.key) lastB

/-- item_for_next: the next item from the key that is not a deletion item
and is within both the end of the cached range and the caller's last key. -/
def item_for_next (t : ItemTree) (key : Key) (range_end : KeyB) (last : Key) :
    Option CachedItem :=
  let lastB := if kbCompare range_end (some last) = .lt then range_end
    else some last
  for_next_loop (treeSize t + 1) t (next_item t key) lastB

/-- scoutfs_item_next's retry loop: use a cached live successor when the
coverage allows, otherwise read the missing window and retry, or report
ENOENT once the cache covers up to the last key.  Returns the code, the
(in/out) key buffer and the cache.  The fuel counts reader retries;
exhaustion (never reached in the theorems below) reports EIO. -/
def scoutfs_item_next_go : Nat → ItemCache → Key → Key → Option Nat →
    Reader → Int × Key × ItemCache
  | 0, cac, key, _, _, _ => (-errEio, key, cac)
  | fuel + 1, cac, key, last, buf, reader =>
    let c := check_range cac.ranges key
    match (if c.1 then item_for_next cac.items key c.2 last else none) with
    | some item =>
      let ret := match buf with
        | some b => scoutfs_kvec_memcpy b item.val
        | none => 0
      (ret, item.key, cac)
    | none =>
      if !c.1 then
        let q := reader cac key c.2
        if q.1 = 0 then scoutfs_item_next_go fuel q.2 key last buf reader
        else (q.1, key, q.2)
      else
        match c.2 with
        | some re =>
          if keyCompare re last = .lt then
            let q := reader cac re (some last)
            if q.1 = 0 then scoutfs_item_next_go fuel q.2 key last buf reader
            else (q.1, key, q.2)
          else (-errENOENT, key, cac)
        | none => (-errENOENT, key, cac)

/-- scoutfs_item_next: return the next item at or after the key and at most
the last key; a caller iterating past its last key gets ENOENT before the
trees are consulted.  buf models the caller's value vector (none for a null
val) and alloc_ok the three key-buffer allocations. -/
def scoutfs_item_next (fuel : Nat) (cac : ItemCache) (key last : Key)
    (buf : Option Nat) (reader : Reader) (alloc_ok : Bool) :
    Int × Key × ItemCache :=
  if keyCompare key last = .gt then (-errENOENT, key, cac)
  else if !alloc_ok then (-errENOMEM, key, cac)
  else scoutfs_item_next_go fuel cac key last buf reader

/-- The staged batch items produced by scoutfs_item_add_batch: alloc_item
zeroes the flags, so staged items are clean non-deletion items. -/
def scoutfs_item_add_batch (list : List CachedItem) (key : Key)
    (val : Option Val) : List CachedItem :=
  list ++ [{ key := key, val := val }]

/-- insert_batch's item pass: each staged item is unlinked and inserted;
an item refused because a live duplicate is cached is put back on the list
and freed by the trailing free_batch, so it simply drops out. -/
def insert_batch_items : ItemCache → List CachedItem → ItemCache
  | cac, [] => cac
  | cac, item :: rest => insert_batch_items (insert_item cac item).2 rest

/-- scoutfs_item_insert_batch: refuse an inverted range before touching
anything (leaving the caller's list untouched); otherwise insert the
coverage range and then the staged items, consuming the list.  alloc_ok
models the range allocation; its failure path frees the list.  Returns the
code, the cache and what remains of the caller's list. -/
def scoutfs_item_insert_batch (cac : ItemCache) (list : List CachedItem)
    (start stop : Key) (alloc_ok : Bool) : Int × ItemCache × List CachedItem :=
  if keyCompare start stop = .gt then (-errEINVAL, cac, list)
  else if !alloc_ok then (-errENOMEM, cac, [])
  else
    let cac1 := { cac with ranges := insert_range cac.ranges ⟨start, stop⟩ }
    (0, insert_batch_items cac1 list, [])

/-- scoutfs_item_free_batch: free every staged item, emptying the list. -/
def scoutfs_item_free_batch (_ : List CachedItem) : List CachedItem := []

/-- scoutfs_item_has_dirty. -/
def scoutfs_item_has_dirty (cac : ItemCache) : Bool :=
  cac.nr_dirty_items ≠ 0

/-- The segment writer's pure capacity test scoutfs_seg_fits_single is an
external contract; operations that need it take it as a parameter. -/
abbrev FitsSingle := Nat → Nat → Nat → Bool

/-- scoutfs_item_dirty_fits_single: whether the caller's prospective items
still fit in one segment together with the current dirty items. -/
def scoutfs_item_dirty_fits_single (fits : FitsSingle) (cac : ItemCache)
    (nr_items key_bytes val_bytes : Nat) : Bool :=
  fits (nr_items + cac.nr_dirty_items.toNat)
       (key_bytes + cac.dirty_key_bytes.toNat)
       (val_bytes + cac.dirty_val_bytes.toNat)

/-- Modelled from the spec: a segment entry as written by the segment
writer (key, value, and the DELETION flag bit). -/
structure SegEntry where
  key : Key
  val : Option Val
  flags : Bool
deriving DecidableEq, Repr

/-- Modelled from the spec: a segment primed by seg_first_item with the
item count and key byte total and then appended to. -/
structure Segment where
  hdr : Option (Nat × Nat)
  entries : List SegEntry
deriving DecidableEq, Repr

/-- Modelled from the spec: scoutfs_seg_first_item writes the first item,
priming the header counts. -/
def scoutfs_seg_first_item (seg : Segment) (key : Key) (val : Option Val)
    (flags : Bool) (nr_items key_bytes : Nat) : Segment :=
  { hdr := some (nr_items, key_bytes),
    entries := seg.entries ++ [⟨key, val, flags⟩] }

/-- Modelled from the spec: scoutfs_seg_append_item appends a subsequent
item. -/
def scoutfs_seg_append_item (seg : Segment) (key : Key) (val : Option Val)
    (flags : Bool) : Segment :=
  { seg with entries := seg.entries ++ [⟨key, val, flags⟩] }

/-- count_seg_items' loop: walk the dirty items in key order, accumulating
counts, and remember the last point at which the accumulated items still
fit in one segment.  The fuel bounds the walk; the tree size plus one
always suffices. -/
def count_seg_items_go (fits : FitsSingle) (t : ItemTree) :
    Nat → Option CachedItem → Nat → Nat → Nat → Nat → Nat → Nat × Nat
  | 0, _, _, _, _, bestN, bestK => (bestN, bestK)
  | _ + 1, none, _, _, _, bestN, bestK => (bestN, bestK)
  | fuel + 1, some item, items, keys, vals, bestN, bestK =>
    let items' := items + 1
    let keys' := keys + item.key.length
    let vals' := vals + scoutfs_kvec_length item.val
    if !fits items' keys' vals' then (bestN, bestK)
    else count_seg_items_go fits t fuel (next_dirty t item.key)
      items' keys' vals' items' keys'

/-- count_seg_items: the initial sorted dirty items that fit in a segment,
as an item count and total key bytes. -/
def count_seg_items (fits : FitsSingle) (t : ItemTree) : Nat × Nat :=
  count_seg_items_go fits t (treeSize t + 1) (first_dirty t) 0 0 0 0 0

/-- scoutfs_item_dirty_seg's write loop over the counted prefix: write the
first item with seg_first_item (passing the count and key byte total) and
the rest with seg_append_item, clear each written item's dirty flag,
advance to the next dirty item and erase written deletion items from the
tree. -/
def dirty_seg_go : Nat → ItemCache → Segment → Option CachedItem → Nat →
    ItemCache × Segment
  | 0, cac, seg, _, _ => (cac, seg)
  | nrem + 1, cac, seg, cur, key_bytes =>
    match (match cur with | none => first_dirty cac.items | some it => some it) with
    | none => (cac, seg)
    | some item =>
      let seg' := match cur with
        | none => scoutfs_seg_first_item seg item.key item.val
            (item_flags item) (nrem + 1) key_bytes
        | some _ => scoutfs_seg_append_item seg item.key item.val
            (item_flags item)
      let kb' := key_bytes - item.key.length
      let cac1 := clear_item_dirty cac item.key
      let nxt := next_dirty cac1.items item.key
      let cac2 := if item.deletion then erase_item cac1 item.key else cac1
      dirty_seg_go nrem cac2 seg' nxt kb'

/-- scoutfs_item_dirty_seg: fill the segment with the initial dirty items
that fit, in sorted order, and return 0. -/
def scoutfs_item_dirty_seg (fits : FitsSingle) (cac : ItemCache)
    (seg : Segment) : Int × ItemCache × Segment :=
  let p := count_seg_items fits cac.items
  let q := dirty_seg_go p.1 cac seg none p.2
  (0, q.1, q.2)

/-- A right rotation at the root with the scoutfs_item_rb_rotate callback
applied: the old parent is recomputed first, then the new parent, both from
their post-rotation children. -/
def rotate_right : ItemTree → ItemTree
  | .node (.node a x b) y c =>
    let y' := { y with dirty := compute_item_dirty y b c }
    .node a { x with dirty := compute_item_dirty x a (.node b y' c) } (.node b y' c)
  | t => t

/-- A left rotation at the root with the rotate callback applied. -/
def rotate_left : ItemTree → ItemTree
  | .node a x (.node b y c) =>
    let x' := { x with dirty := compute_item_dirty x a b }
    .node (.node a x' b) { y with dirty := compute_item_dirty y (.node a x' b) c } c
  | t => t

/-- One rebalancing rotation somewhere in the item tree, as the red-black
library may perform while holding the cache lock. -/
inductive RotStep : ItemTree → ItemTree → Prop where
  | hereR (t : ItemTree) : RotStep t (rotate_right t)
  | hereL (t : ItemTree) : RotStep t (rotate_left t)
  | inL {l l' : ItemTree} (item : CachedItem) (r : ItemTree) :
      RotStep l l' → RotStep (.node l item r) (.node l' item r)
  | inR {r r' : ItemTree} (l : ItemTree) (item : CachedItem) :
      RotStep r r' → RotStep (.node l item r) (.node l item r')

/-- Staged batch lists are built by scoutfs_item_add_batch, whose
alloc_item zeroes the flags: clean non-deletion items. -/
def staged_ok (list : List CachedItem) : Prop :=
  ∀ it ∈ list, it.dirty = DirtyBits.clean ∧ it.deletion = false

/-- The cache states reachable from mount through the public operations.
The read-style operations (lookup, dirty, update, delete) mutate the cache
only in their locked sections, and the segment reader they call back into
mutates it only through insert_batch, so those are the steps; rebalancing
rotations of the underlying red-black tree are explicit steps. -/
inductive Reach : ItemCache → Prop where
  | init : Reach empty_cache
  | create {cac} (key : Key) (val : Option Val) (ok : Bool) :
      Reach cac → Reach (scoutfs_item_create cac key val ok).2
  | dirty {cac} (key : Key) :
      Reach cac → Reach (item_dirty_locked cac key).2.2
  | update {cac} (key : Key) (val : Option Val) :
      Reach cac → Reach (item_update_locked cac key val).2.2
  | delete {cac} (key : Key) :
      Reach cac → Reach (item_delete_locked cac key).2.2
  | delete_dirty {cac} (key : Key) :
      Reach cac → Reach (scoutfs_item_delete_dirty cac key)
  | insert_batch {cac} (list : List CachedItem) (start stop : Key)
      (ok : Bool) : staged_ok list →
      Reach cac → Reach (scoutfs_item_insert_batch cac list start stop ok).2.1
  | dirty_seg {cac} (fits : FitsSingle) (seg : Segment) :
      Reach cac → Reach (scoutfs_item_dirty_seg fits cac seg).2.1
  | rebalance {cac t} : Reach cac → RotStep cac.items t →
      Reach { cac with items := t }

/-- Whether any item of the subtree has any of its three dirty bits set. -/
def any_dirty : ItemTree → Bool
  | .leaf => false
  | .node l item r => item.dirty.any || any_dirty l || any_dirty r

/-- The augmented-index invariant: at every node, LEFT_DIRTY holds iff some
node of the left subtree has any dirty bit set, and symmetrically for
RIGHT_DIRTY. -/
def dirty_ok : ItemTree → Bool
  | .leaf => true
  | .node l item r =>
    (item.dirty.left = any_dirty l) && (item.dirty.right = any_dirty r) &&
    dirty_ok l && dirty_ok r

/-- The number of items whose ITEM_DIRTY bit is set. -/
def dirtyCount : ItemTree → Nat
  | .leaf => 0
  | .node l item r =>
    dirtyCount l + (if item.dirty.self then 1 else 0) + dirtyCount r

/-- The total key bytes of the ITEM_DIRTY items. -/
def dirtyKeySum : ItemTree → Nat
  | .leaf => 0
  | .node l item r =>
    dirtyKeySum l + (if item.dirty.self then item.key.length else 0) +
    dirtyKeySum r

/-- The total current value bytes of the ITEM_DIRTY items. -/
def dirtyValSum : ItemTree → Nat
  | .leaf => 0
  | .node l item r =>
    dirtyValSum l + (if item.dirty.self then scoutfs_kvec_length item.val else 0) +
    dirtyValSum r

/-- The aggregate-counter invariant the code actually maintains:
nr_dirty_items and dirty_key_bytes are exact, while dirty_val_bytes only
bounds the current value bytes of the dirty items from above (deleting an
already-dirty item nulls its value without adjusting the counter). -/
def counters_inv (cac : ItemCache) : Prop :=
  cac.nr_dirty_items = dirtyCount cac.items ∧
  cac.dirty_key_bytes = dirtyKeySum cac.items ∧
  (dirtyValSum cac.items : Int) ≤ cac.dirty_val_bytes

/-- All items of the subtree satisfy the predicate. -/
def treeAllItems (p : CachedItem → Bool) : ItemTree → Bool
  | .leaf => true
  | .node l item r => p item && treeAllItems p l && treeAllItems p r

/-- The binary-search-tree ordering of the item tree (keys unique and
properly placed). -/
def bst : ItemTree → Bool
  | .leaf => true
  | .node l item r =>
    treeAllItems (fun x => keyCompare x.key item.key = .lt) l &&
    treeAllItems (fun x => keyCompare item.key x.key = .lt) r &&
    bst l && bst r

/-- The data of an item that the cache's clients can observe: key, value
and deletion flag (the dirty bits are bookkeeping). -/
structure ItemData where
  key : Key
  val : Option Val
  deletion : Bool
deriving DecidableEq, Repr

def itemData (it : CachedItem) : ItemData := ⟨it.key, it.val, it.deletion⟩

/-- The in-order list of (item data, ITEM_DIRTY bit) pairs. -/
def sview : ItemTree → List (ItemData × Bool)
  | .leaf => []
  | .node l item r =>
    sview l ++ (itemData item, item.dirty.self) :: sview r

/-- The in-order data of the ITEM_DIRTY items. -/
def dirtyData (t : ItemTree) : List ItemData :=
  ((sview t).filter fun e => e.2).map fun e => e.1

/-- The segment entry a written item produces. -/
def dataEntry (e : ItemData) : SegEntry := ⟨e.key, e.val, e.deletion⟩

/-- The count_seg_items loop over the in-order dirty data: the longest
prefix each of whose cumulative (count, key bytes, value bytes) totals
still fits in a single segment. -/
def countFit (fits : FitsSingle) : List ItemData → Nat → Nat → Nat → Nat
  | [], _, _, _ => 0
  | e :: rest, items, keys, vals =>
    let items' := items + 1
    let keys' := keys + e.key.length
    let vals' := vals + scoutfs_kvec_length e.val
    if !fits items' keys' vals' then 0
    else countFit fits rest items' keys' vals' + 1

/-- Total key bytes of a list of item data. -/
def dataKeyBytes (l : List ItemData) : Nat :=
  (l.map fun e => e.key.length).sum

/-- Strict order of ranges: the first lies entirely before the second,
without overlapping or touching it. -/
def rangeLtB (a b : CachedRange) : Bool :=
  scoutfs_key_compare_ranges a.start a.stop b.start b.stop = .lt

/-- All ranges of the subtree satisfy the predicate. -/
def rangeAllB (p : CachedRange → Bool) : RangeTree → Bool
  | .leaf => true
  | .node l rng r => p rng && rangeAllB p l && rangeAllB p r

/-- Well-formedness of the range tree: every range nonempty, and the tree
ordered by the strict range order (which makes all ranges pairwise
disjoint and non-touching). -/
def rwf : RangeTree → Bool
  | .leaf => true
  | .node l rng r =>
    (keyCompare rng.start rng.stop ≠ .gt) &&
    rangeAllB (fun x => rangeLtB x rng) l &&
    rangeAllB (fun x => rangeLtB rng x) r &&
    rwf l && rwf r

/-- The in-order list of cached ranges. -/
def inorderRanges : RangeTree → List CachedRange
  | .leaf => []
  | .node l rng r => inorderRanges l ++ rng :: inorderRanges r

/-- A reader that always fails, for exercising paths that must not consult
the segment reader. -/
def failReader : Reader := fun cac _ _ => (-errEio, cac)

/-- The dirty data contributed by next_dirty's pending ancestors. -/
def ancData : List (CachedItem × ItemTree) → List ItemData
  | [] => []
  | (item, r) :: rest =>
    (if item.dirty.self then [itemData item] else []) ++ dirtyData r ++
    ancData rest

/-- The dirty data with keys strictly above the given key. -/
def dirtyAbove (t : ItemTree) (key : Key) : List ItemData :=
  (dirtyData t).filter fun e => keyCompare key e.key = .lt

/-- Strictly ascending key order of a data list. -/
def dataSorted (l : List ItemData) : Prop :=
  l.Pairwise fun a b => keyCompare a.key b.key = .lt

/-- The found component of walk_items, which is independent of the prev and
next accumulators. -/
def walkFound : ItemTree → Key → Option CachedItem
  | .leaf, _ => none
  | .node l item r, key =>
    match keyCompare key item.key with
    | .lt => walkFound l key
    | .gt => walkFound r key
    | .eq => some item

/-- Whether some item of the subtree has its ITEM_DIRTY bit set. -/
def selfAny : ItemTree → Bool
  | .leaf => false
  | .node l item r => item.dirty.self || selfAny l || selfAny r

/-- Clearing the ITEM_DIRTY flag of the entry with the given key, on the
in-order view. -/
def flipAt (k : Key) (p : ItemData × Bool) : ItemData × Bool :=
  if p.1.key = k then (p.1, false) else p

/-- The effect of writing out a set of items on the in-order view: a
written tombstone disappears from the cache, a written live item stays as
a clean entry, everything else is untouched. -/
def wb (written : List ItemData) : List (ItemData × Bool) →
    List (ItemData × Bool)
  | [] => []
  | p :: rest =>
    if (written.map ItemData.key).contains p.1.key then
      (if p.1.deletion then wb written rest
       else (p.1, false) :: wb written rest)
    else p :: wb written rest

/-- What one run of dirty_seg_go does, on the in-order view: the first
nrem dirty items are appended to the segment in order, their dirty flags
are cleared, written tombstones leave the tree, and the header is primed
exactly when the loop starts a fresh segment. -/
def SegSpec (nrem : Nat) (cac : ItemCache) (seg : Segment)
    (cur : Option CachedItem) (kb : Nat) : Prop :=
  sview (dirty_seg_go nrem cac seg cur kb).1.items =
    wb ((dirtyData cac.items).take nrem) (sview cac.items) ∧
  dirtyData (dirty_seg_go nrem cac seg cur kb).1.items =
    (dirtyData cac.items).drop nrem ∧
  bst (dirty_seg_go nrem cac seg cur kb).1.items = true ∧
  dirty_ok (dirty_seg_go nrem cac seg cur kb).1.items = true ∧
  (dirty_seg_go nrem cac seg cur kb).2.entries =
    seg.entries ++ ((dirtyData cac.items).take nrem).map dataEntry ∧
  (dirty_seg_go nrem cac seg cur kb).2.hdr =
    (if nrem = 0 then seg.hdr else
      match cur with
      | none => some (nrem, kb)
      | some _ => seg.hdr)

/-! Order lemmas for the key comparison. -/

theorem keyCompare_eq_iff (a b : Key) : keyCompare a b = .eq ↔ a = b := by
  induction a generalizing b with
  | nil => cases b <;> simp [keyCompare]
  | cons x xs ih =>
    cases b with
    | nil => simp [keyCompare]
    | cons y ys =>
      simp only [keyCompare]
      split_ifs with h1 h2
      · constructor
        · intro h; simp at h
        · intro h; injection h with h1' h2'; omega
      · constructor
        · intro h; simp at h
        · intro h; injection h with h1' h2'; omega
      · have hxy : x = y := by omega
        subst hxy
        rw [ih ys]
        constructor
        · intro h; rw [h]
        · intro h; injection h

theorem keyCompare_self (a : Key) : keyCompare a a = .eq :=
  (keyCompare_eq_iff a a).mpr rfl

theorem keyCompare_swap (a b : Key) :
    keyCompare b a = (keyCompare a b).swap := by
  induction a generalizing b with
  | nil => cases b <;> simp [keyCompare, Ordering.swap]
  | cons x xs ih =>
    cases b with
    | nil => simp [keyCompare, Ordering.swap]
    | cons y ys =>
      simp only [keyCompare]
      split_ifs with h1 h2 h3 h4 h5 h6 <;>
        first
        | rfl
        | omega
        | (exact ih ys)
        | (simp [Ordering.swap])

theorem keyCompare_lt_trans {a b c : Key} (hab : keyCompare a b = .lt)
    (hbc : keyCompare b c = .lt) : keyCompare a c = .lt := by
  induction a generalizing b c with
  | nil =>
    cases b with
    | nil => simp [keyCompare] at hab
    | cons y ys =>
      cases c with
      | nil => simp [keyCompare] at hbc
      | cons z zs => simp [keyCompare]
  | cons x xs ih =>
    cases b with
    | nil => simp [keyCompare] at hab
    | cons y ys =>
      cases c with
      | nil => simp [keyCompare] at hbc
      | cons z zs =>
        simp only [keyCompare] at hab hbc ⊢
        split_ifs with h1 h2
        · rfl
        · exfalso
          split_ifs at hab hbc <;> first | omega | simp_all
        · split_ifs at hab hbc <;> first | omega | exact ih hab hbc | simp_all

theorem keyCompare_gt_iff_lt (a b : Key) :
    keyCompare a b = .gt ↔ keyCompare b a = .lt := by
  rw [keyCompare_swap b a]
  cases h : keyCompare b a <;> simp [h, Ordering.swap]

theorem keyCompare_le_lt_trans {a b c : Key} (h1 : keyCompare a b ≠ .gt)
    (h2 : keyCompare b c = .lt) : keyCompare a c = .lt := by
  cases h : keyCompare a b with
  | lt => exact keyCompare_lt_trans h h2
  | eq =>
    have hab := (keyCompare_eq_iff a b).mp h
    subst hab; exact h2
  | gt => exact absurd h h1

theorem keyCompare_lt_le_trans {a b c : Key} (h1 : keyCompare a b = .lt)
    (h2 : keyCompare b c ≠ .gt) : keyCompare a c = .lt := by
  cases h : keyCompare b c with
  | lt => exact keyCompare_lt_trans h1 h
  | eq =>
    have hbc := (keyCompare_eq_iff b c).mp h
    subst hbc; exact h1
  | gt => exact absurd h h2

theorem keyCompare_le_trans {a b c : Key} (h1 : keyCompare a b ≠ .gt)
    (h2 : keyCompare b c ≠ .gt) : keyCompare a c ≠ .gt := by
  cases h : keyCompare a b with
  | lt => rw [keyCompare_lt_le_trans h h2]; simp
  | eq =>
    have hab := (keyCompare_eq_iff a b).mp h
    subst hab; exact h2
  | gt => exact absurd h h1

theorem keyCompare_lt_ne {a b : Key} (h : keyCompare a b = .lt) : a ≠ b := by
  intro he; subst he; rw [keyCompare_self] at h; simp at h

theorem keyCompare_lt_not_gt {a b : Key} (h : keyCompare a b = .lt) :
    keyCompare a b ≠ .gt := by rw [h]; simp

theorem kbCompare_le_lt_trans {x y z : KeyB} (h1 : kbCompare x y ≠ .gt)
    (h2 : kbCompare y z = .lt) : kbCompare x z = .lt := by
  cases x with
  | none =>
    cases y with
    | none => cases z <;> simp [kbCompare] at h2 ⊢
    | some b => simp [kbCompare] at h1
  | some a =>
    cases y with
    | none => cases z <;> simp [kbCompare] at h2
    | some b =>
      cases z with
      | none => simp [kbCompare]
      | some c =>
        simp only [kbCompare] at h1 h2 ⊢
        exact keyCompare_le_lt_trans h1 h2

theorem kbCompare_le_le_trans {x y z : KeyB} (h1 : kbCompare x y ≠ .gt)
    (h2 : kbCompare y z ≠ .gt) : kbCompare x z ≠ .gt := by
  cases x with
  | none =>
    cases y with
    | none => cases z <;> simp_all [kbCompare]
    | some b => simp [kbCompare] at h1
  | some a =>
    cases y with
    | none => cases z <;> simp_all [kbCompare]
    | some b =>
      cases z with
      | none => simp [kbCompare]
      | some c =>
        simp only [kbCompare] at h1 h2 ⊢
        exact keyCompare_le_trans h1 h2

/-! Data-preservation lemmas for the propagate callback. -/

theorem propagate_step_data (l : ItemTree) (item : CachedItem) (r : ItemTree)
    (s : Bool) : itemData (propagate_step l item r s).1 = itemData item := by
  simp only [propagate_step]
  split_ifs <;> rfl

theorem propagate_step_self (l : ItemTree) (item : CachedItem) (r : ItemTree)
    (s : Bool) : (propagate_step l item r s).1.dirty.self = item.dirty.self := by
  simp only [propagate_step]
  split_ifs <;> rfl

theorem propagate_step_key (l : ItemTree) (item : CachedItem) (r : ItemTree)
    (s : Bool) : (propagate_step l item r s).1.key = item.key := by
  simp only [propagate_step]
  split_ifs <;> rfl

/-- C9: with key > last, scoutfs_item_next returns NOT_FOUND before the
trees are consulted: the result is the same for every cache state, every
reader, every fuel, and the cache and key are returned unchanged, so
neither tree is read and the segment reader is never called. -/
theorem claim_C9 (fuel : Nat) (cac : ItemCache) (key last : Key)
    (buf : Option Nat) (reader : Reader) (alloc_ok : Bool)
    (h : keyCompare key last = .gt) :
    scoutfs_item_next fuel cac key last buf reader alloc_ok =
      (-errENOENT, key, cac) := by
  unfold scoutfs_item_next
  rw [h]
  simp

/-- Witness for C9 at a concrete iteration past its last key. -/
theorem claim_C9_witness :
    keyCompare [1] [0] = .gt ∧
    scoutfs_item_next 0 empty_cache [1] [0] none failReader true =
      (-errENOENT, [1], empty_cache) :=
  ⟨by decide, claim_C9 0 empty_cache [1] [0] none failReader true (by decide)⟩


/-! Lemmas about the walk at the key of a bit-only or in-place change. -/

theorem walk_go_fst (t : ItemTree) (key : Key) (p n : Option CachedItem) :
    (walk_items_go t key p n).1 = walkFound t key := by
  induction t generalizing p n with
  | leaf => rfl
  | node l item r ihl ihr =>
    simp only [walk_items_go, walkFound]
    cases h : keyCompare key item.key with
    | lt => simp only [h]; exact ihl _ _
    | gt => simp only [h]; exact ihr _ _
    | eq => simp only [h]

theorem find_item_eq (t : ItemTree) (key : Key) :
    find_item t key =
      match walkFound t key with
      | some item => if item.deletion then none else some item
      | none => none := by
  unfold find_item walk_items
  rw [walk_go_fst]

theorem set_self_true_of_self {it : CachedItem} (hs : it.dirty.self = true) :
    { it with dirty := { it.dirty with self := true } } = it := by
  cases it with
  | mk k v d db => cases db; simp_all

theorem set_self_false_of_not_self {it : CachedItem} (hs : it.dirty.self = false) :
    { it with dirty := { it.dirty with self := false } } = it := by
  cases it with
  | mk k v d db => cases db; simp_all

theorem walkFound_modify (f : CachedItem → CachedItem)
    (hf : ∀ it, (f it).key = it.key) (t : ItemTree) (key : Key) :
    walkFound (modify_at f t key) key = (walkFound t key).map f := by
  induction t with
  | leaf => rfl
  | node l item r ihl ihr =>
    simp only [modify_at]
    cases h : keyCompare key item.key with
    | lt => simp only [walkFound, h]; exact ihl
    | gt => simp only [walkFound, h]; exact ihr
    | eq => simp only [walkFound, hf item, h]; rfl

theorem walkFound_mark (t : ItemTree) (key : Key) :
    walkFound (mark_dirty_at t key).1 key =
      (walkFound t key).map
        (fun it => { it with dirty := { it.dirty with self := true } }) := by
  induction t with
  | leaf => rfl
  | node l item r ihl ihr =>
    simp only [mark_dirty_at]
    cases h : keyCompare key item.key with
    | lt =>
      simp only [walkFound, propagate_step_key, h]
      exact ihl
    | gt =>
      simp only [walkFound, propagate_step_key, h]
      exact ihr
    | eq =>
      by_cases hs : item.dirty.self
      · simp only [hs, if_true, walkFound, h, Option.map]
        rw [set_self_true_of_self hs]
      · simp only [hs, if_false, walkFound, h]
        rfl

theorem walkFound_clear (t : ItemTree) (key : Key) :
    walkFound (clear_dirty_at t key).1 key =
      (walkFound t key).map
        (fun it => { it with dirty := { it.dirty with self := false } }) := by
  induction t with
  | leaf => rfl
  | node l item r ihl ihr =>
    simp only [clear_dirty_at]
    cases h : keyCompare key item.key with
    | lt =>
      simp only [walkFound, propagate_step_key, h]
      exact ihl
    | gt =>
      simp only [walkFound, propagate_step_key, h]
      exact ihr
    | eq =>
      by_cases hs : item.dirty.self
      · simp only [hs, if_true, walkFound, h]
        rfl
      · have hs' : item.dirty.self = false := by simp [hs]
        simp only [hs, if_false, walkFound, h, Option.map]
        rw [set_self_false_of_not_self hs']

theorem mark_item_dirty_items (cac : ItemCache) (key : Key) :
    (mark_item_dirty cac key).items = (mark_dirty_at cac.items key).1 := by
  cases h : (mark_dirty_at cac.items key).2.2 <;> simp [mark_item_dirty, h]

theorem clear_item_dirty_items (cac : ItemCache) (key : Key) :
    (clear_item_dirty cac key).items = (clear_dirty_at cac.items key).1 := by
  cases h : (clear_dirty_at cac.items key).2.2 <;> simp [clear_item_dirty, h]

theorem become_deletion_items (cac : ItemCache) (key : Key) :
    (become_deletion_item cac key).items =
      (mark_dirty_at
        (modify_at (fun it => { it with val := none, deletion := true })
          cac.items key) key).1 := by
  unfold become_deletion_item
  rw [mark_item_dirty_items]

/-- C10: scoutfs_item_delete_dirty is total and idempotent: with no live
item at the key (absent, or only a tombstone) it is a silent no-op, and a
second application is always absorbed because the first leaves a tombstone
that find_item treats as absent. -/
theorem claim_C10 (cac : ItemCache) (key : Key) :
    (find_item cac.items key = none → scoutfs_item_delete_dirty cac key = cac) ∧
    scoutfs_item_delete_dirty (scoutfs_item_delete_dirty cac key) key =
      scoutfs_item_delete_dirty cac key := by
  have noop : ∀ c : ItemCache, find_item c.items key = none →
      scoutfs_item_delete_dirty c key = c := by
    intro c h
    unfold scoutfs_item_delete_dirty
    rw [h]
  refine ⟨noop cac, ?_⟩
  cases h : find_item cac.items key with
  | none =>
    rw [noop cac h, noop cac h]
  | some it =>
    have h1 : scoutfs_item_delete_dirty cac key = become_deletion_item cac key := by
      unfold scoutfs_item_delete_dirty
      rw [h]
    have hw : walkFound cac.items key = some it := by
      rw [find_item_eq] at h
      cases hwf : walkFound cac.items key with
      | none => rw [hwf] at h; simp at h
      | some it0 =>
        rw [hwf] at h
        by_cases hd : it0.deletion
        · simp [hd] at h
        · simp [hd] at h
          rw [h]
    have hfind : find_item (become_deletion_item cac key).items key = none := by
      rw [find_item_eq, become_deletion_items, walkFound_mark,
          walkFound_modify (fun it => { it with val := none, deletion := true })
            (fun _ => rfl), hw]
      rfl
    rw [h1, noop _ hfind]

/-- Witness for C10 at a cache holding a tombstone at the key. -/
theorem claim_C10_witness :
    find_item ((scoutfs_item_delete 1
        (scoutfs_item_create empty_cache [0] (some [7]) true).2
        [0] failReader true).2).items [0] = none ∧
    scoutfs_item_delete_dirty ((scoutfs_item_delete 1
        (scoutfs_item_create empty_cache [0] (some [7]) true).2
        [0] failReader true).2) [0] =
      (scoutfs_item_delete 1
        (scoutfs_item_create empty_cache [0] (some [7]) true).2
        [0] failReader true).2 :=
  ⟨by decide,
   (claim_C10 ((scoutfs_item_delete 1
      (scoutfs_item_create empty_cache [0] (some [7]) true).2
      [0] failReader true).2) [0]).1 (by decide)⟩

/-- C8 as stated is false: the start > end argument check returns EINVAL
before the free of the staged list, leaving the caller's nonempty list
untouched. -/
theorem claim_C8_counterexample :
    scoutfs_item_insert_batch empty_cache
        [{ key := [5], val := none }] [1] [0] true =
      (-errEINVAL, empty_cache, [{ key := [5], val := none }]) ∧
    ([{ key := [5], val := none }] : List CachedItem) ≠ [] := by
  exact ⟨by decide, by decide⟩

/-- C8 amended: insert_batch consumes and frees the staged list whenever it
passes the argument check: on success and on OUT_OF_MEMORY the caller's
list is empty afterwards; when it fails with INVALID because start > end it
returns before the free and the list is returned untouched. -/
theorem claim_C8 (cac : ItemCache) (list : List CachedItem) (start stop : Key)
    (ok : Bool) :
    (keyCompare start stop = .gt →
      scoutfs_item_insert_batch cac list start stop ok =
        (-errEINVAL, cac, list)) ∧
    (keyCompare start stop ≠ .gt →
      (scoutfs_item_insert_batch cac list start stop ok).2.2 = [] ∧
      (ok = false →
        scoutfs_item_insert_batch cac list start stop ok =
          (-errENOMEM, cac, [])) ∧
      (ok = true → (scoutfs_item_insert_batch cac list start stop ok).1 = 0)) := by
  constructor
  · intro h
    unfold scoutfs_item_insert_batch
    rw [if_pos h]
  · intro h
    unfold scoutfs_item_insert_batch
    rw [if_neg h]
    cases ok <;> simp

/-- Witness for C8 exercising the success, OOM and INVALID paths. -/
theorem claim_C8_witness :
    (scoutfs_item_insert_batch empty_cache [{ key := [5], val := none }]
        [1] [0] true = (-errEINVAL, empty_cache, [{ key := [5], val := none }])) ∧
    ((scoutfs_item_insert_batch empty_cache [{ key := [5], val := none }]
        [0] [1] true).2.2 = []) ∧
    (scoutfs_item_insert_batch empty_cache [{ key := [5], val := none }]
        [0] [1] false = (-errENOMEM, empty_cache, [])) :=
  ⟨(claim_C8 empty_cache [{ key := [5], val := none }] [1] [0] true).1 (by decide),
   ((claim_C8 empty_cache [{ key := [5], val := none }] [0] [1] true).2
      (by decide)).1,
   (((claim_C8 empty_cache [{ key := [5], val := none }] [0] [1] false).2
      (by decide)).2).1 rfl⟩

theorem kbCompare_swap (x y : KeyB) : kbCompare y x = (kbCompare x y).swap := by
  cases x <;> cases y <;>
    first
    | (simp only [kbCompare]; exact keyCompare_swap _ _)
    | simp [kbCompare, Ordering.swap]

theorem for_next_loop_spec (fuel : Nat) (t : ItemTree)
    (cur : Option CachedItem) (lastB : KeyB) (it : CachedItem)
    (h : for_next_loop fuel t cur lastB = some it) :
    it.deletion = false ∧ kbCompare (some it.key) lastB ≠ .gt := by
  induction fuel generalizing cur with
  | zero => simp [for_next_loop] at h
  | succ n ih =>
    cases cur with
    | none => simp [for_next_loop] at h
    | some item =>
      simp only [for_next_loop] at h
      by_cases h1 : kbCompare (some item.key) lastB = .gt
      · rw [if_pos h1] at h
        simp at h
      · rw [if_neg h1] at h
        by_cases h2 : item.deletion = true
        · rw [h2] at h
          simp only [Bool.not_true, Bool.false_eq_true, if_false] at h
          exact ih _ h
        · have h2' : item.deletion = false := by simp at h2; exact h2
          rw [h2'] at h
          simp only [Bool.not_false, if_true, Option.some.injEq] at h
          subst h
          exact ⟨h2', h1⟩

/-- C5: a point lookup never returns a tombstone (a covered key holding
only a deletion item yields NOT_FOUND), and item_for_next only returns a
live item whose key is within both the covered range end and the caller's
last key. -/
theorem claim_C5 :
    (∀ (t : ItemTree) (key : Key) (it : CachedItem),
      find_item t key = some it → it.deletion = false) ∧
    (∀ (t : ItemTree) (key : Key) (range_end : KeyB) (last : Key)
      (it : CachedItem), item_for_next t key range_end last = some it →
        it.deletion = false ∧ kbCompare (some it.key) range_end ≠ .gt ∧
        keyCompare it.key last ≠ .gt) ∧
    (∀ (fuel : Nat) (cac : ItemCache) (key : Key) (buf : Nat)
      (reader : Reader) (it : CachedItem), walkFound cac.items key = some it →
      it.deletion = true → (check_range cac.ranges key).1 = true →
      lookup_loop (fuel + 1) cac key buf reader = (-errENOENT, cac)) := by
  refine ⟨?_, ?_, ?_⟩
  · intro t key it h
    rw [find_item_eq] at h
    cases hwf : walkFound t key with
    | none => rw [hwf] at h; simp at h
    | some it0 =>
      rw [hwf] at h
      have h' : (if it0.deletion = true then none else some it0) = some it := h
      by_cases hd : it0.deletion = true
      · rw [if_pos hd] at h'; simp at h'
      · rw [if_neg hd] at h'
        simp only [Option.some.injEq] at h'
        subst h'
        simp only [Bool.not_eq_true] at hd
        exact hd
  · intro t key range_end last it h
    unfold item_for_next at h
    cases hm : kbCompare range_end (some last) with
    | lt =>
      rw [if_pos hm] at h
      have hb := for_next_loop_spec _ _ _ _ _ h
      refine ⟨hb.1, hb.2, ?_⟩
      have hlt : kbCompare (some it.key) (some last) = .lt :=
        kbCompare_le_lt_trans hb.2 hm
      simp only [kbCompare] at hlt
      rw [hlt]
      simp
    | eq =>
      rw [if_neg (by rw [hm]; simp)] at h
      have hb := for_next_loop_spec _ _ _ _ _ h
      have hle : kbCompare (some last) range_end ≠ .gt := by
        rw [kbCompare_swap range_end (some last), hm]
        decide
      refine ⟨hb.1, kbCompare_le_le_trans hb.2 hle, by
        have hk := hb.2
        simp only [kbCompare] at hk
        exact hk⟩
    | gt =>
      rw [if_neg (by rw [hm]; simp)] at h
      have hb := for_next_loop_spec _ _ _ _ _ h
      have hle : kbCompare (some last) range_end ≠ .gt := by
        rw [kbCompare_swap range_end (some last), hm]
        decide
      refine ⟨hb.1, kbCompare_le_le_trans hb.2 hle, by
        have hk := hb.2
        simp only [kbCompare] at hk
        exact hk⟩
  · intro fuel cac key buf reader it hwf hdel hcov
    have hfind : find_item cac.items key = none := by
      rw [find_item_eq, hwf]
      show (if it.deletion = true then none else some it) = none
      rw [if_pos hdel]
    have hcr : check_range cac.ranges key =
        (true, (check_range cac.ranges key).2) := by
      cases hc : check_range cac.ranges key with
      | mk b e => rw [hc] at hcov; simp at hcov; rw [hcov]
    have hlock : lookup_locked cac key buf =
        (-errENOENT, (check_range cac.ranges key).2) := by
      unfold lookup_locked
      rw [hfind, hcr]
    simp only [lookup_loop, hlock]
    rw [if_neg (by norm_num [errENOENT, errENODATA])]

/-- Witness for C5 at concrete caches: a live hit, a bounded successor scan
and a covered tombstone lookup. -/
theorem claim_C5_witness :
    ((⟨[1], some [7], false, .clean⟩ : CachedItem)).deletion = false ∧
    ((⟨[3], some [8], false, .clean⟩ : CachedItem)).deletion = false ∧
    lookup_loop 1
        ⟨.node .leaf ⟨[2], none, true, ⟨true, false, false⟩⟩ .leaf,
          .node .leaf ⟨[0], [9]⟩ .leaf, 1, 1, 0⟩ [2] 10 failReader =
      (-errENOENT,
        ⟨.node .leaf ⟨[2], none, true, ⟨true, false, false⟩⟩ .leaf,
          .node .leaf ⟨[0], [9]⟩ .leaf, 1, 1, 0⟩) :=
  ⟨claim_C5.1 (.node .leaf ⟨[1], some [7], false, .clean⟩ .leaf) [1]
      ⟨[1], some [7], false, .clean⟩ (by decide),
   (claim_C5.2.1 (.node .leaf ⟨[3], some [8], false, .clean⟩ .leaf) [2]
      (some [9]) [5] ⟨[3], some [8], false, .clean⟩ (by decide)).1,
   claim_C5.2.2 0
      ⟨.node .leaf ⟨[2], none, true, ⟨true, false, false⟩⟩ .leaf,
        .node .leaf ⟨[0], [9]⟩ .leaf, 1, 1, 0⟩ [2] 10 failReader
      ⟨[2], none, true, ⟨true, false, false⟩⟩
      (by decide) (by decide) (by decide)⟩

theorem propagate_step_val (l : ItemTree) (item : CachedItem) (r : ItemTree)
    (s : Bool) : (propagate_step l item r s).1.val = item.val := by
  simp only [propagate_step]
  split_ifs <;> rfl

theorem propagate_step_deletion (l : ItemTree) (item : CachedItem)
    (r : ItemTree) (s : Bool) :
    (propagate_step l item r s).1.deletion = item.deletion := by
  simp only [propagate_step]
  split_ifs <;> rfl

/-! Effect of the dirty-bit primitives on the aggregate sums. -/

theorem mark_dirty_at_sums (t : ItemTree) (key : Key) :
    ((mark_dirty_at t key).2.2 = none →
      dirtyCount (mark_dirty_at t key).1 = dirtyCount t ∧
      dirtyKeySum (mark_dirty_at t key).1 = dirtyKeySum t ∧
      dirtyValSum (mark_dirty_at t key).1 = dirtyValSum t) ∧
    (∀ it, (mark_dirty_at t key).2.2 = some it →
      dirtyCount (mark_dirty_at t key).1 = dirtyCount t + 1 ∧
      dirtyKeySum (mark_dirty_at t key).1 = dirtyKeySum t + it.key.length ∧
      dirtyValSum (mark_dirty_at t key).1 =
        dirtyValSum t + scoutfs_kvec_length it.val) := by
  induction t with
  | leaf => simp [mark_dirty_at]
  | node l item r ihl ihr =>
    cases h : keyCompare key item.key with
    | lt =>
      simp only [mark_dirty_at, h, dirtyCount, dirtyKeySum, dirtyValSum,
        propagate_step_self, propagate_step_key, propagate_step_val]
      constructor
      · intro hn
        obtain ⟨h1, h2, h3⟩ := ihl.1 hn
        rw [h1, h2, h3]
        exact ⟨rfl, rfl, rfl⟩
      · intro it hs
        obtain ⟨h1, h2, h3⟩ := ihl.2 it hs
        rw [h1, h2, h3]
        refine ⟨by omega, by omega, by omega⟩
    | gt =>
      simp only [mark_dirty_at, h, dirtyCount, dirtyKeySum, dirtyValSum,
        propagate_step_self, propagate_step_key, propagate_step_val]
      constructor
      · intro hn
        obtain ⟨h1, h2, h3⟩ := ihr.1 hn
        rw [h1, h2, h3]
        exact ⟨rfl, rfl, rfl⟩
      · intro it hs
        obtain ⟨h1, h2, h3⟩ := ihr.2 it hs
        rw [h1, h2, h3]
        refine ⟨by omega, by omega, by omega⟩
    | eq =>
      by_cases hs : item.dirty.self = true
      · have he : mark_dirty_at (ItemTree.node l item r) key =
            (ItemTree.node l item r, true, none) := by
          simp [mark_dirty_at, h, hs]
        rw [he]
        constructor
        · intro _; exact ⟨rfl, rfl, rfl⟩
        · intro it hit; simp at hit
      · have hs' : item.dirty.self = false := by simp at hs; exact hs
        have he : mark_dirty_at (ItemTree.node l item r) key =
            (ItemTree.node l
              { item with dirty := { item.dirty with self := true } } r,
             false, some item) := by
          simp [mark_dirty_at, h, hs']
        rw [he]
        constructor
        · intro hn; simp at hn
        · intro it hit
          simp only [Option.some.injEq] at hit
          subst hit
          refine ⟨?_, ?_, ?_⟩ <;>
            simp [dirtyCount, dirtyKeySum, dirtyValSum, hs'] <;> omega

theorem clear_dirty_at_sums (t : ItemTree) (key : Key) :
    ((clear_dirty_at t key).2.2 = none →
      dirtyCount (clear_dirty_at t key).1 = dirtyCount t ∧
      dirtyKeySum (clear_dirty_at t key).1 = dirtyKeySum t ∧
      dirtyValSum (clear_dirty_at t key).1 = dirtyValSum t) ∧
    (∀ it, (clear_dirty_at t key).2.2 = some it →
      dirtyCount t = dirtyCount (clear_dirty_at t key).1 + 1 ∧
      dirtyKeySum t = dirtyKeySum (clear_dirty_at t key).1 + it.key.length ∧
      dirtyValSum t =
        dirtyValSum (clear_dirty_at t key).1 + scoutfs_kvec_length it.val) := by
  induction t with
  | leaf => simp [clear_dirty_at]
  | node l item r ihl ihr =>
    cases h : keyCompare key item.key with
    | lt =>
      simp only [clear_dirty_at, h, dirtyCount, dirtyKeySum, dirtyValSum,
        propagate_step_self, propagate_step_key, propagate_step_val]
      constructor
      · intro hn
        obtain ⟨h1, h2, h3⟩ := ihl.1 hn
        rw [h1, h2, h3]
        exact ⟨rfl, rfl, rfl⟩
      · intro it hs
        obtain ⟨h1, h2, h3⟩ := ihl.2 it hs
        rw [h1, h2, h3]
        refine ⟨by omega, by omega, by omega⟩
    | gt =>
      simp only [clear_dirty_at, h, dirtyCount, dirtyKeySum, dirtyValSum,
        propagate_step_self, propagate_step_key, propagate_step_val]
      constructor
      · intro hn
        obtain ⟨h1, h2, h3⟩ := ihr.1 hn
        rw [h1, h2, h3]
        exact ⟨rfl, rfl, rfl⟩
      · intro it hs
        obtain ⟨h1, h2, h3⟩ := ihr.2 it hs
        rw [h1, h2, h3]
        refine ⟨by omega, by omega, by omega⟩
    | eq =>
      by_cases hs : item.dirty.self = true
      · have he : clear_dirty_at (ItemTree.node l item r) key =
            (ItemTree.node l
              { item with dirty := { item.dirty with self := false } } r,
             false, some item) := by
          simp [clear_dirty_at, h, hs]
        rw [he]
        constructor
        · intro hn; simp at hn
        · intro it hit
          simp only [Option.some.injEq] at hit
          subst hit
          refine ⟨?_, ?_, ?_⟩ <;>
            simp [dirtyCount, dirtyKeySum, dirtyValSum, hs] <;> omega
      · have hs' : item.dirty.self = false := by simp at hs; exact hs
        have he : clear_dirty_at (ItemTree.node l item r) key =
            (ItemTree.node l item r, true, none) := by
          simp [clear_dirty_at, h, hs']
        rw [he]
        constructor
        · intro _; exact ⟨rfl, rfl, rfl⟩
        · intro it hit; simp at hit

theorem remove_leftmost_isSome (l : ItemTree) (item : CachedItem)
    (r : ItemTree) : (remove_leftmost (.node l item r)).isSome := by
  induction l generalizing item r with
  | leaf => simp [remove_leftmost]
  | node a x b iha ihb =>
    simp only [remove_leftmost]
    cases hr : remove_leftmost (.node a x b) with
    | none =>
      have hs := iha x b
      rw [hr] at hs
      simp at hs
    | some p => obtain ⟨m, l', s⟩ := p; simp

theorem remove_leftmost_sums (t : ItemTree) :
    ∀ m t' s, remove_leftmost t = some (m, t', s) →
      dirtyCount t = dirtyCount t' + (if m.dirty.self then 1 else 0) ∧
      dirtyKeySum t = dirtyKeySum t' +
        (if m.dirty.self then m.key.length else 0) ∧
      dirtyValSum t = dirtyValSum t' +
        (if m.dirty.self then scoutfs_kvec_length m.val else 0) := by
  induction t with
  | leaf => intro m t' s h; simp [remove_leftmost] at h
  | node l item r ihl ihr =>
    intro m t' s h
    cases l with
    | leaf =>
      simp only [remove_leftmost, Option.some.injEq, Prod.mk.injEq] at h
      obtain ⟨rfl, rfl, rfl⟩ := h
      simp [dirtyCount, dirtyKeySum, dirtyValSum]
      refine ⟨by omega, by omega, by omega⟩
    | node a x b =>
      simp only [remove_leftmost] at h
      cases hr : remove_leftmost (.node a x b) with
      | none => rw [hr] at h; simp at h
      | some p =>
        obtain ⟨m0, l', s0⟩ := p
        rw [hr] at h
        simp only [Option.some.injEq, Prod.mk.injEq] at h
        obtain ⟨rfl, rfl, rfl⟩ := h
        obtain ⟨g1, g2, g3⟩ := ihl m0 l' s0 hr
        simp only [dirtyCount, dirtyKeySum, dirtyValSum, propagate_step_self,
          propagate_step_key, propagate_step_val] at g1 g2 g3 ⊢
        refine ⟨by omega, by omega, by omega⟩

theorem erase_at_found (t : ItemTree) (key : Key) :
    (erase_at t key).2.2 = walkFound t key := by
  induction t with
  | leaf => rfl
  | node l item r ihl ihr =>
    cases h : keyCompare key item.key with
    | lt => simp only [erase_at, walkFound, h]; exact ihl
    | gt => simp only [erase_at, walkFound, h]; exact ihr
    | eq =>
      cases l with
      | leaf => simp [erase_at, walkFound, h]
      | node la lx lb =>
        cases r with
        | leaf => simp [erase_at, walkFound, h]
        | node ra rx rb =>
          simp only [erase_at, walkFound, h]
          cases hr : remove_leftmost (.node ra rx rb) with
          | none =>
            have hs := remove_leftmost_isSome ra rx rb
            rw [hr] at hs
            simp at hs
          | some p => obtain ⟨m0, r', s0⟩ := p; rfl

theorem erase_at_sums (t : ItemTree) (key : Key) :
    ((erase_at t key).2.2 = none →
      dirtyCount (erase_at t key).1 = dirtyCount t ∧
      dirtyKeySum (erase_at t key).1 = dirtyKeySum t ∧
      dirtyValSum (erase_at t key).1 = dirtyValSum t) ∧
    (∀ er, (erase_at t key).2.2 = some er →
      dirtyCount t = dirtyCount (erase_at t key).1 +
        (if er.dirty.self then 1 else 0) ∧
      dirtyKeySum t = dirtyKeySum (erase_at t key).1 +
        (if er.dirty.self then er.key.length else 0) ∧
      dirtyValSum t = dirtyValSum (erase_at t key).1 +
        (if er.dirty.self then scoutfs_kvec_length er.val else 0)) := by
  induction t with
  | leaf => simp [erase_at]
  | node l item r ihl ihr =>
    cases h : keyCompare key item.key with
    | lt =>
      simp only [erase_at, h, dirtyCount, dirtyKeySum, dirtyValSum,
        propagate_step_self, propagate_step_key, propagate_step_val]
      constructor
      · intro hn
        obtain ⟨h1, h2, h3⟩ := ihl.1 hn
        rw [h1, h2, h3]
        exact ⟨rfl, rfl, rfl⟩
      · intro er hs
        obtain ⟨h1, h2, h3⟩ := ihl.2 er hs
        rw [h1, h2, h3]
        refine ⟨by omega, by omega, by omega⟩
    | gt =>
      simp only [erase_at, h, dirtyCount, dirtyKeySum, dirtyValSum,
        propagate_step_self, propagate_step_key, propagate_step_val]
      constructor
      · intro hn
        obtain ⟨h1, h2, h3⟩ := ihr.1 hn
        rw [h1, h2, h3]
        exact ⟨rfl, rfl, rfl⟩
      · intro er hs
        obtain ⟨h1, h2, h3⟩ := ihr.2 er hs
        rw [h1, h2, h3]
        refine ⟨by omega, by omega, by omega⟩
    | eq =>
      cases l with
      | leaf =>
        simp only [erase_at, h]
        constructor
        · intro hn; simp at hn
        · intro er hs
          simp only [Option.some.injEq] at hs
          subst hs
          simp [dirtyCount, dirtyKeySum, dirtyValSum]
          refine ⟨by omega, by omega, by omega⟩
      | node la lx lb =>
        cases r with
        | leaf =>
          simp only [erase_at, h]
          constructor
          · intro hn; simp at hn
          · intro er hs
            simp only [Option.some.injEq] at hs
            subst hs
            refine ⟨?_, ?_, ?_⟩ <;>
              simp [dirtyCount, dirtyKeySum, dirtyValSum] <;> omega
        | node ra rx rb =>
          simp only [erase_at, h]
          cases hr : remove_leftmost (.node ra rx rb) with
          | none =>
            have hs := remove_leftmost_isSome ra rx rb
            rw [hr] at hs
            simp at hs
          | some p =>
            obtain ⟨m0, r', s0⟩ := p
            obtain ⟨g1, g2, g3⟩ := remove_leftmost_sums _ m0 r' s0 hr
            constructor
            · intro hn; simp at hn
            · intro er hs
              simp only [Option.some.injEq] at hs
              subst hs
              simp only [dirtyCount, dirtyKeySum, dirtyValSum,
                compute_item_dirty] at g1 g2 g3 ⊢
              refine ⟨by omega, by omega, by omega⟩

theorem insert_descend_sums (ins : CachedItem) (t : ItemTree) :
    (∀ t', insert_descend ins t = .inserted t' →
      dirtyCount t' = dirtyCount t + (if ins.dirty.self then 1 else 0) ∧
      dirtyKeySum t' = dirtyKeySum t +
        (if ins.dirty.self then ins.key.length else 0) ∧
      dirtyValSum t' = dirtyValSum t +
        (if ins.dirty.self then scoutfs_kvec_length ins.val else 0)) ∧
    (∀ live t', insert_descend ins t = .matched live t' →
      dirtyCount t' = dirtyCount t ∧ dirtyKeySum t' = dirtyKeySum t ∧
      dirtyValSum t' = dirtyValSum t) := by
  induction t with
  | leaf =>
    constructor
    · intro t' h
      simp only [insert_descend, InsDescend.inserted.injEq] at h
      subst h
      simp [dirtyCount, dirtyKeySum, dirtyValSum]
    · intro live t' h
      simp [insert_descend] at h
  | node l item r ihl ihr =>
    have hitem : ∀ b : Bool,
        ((if ins.dirty.any then
          { item with dirty := { item.dirty with left := b } } else item).dirty.self
            = item.dirty.self) ∧
        ((if ins.dirty.any then
          { item with dirty := { item.dirty with left := b } } else item).key
            = item.key) ∧
        ((if ins.dirty.any then
          { item with dirty := { item.dirty with left := b } } else item).val
            = item.val) := by
      intro b; split_ifs <;> exact ⟨rfl, rfl, rfl⟩
    have hitemr : ∀ b : Bool,
        ((if ins.dirty.any then
          { item with dirty := { item.dirty with right := b } } else item).dirty.self
            = item.dirty.self) ∧
        ((if ins.dirty.any then
          { item with dirty := { item.dirty with right := b } } else item).key
            = item.key) ∧
        ((if ins.dirty.any then
          { item with dirty := { item.dirty with right := b } } else item).val
            = item.val) := by
      intro b; split_ifs <;> exact ⟨rfl, rfl, rfl⟩
    cases h : keyCompare ins.key item.key with
    | lt =>
      simp only [insert_descend, h]
      constructor
      · intro t' ht
        cases hi : insert_descend ins l with
        | inserted l' =>
          rw [hi] at ht
          simp only [InsDescend.inserted.injEq] at ht
          subst ht
          obtain ⟨g1, g2, g3⟩ := ihl.1 l' hi
          simp only [dirtyCount, dirtyKeySum, dirtyValSum, g1, g2, g3,
            (hitem true).1, (hitem true).2.1, (hitem true).2.2]
          refine ⟨by omega, by omega, by omega⟩
        | matched live l' => rw [hi] at ht; simp at ht
      · intro live t' ht
        cases hi : insert_descend ins l with
        | inserted l' => rw [hi] at ht; simp at ht
        | matched live0 l' =>
          rw [hi] at ht
          simp only [InsDescend.matched.injEq] at ht
          obtain ⟨rfl, rfl⟩ := ht
          obtain ⟨g1, g2, g3⟩ := ihl.2 live0 l' hi
          simp only [dirtyCount, dirtyKeySum, dirtyValSum, g1, g2, g3,
            (hitem true).1, (hitem true).2.1, (hitem true).2.2]
          refine ⟨?_, ?_, ?_⟩ <;> trivial
    | gt =>
      simp only [insert_descend, h]
      constructor
      · intro t' ht
        cases hi : insert_descend ins r with
        | inserted r' =>
          rw [hi] at ht
          simp only [InsDescend.inserted.injEq] at ht
          subst ht
          obtain ⟨g1, g2, g3⟩ := ihr.1 r' hi
          simp only [dirtyCount, dirtyKeySum, dirtyValSum, g1, g2, g3,
            (hitemr true).1, (hitemr true).2.1, (hitemr true).2.2]
          refine ⟨by omega, by omega, by omega⟩
        | matched live r' => rw [hi] at ht; simp at ht
      · intro live t' ht
        cases hi : insert_descend ins r with
        | inserted r' => rw [hi] at ht; simp at ht
        | matched live0 r' =>
          rw [hi] at ht
          simp only [InsDescend.matched.injEq] at ht
          obtain ⟨rfl, rfl⟩ := ht
          obtain ⟨g1, g2, g3⟩ := ihr.2 live0 r' hi
          simp only [dirtyCount, dirtyKeySum, dirtyValSum, g1, g2, g3,
            (hitemr true).1, (hitemr true).2.1, (hitemr true).2.2]
          refine ⟨?_, ?_, ?_⟩ <;> trivial
    | eq =>
      simp only [insert_descend, h]
      constructor
      · intro t' ht; simp at ht
      · intro live t' ht
        simp only [InsDescend.matched.injEq] at ht
        obtain ⟨rfl, rfl⟩ := ht
        refine ⟨?_, ?_, ?_⟩ <;> trivial

theorem modify_at_sums (f : CachedItem → CachedItem)
    (hk : ∀ it, (f it).key = it.key) (hd : ∀ it, (f it).dirty = it.dirty)
    (t : ItemTree) (key : Key) :
    dirtyCount (modify_at f t key) = dirtyCount t ∧
    dirtyKeySum (modify_at f t key) = dirtyKeySum t ∧
    (walkFound t key = none →
      dirtyValSum (modify_at f t key) = dirtyValSum t) ∧
    (∀ it0, walkFound t key = some it0 → it0.dirty.self = false →
      dirtyValSum (modify_at f t key) = dirtyValSum t) ∧
    (∀ it0, walkFound t key = some it0 →
      scoutfs_kvec_length (f it0).val ≤ scoutfs_kvec_length it0.val →
      dirtyValSum (modify_at f t key) ≤ dirtyValSum t) := by
  induction t with
  | leaf => simp [modify_at, walkFound]
  | node l item r ihl ihr =>
    cases h : keyCompare key item.key with
    | lt =>
      simp only [modify_at, walkFound, h, dirtyCount, dirtyKeySum, dirtyValSum]
      obtain ⟨g1, g2, g3, g4, g5⟩ := ihl
      refine ⟨by omega, by omega, ?_, ?_, ?_⟩
      · intro hn; rw [g3 hn]
      · intro it0 hf hs; rw [g4 it0 hf hs]
      · intro it0 hf hle
        have := g5 it0 hf hle
        omega
    | gt =>
      simp only [modify_at, walkFound, h, dirtyCount, dirtyKeySum, dirtyValSum]
      obtain ⟨g1, g2, g3, g4, g5⟩ := ihr
      refine ⟨by omega, by omega, ?_, ?_, ?_⟩
      · intro hn; rw [g3 hn]
      · intro it0 hf hs; rw [g4 it0 hf hs]
      · intro it0 hf hle
        have := g5 it0 hf hle
        omega
    | eq =>
      simp only [modify_at, walkFound, h, dirtyCount, dirtyKeySum, dirtyValSum,
        hk item, hd item]
      refine ⟨by trivial, by trivial, by intro hn; simp at hn, ?_, ?_⟩
      · intro it0 hf hs
        simp only [Option.some.injEq] at hf
        subst hf
        rw [hs]
        simp
      · intro it0 hf hle
        simp only [Option.some.injEq] at hf
        subst hf
        by_cases hs : item.dirty.self = true
        · rw [hs]
          simp only [if_true]
          omega
        · simp only [Bool.not_eq_true] at hs
          rw [hs]
          simp

theorem rotate_right_sums (t : ItemTree) :
    dirtyCount (rotate_right t) = dirtyCount t ∧
    dirtyKeySum (rotate_right t) = dirtyKeySum t ∧
    dirtyValSum (rotate_right t) = dirtyValSum t := by
  cases t with
  | leaf => simp [rotate_right]
  | node l y c =>
    cases l with
    | leaf => simp [rotate_right]
    | node a x b =>
      simp only [rotate_right, dirtyCount, dirtyKeySum, dirtyValSum,
        compute_item_dirty]
      refine ⟨by omega, by omega, by omega⟩

theorem rotate_left_sums (t : ItemTree) :
    dirtyCount (rotate_left t) = dirtyCount t ∧
    dirtyKeySum (rotate_left t) = dirtyKeySum t ∧
    dirtyValSum (rotate_left t) = dirtyValSum t := by
  cases t with
  | leaf => simp [rotate_left]
  | node a x rr =>
    cases rr with
    | leaf => simp [rotate_left]
    | node b y c =>
      simp only [rotate_left, dirtyCount, dirtyKeySum, dirtyValSum,
        compute_item_dirty]
      refine ⟨by omega, by omega, by omega⟩

theorem rotStep_sums {t t' : ItemTree} (h : RotStep t t') :
    dirtyCount t' = dirtyCount t ∧
    dirtyKeySum t' = dirtyKeySum t ∧
    dirtyValSum t' = dirtyValSum t := by
  induction h with
  | hereR t => exact rotate_right_sums t
  | hereL t => exact rotate_left_sums t
  | inL item r hs ih =>
    simp only [dirtyCount, dirtyKeySum, dirtyValSum]
    obtain ⟨g1, g2, g3⟩ := ih
    refine ⟨by omega, by omega, by omega⟩
  | inR l item hs ih =>
    simp only [dirtyCount, dirtyKeySum, dirtyValSum]
    obtain ⟨g1, g2, g3⟩ := ih
    refine ⟨by omega, by omega, by omega⟩

/-! Preservation of the aggregate-counter invariant by the cache-level
operations. -/

theorem counters_inv_mark (cac : ItemCache) (key : Key)
    (h : counters_inv cac) : counters_inv (mark_item_dirty cac key) := by
  obtain ⟨c1, c2, c3⟩ := h
  cases hc : (mark_dirty_at cac.items key).2.2 with
  | none =>
    have he : mark_item_dirty cac key =
        { cac with items := (mark_dirty_at cac.items key).1 } := by
      simp [mark_item_dirty, hc]
    obtain ⟨s1, s2, s3⟩ := (mark_dirty_at_sums cac.items key).1 hc
    rw [he]
    exact ⟨by simp [s1, c1], by simp [s2, c2], by simp [s3]; exact c3⟩
  | some it =>
    have he : mark_item_dirty cac key =
        { cac with
          items := (mark_dirty_at cac.items key).1,
          nr_dirty_items := cac.nr_dirty_items + 1,
          dirty_key_bytes := cac.dirty_key_bytes + it.key.length,
          dirty_val_bytes := cac.dirty_val_bytes +
            scoutfs_kvec_length it.val } := by
      simp [mark_item_dirty, hc]
    obtain ⟨s1, s2, s3⟩ := (mark_dirty_at_sums cac.items key).2 it hc
    rw [he]
    refine ⟨?_, ?_, ?_⟩
    · simp only [s1, c1]; push_cast; ring
    · simp only [s2, c2]; push_cast; ring
    · simp only [s3]; push_cast; omega

theorem counters_inv_clear (cac : ItemCache) (key : Key)
    (h : counters_inv cac) : counters_inv (clear_item_dirty cac key) := by
  obtain ⟨c1, c2, c3⟩ := h
  cases hc : (clear_dirty_at cac.items key).2.2 with
  | none =>
    have he : clear_item_dirty cac key =
        { cac with items := (clear_dirty_at cac.items key).1 } := by
      simp [clear_item_dirty, hc]
    obtain ⟨s1, s2, s3⟩ := (clear_dirty_at_sums cac.items key).1 hc
    rw [he]
    exact ⟨by simp [s1, c1], by simp [s2, c2], by simp [s3]; exact c3⟩
  | some it =>
    have he : clear_item_dirty cac key =
        { cac with
          items := (clear_dirty_at cac.items key).1,
          nr_dirty_items := cac.nr_dirty_items - 1,
          dirty_key_bytes := cac.dirty_key_bytes - it.key.length,
          dirty_val_bytes := cac.dirty_val_bytes -
            scoutfs_kvec_length it.val } := by
      simp [clear_item_dirty, hc]
    obtain ⟨s1, s2, s3⟩ := (clear_dirty_at_sums cac.items key).2 it hc
    rw [he]
    refine ⟨?_, ?_, ?_⟩
    · simp only [c1, s1]; push_cast; ring
    · simp only [c2, s2]; push_cast; ring
    · rw [s3] at c3; push_cast at c3 ⊢; omega

theorem counters_inv_erase_item (cac : ItemCache) (key : Key)
    (h : counters_inv cac) : counters_inv (erase_item cac key) := by
  have h1 := counters_inv_clear cac key h
  obtain ⟨c1, c2, c3⟩ := h1
  unfold erase_item
  cases he : (erase_at (clear_item_dirty cac key).items key).2.2 with
  | none =>
    obtain ⟨s1, s2, s3⟩ :=
      (erase_at_sums (clear_item_dirty cac key).items key).1 he
    refine ⟨?_, ?_, ?_⟩
    · show (clear_item_dirty cac key).nr_dirty_items = _
      rw [c1, s1]
    · show (clear_item_dirty cac key).dirty_key_bytes = _
      rw [c2, s2]
    · show _ ≤ (clear_item_dirty cac key).dirty_val_bytes
      rw [s3]
      exact c3
  | some er =>
    have hself : er.dirty.self = false := by
      have hf := erase_at_found (clear_item_dirty cac key).items key
      rw [he, clear_item_dirty_items, walkFound_clear] at hf
      cases hw : walkFound cac.items key with
      | none => rw [hw] at hf; simp at hf
      | some it0 =>
        rw [hw] at hf
        simp only [Option.map, Option.some.injEq] at hf
        rw [hf]
    obtain ⟨s1, s2, s3⟩ :=
      (erase_at_sums (clear_item_dirty cac key).items key).2 er he
    rw [hself] at s1 s2 s3
    simp at s1 s2 s3
    refine ⟨?_, ?_, ?_⟩
    · show (clear_item_dirty cac key).nr_dirty_items = _
      rw [c1, s1]
    · show (clear_item_dirty cac key).dirty_key_bytes = _
      rw [c2, s2]
    · show _ ≤ (clear_item_dirty cac key).dirty_val_bytes
      rw [← s3]
      exact c3

theorem counters_inv_insert_item_go (fuel : Nat) (ins : CachedItem)
    (hins : ins.dirty.self = false) :
    ∀ cac, counters_inv cac → counters_inv (insert_item_go fuel cac ins).2 := by
  induction fuel with
  | zero => intro cac h; exact h
  | succ n ih =>
    intro cac h
    obtain ⟨c1, c2, c3⟩ := h
    simp only [insert_item_go]
    cases hi : insert_descend ins cac.items with
    | inserted t =>
      obtain ⟨g1, g2, g3⟩ := (insert_descend_sums ins cac.items).1 t hi
      rw [hins] at g1 g2 g3
      simp at g1 g2 g3
      exact ⟨by show cac.nr_dirty_items = _; rw [c1, g1],
             by show cac.dirty_key_bytes = _; rw [c2, g2],
             by show _ ≤ cac.dirty_val_bytes; rw [g3]; exact c3⟩
    | matched live t =>
      obtain ⟨g1, g2, g3⟩ := (insert_descend_sums ins cac.items).2 live t hi
      have hmid : counters_inv { cac with items := t } :=
        ⟨by show cac.nr_dirty_items = _; rw [c1, g1],
         by show cac.dirty_key_bytes = _; rw [c2, g2],
         by show _ ≤ cac.dirty_val_bytes; rw [g3]; exact c3⟩
      cases live with
      | true => exact hmid
      | false => exact ih _ (counters_inv_erase_item _ ins.key hmid)

theorem counters_inv_insert_item (cac : ItemCache) (ins : CachedItem)
    (hins : ins.dirty.self = false) (h : counters_inv cac) :
    counters_inv (insert_item cac ins).2 :=
  counters_inv_insert_item_go _ ins hins cac h

theorem counters_inv_create (cac : ItemCache) (key : Key) (val : Option Val)
    (ok : Bool) (h : counters_inv cac) :
    counters_inv (scoutfs_item_create cac key val ok).2 := by
  unfold scoutfs_item_create
  cases ok with
  | false => exact h
  | true =>
    simp only [Bool.not_true, Bool.false_eq_true, if_false]
    by_cases hr : (insert_item cac { key := key, val := val }).1 = 0
    · rw [if_pos hr]
      exact counters_inv_mark _ key
        (counters_inv_insert_item cac _ rfl h)
    · rw [if_neg hr]
      exact counters_inv_insert_item cac _ rfl h

theorem counters_inv_dirty_locked (cac : ItemCache) (key : Key)
    (h : counters_inv cac) : counters_inv (item_dirty_locked cac key).2.2 := by
  unfold item_dirty_locked
  cases hf : find_item cac.items key with
  | some it => exact counters_inv_mark cac key h
  | none =>
    cases hc : check_range cac.ranges key with
    | mk b e => cases b <;> exact h

theorem walkFound_some_of_find {t : ItemTree} {key : Key} {it : CachedItem}
    (h : find_item t key = some it) :
    walkFound t key = some it ∧ it.deletion = false := by
  rw [find_item_eq] at h
  cases hw : walkFound t key with
  | none => rw [hw] at h; simp at h
  | some it0 =>
    rw [hw] at h
    have h' : (if it0.deletion = true then none else some it0) = some it := h
    by_cases hd : it0.deletion = true
    · rw [if_pos hd] at h'; simp at h'
    · rw [if_neg hd] at h'
      simp only [Option.some.injEq] at h'
      subst h'
      simp only [Bool.not_eq_true] at hd
      exact ⟨rfl, hd⟩

theorem counters_inv_become_deletion (cac : ItemCache) (key : Key)
    (h : counters_inv cac) : counters_inv (become_deletion_item cac key) := by
  obtain ⟨c1, c2, c3⟩ := h
  unfold become_deletion_item
  apply counters_inv_mark
  obtain ⟨m1, m2, m3, m4, m5⟩ := modify_at_sums
    (fun it => { it with val := none, deletion := true })
    (fun _ => rfl) (fun _ => rfl) cac.items key
  refine ⟨by show cac.nr_dirty_items = _; rw [c1, m1],
          by show cac.dirty_key_bytes = _; rw [c2, m2],
          ?_⟩
  show _ ≤ cac.dirty_val_bytes
  cases hw : walkFound cac.items key with
  | none =>
    rw [m3 hw]
    exact c3
  | some it0 =>
    have hv := m5 it0 hw (by simp [scoutfs_kvec_length])
    calc ((dirtyValSum (modify_at _ cac.items key) : Nat) : Int)
        ≤ (dirtyValSum cac.items : Nat) := by exact_mod_cast hv
      _ ≤ cac.dirty_val_bytes := c3

theorem counters_inv_delete_locked (cac : ItemCache) (key : Key)
    (h : counters_inv cac) : counters_inv (item_delete_locked cac key).2.2 := by
  unfold item_delete_locked
  cases hf : find_item cac.items key with
  | some it => exact counters_inv_become_deletion cac key h
  | none =>
    cases hc : check_range cac.ranges key with
    | mk b e => cases b <;> exact h

theorem counters_inv_delete_dirty (cac : ItemCache) (key : Key)
    (h : counters_inv cac) :
    counters_inv (scoutfs_item_delete_dirty cac key) := by
  unfold scoutfs_item_delete_dirty
  cases hf : find_item cac.items key with
  | some it => exact counters_inv_become_deletion cac key h
  | none => exact h

theorem counters_inv_update_locked (cac : ItemCache) (key : Key)
    (val : Option Val) (h : counters_inv cac) :
    counters_inv (item_update_locked cac key val).2.2 := by
  unfold item_update_locked
  cases hf : find_item cac.items key with
  | none =>
    cases hc : check_range cac.ranges key with
    | mk b e => cases b <;> exact h
  | some it =>
    apply counters_inv_mark
    have hcl := counters_inv_clear cac key h
    obtain ⟨c1, c2, c3⟩ := hcl
    obtain ⟨m1, m2, m3, m4, m5⟩ := modify_at_sums
      (fun it => { it with val := val }) (fun _ => rfl) (fun _ => rfl)
      (clear_item_dirty cac key).items key
    refine ⟨by show (clear_item_dirty cac key).nr_dirty_items = _; rw [c1, m1],
            by show (clear_item_dirty cac key).dirty_key_bytes = _; rw [c2, m2],
            ?_⟩
    show _ ≤ (clear_item_dirty cac key).dirty_val_bytes
    obtain ⟨hw0, hd0⟩ := walkFound_some_of_find hf
    have hw1 : walkFound (clear_item_dirty cac key).items key =
        some { it with dirty := { it.dirty with self := false } } := by
      rw [clear_item_dirty_items, walkFound_clear, hw0]
      rfl
    rw [m4 _ hw1 rfl]
    exact c3

theorem counters_inv_insert_batch_items (list : List CachedItem)
    (hst : staged_ok list) :
    ∀ cac, counters_inv cac → counters_inv (insert_batch_items cac list) := by
  induction list with
  | nil => intro cac h; exact h
  | cons item rest ih =>
    intro cac h
    simp only [insert_batch_items]
    have hitem := hst item (by simp)
    have hrest : staged_ok rest := by
      intro it hit
      exact hst it (by simp [hit])
    exact ih hrest _ (counters_inv_insert_item cac item
      (by rw [hitem.1]; rfl) h)

theorem counters_inv_insert_batch (cac : ItemCache) (list : List CachedItem)
    (start stop : Key) (ok : Bool) (hst : staged_ok list)
    (h : counters_inv cac) :
    counters_inv (scoutfs_item_insert_batch cac list start stop ok).2.1 := by
  unfold scoutfs_item_insert_batch
  by_cases hc : keyCompare start stop = .gt
  · rw [if_pos hc]; exact h
  · rw [if_neg hc]
    cases ok with
    | false => exact h
    | true =>
      simp only [Bool.not_true, Bool.false_eq_true, if_false]
      apply counters_inv_insert_batch_items list hst
      exact ⟨h.1, h.2.1, h.2.2⟩

theorem counters_inv_dirty_seg_go (nrem : Nat) :
    ∀ cac seg cur key_bytes, counters_inv cac →
      counters_inv (dirty_seg_go nrem cac seg cur key_bytes).1 := by
  induction nrem with
  | zero => intro cac seg cur kb h; exact h
  | succ n ih =>
    intro cac seg cur kb h
    simp only [dirty_seg_go]
    cases hcur : (match cur with
        | none => first_dirty cac.items | some it => some it) with
    | none => exact h
    | some item =>
      apply ih
      by_cases hd : item.deletion = true
      · rw [hd]
        simp only [if_true]
        exact counters_inv_erase_item _ item.key
          (counters_inv_clear cac item.key h)
      · simp only [Bool.not_eq_true] at hd
        rw [hd]
        simp only [Bool.false_eq_true, if_false]
        exact counters_inv_clear cac item.key h

theorem counters_inv_dirty_seg (fits : FitsSingle) (cac : ItemCache)
    (seg : Segment) (h : counters_inv cac) :
    counters_inv (scoutfs_item_dirty_seg fits cac seg).2.1 := by
  unfold scoutfs_item_dirty_seg
  exact counters_inv_dirty_seg_go _ cac seg none _ h

theorem counters_inv_rot (cac : ItemCache) (t : ItemTree)
    (hrot : RotStep cac.items t) (h : counters_inv cac) :
    counters_inv { cac with items := t } := by
  obtain ⟨g1, g2, g3⟩ := rotStep_sums hrot
  obtain ⟨c1, c2, c3⟩ := h
  exact ⟨by show cac.nr_dirty_items = _; rw [c1, g1],
         by show cac.dirty_key_bytes = _; rw [c2, g2],
         by show _ ≤ cac.dirty_val_bytes; rw [g3]; exact c3⟩

/-- C1 amended: in every reachable cache state, nr_dirty_items is exactly
the number of ITEM_DIRTY items and dirty_key_bytes exactly the sum of
their key lengths; dirty_val_bytes is an upper bound for (not always equal
to) the sum of their current value lengths; and all three counters are
non-negative.  Equality for dirty_val_bytes fails because deleting an
already-dirty item nulls the value without adjusting the counter. -/
theorem claim_C1 (cac : ItemCache) (h : Reach cac) :
    counters_inv cac ∧ 0 ≤ cac.nr_dirty_items ∧
    0 ≤ cac.dirty_key_bytes ∧ 0 ≤ cac.dirty_val_bytes := by
  have hinv : counters_inv cac := by
    induction h with
    | init => exact ⟨rfl, rfl, by simp [empty_cache, dirtyValSum]⟩
    | create key val ok _ ih => exact counters_inv_create _ key val ok ih
    | dirty key _ ih => exact counters_inv_dirty_locked _ key ih
    | update key val _ ih => exact counters_inv_update_locked _ key val ih
    | delete key _ ih => exact counters_inv_delete_locked _ key ih
    | delete_dirty key _ ih => exact counters_inv_delete_dirty _ key ih
    | insert_batch list start stop ok hst _ ih =>
      exact counters_inv_insert_batch _ list start stop ok hst ih
    | dirty_seg fits seg _ ih => exact counters_inv_dirty_seg fits _ seg ih
    | rebalance _ hrot ih => exact counters_inv_rot _ _ hrot ih
  obtain ⟨c1, c2, c3⟩ := hinv
  refine ⟨⟨c1, c2, c3⟩, ?_, ?_, ?_⟩
  · rw [c1]; positivity
  · rw [c2]; positivity
  · exact le_trans (by positivity) c3

/-- C1 as stated is false: after create(k,v) followed by delete(k) the
tombstone's value is null, yet dirty_val_bytes still counts len(v): the
public delete succeeds, the reachable state has dirty_val_bytes = 3 while
the ITEM_DIRTY items' current value lengths sum to 0. -/
theorem claim_C1_counterexample :
    Reach (item_delete_locked
      (scoutfs_item_create empty_cache [0] (some [7, 7, 7]) true).2 [0]).2.2 ∧
    scoutfs_item_delete 1
        (scoutfs_item_create empty_cache [0] (some [7, 7, 7]) true).2
        [0] failReader true =
      (0, (item_delete_locked
        (scoutfs_item_create empty_cache [0] (some [7, 7, 7]) true).2 [0]).2.2) ∧
    (item_delete_locked
      (scoutfs_item_create empty_cache [0] (some [7, 7, 7]) true).2
      [0]).2.2.dirty_val_bytes = 3 ∧
    dirtyValSum (item_delete_locked
      (scoutfs_item_create empty_cache [0] (some [7, 7, 7]) true).2
      [0]).2.2.items = 0 :=
  ⟨Reach.delete [0] (Reach.create [0] (some [7, 7, 7]) true Reach.init),
   by decide, by decide, by decide⟩

/-- Witness for C1 at the reachable state holding one freshly created dirty
item. -/
theorem claim_C1_witness :
    counters_inv (scoutfs_item_create empty_cache [0] (some [7]) true).2 ∧
    0 ≤ (scoutfs_item_create empty_cache [0] (some [7]) true).2.nr_dirty_items ∧
    0 ≤ (scoutfs_item_create empty_cache [0] (some [7]) true).2.dirty_key_bytes ∧
    0 ≤ (scoutfs_item_create empty_cache [0] (some [7]) true).2.dirty_val_bytes :=
  claim_C1 _ (Reach.create [0] (some [7]) true Reach.init)

/-! The augmented-index invariant: preservation by every tree primitive. -/

theorem dirty_ok_node {l : ItemTree} {item : CachedItem} {r : ItemTree} :
    dirty_ok (.node l item r) = true ↔
      item.dirty.left = any_dirty l ∧ item.dirty.right = any_dirty r ∧
      dirty_ok l = true ∧ dirty_ok r = true := by
  simp [dirty_ok, Bool.and_eq_true, and_assoc]

theorem node_any_eq_any {t : ItemTree} (h : dirty_ok t = true) :
    node_any t = any_dirty t := by
  cases t with
  | leaf => rfl
  | node l item r =>
    obtain ⟨h1, h2, _, _⟩ := dirty_ok_node.mp h
    cases hl : any_dirty l <;> cases hr : any_dirty r <;>
      simp_all [node_any, any_dirty, DirtyBits.any]

theorem propagate_step_ok_left {l0 l' : ItemTree} (item : CachedItem)
    (r : ItemTree) (s : Bool)
    (hok' : dirty_ok l' = true) (hokr : dirty_ok r = true)
    (hL : item.dirty.left = any_dirty l0)
    (hR : item.dirty.right = any_dirty r)
    (hstop : s = true → any_dirty l' = any_dirty l0) :
    dirty_ok (.node l' (propagate_step l' item r s).1 r) = true ∧
    ((propagate_step l' item r s).2 = true →
      any_dirty (.node l' (propagate_step l' item r s).1 r) =
        any_dirty (.node l0 item r)) := by
  have hnl : node_any l' = any_dirty l' := node_any_eq_any hok'
  have hnr : node_any r = any_dirty r := node_any_eq_any hokr
  cases s with
  | true =>
    have he : propagate_step l' item r true = (item, true) := rfl
    rw [he]
    have hany : any_dirty l' = any_dirty l0 := hstop rfl
    constructor
    · exact dirty_ok_node.mpr ⟨by rw [hL, hany], hR, hok', hokr⟩
    · intro _
      simp [any_dirty, hany]
  | false =>
    by_cases he : item.dirty = compute_item_dirty item l' r
    · have hp : propagate_step l' item r false = (item, true) := by
        simp [propagate_step, he]
      rw [hp]
      have hL' : item.dirty.left = any_dirty l' := by
        rw [he]; simp [compute_item_dirty, hnl]
      have hR' : item.dirty.right = any_dirty r := by
        rw [he]; simp [compute_item_dirty, hnr]
      constructor
      · exact dirty_ok_node.mpr ⟨hL', hR', hok', hokr⟩
      · intro _
        have : any_dirty l' = any_dirty l0 := by rw [← hL', hL]
        simp [any_dirty, this]
    · have hp : propagate_step l' item r false =
          ({ item with dirty := compute_item_dirty item l' r }, false) := by
        simp [propagate_step, he]
      rw [hp]
      refine ⟨dirty_ok_node.mpr ⟨by simp [compute_item_dirty, hnl],
        by simp [compute_item_dirty, hnr], hok', hokr⟩, by simp⟩

theorem propagate_step_ok_right {r0 r' : ItemTree} (l : ItemTree)
    (item : CachedItem) (s : Bool)
    (hokl : dirty_ok l = true) (hok' : dirty_ok r' = true)
    (hL : item.dirty.left = any_dirty l)
    (hR : item.dirty.right = any_dirty r0)
    (hstop : s = true → any_dirty r' = any_dirty r0) :
    dirty_ok (.node l (propagate_step l item r' s).1 r') = true ∧
    ((propagate_step l item r' s).2 = true →
      any_dirty (.node l (propagate_step l item r' s).1 r') =
        any_dirty (.node l item r0)) := by
  have hnl : node_any l = any_dirty l := node_any_eq_any hokl
  have hnr : node_any r' = any_dirty r' := node_any_eq_any hok'
  cases s with
  | true =>
    have he : propagate_step l item r' true = (item, true) := rfl
    rw [he]
    have hany : any_dirty r' = any_dirty r0 := hstop rfl
    constructor
    · exact dirty_ok_node.mpr ⟨hL, by rw [hR, hany], hokl, hok'⟩
    · intro _
      simp [any_dirty, hany]
  | false =>
    by_cases he : item.dirty = compute_item_dirty item l r'
    · have hp : propagate_step l item r' false = (item, true) := by
        simp [propagate_step, he]
      rw [hp]
      have hL' : item.dirty.left = any_dirty l := by
        rw [he]; simp [compute_item_dirty, hnl]
      have hR' : item.dirty.right = any_dirty r' := by
        rw [he]; simp [compute_item_dirty, hnr]
      constructor
      · exact dirty_ok_node.mpr ⟨hL', hR', hokl, hok'⟩
      · intro _
        have : any_dirty r' = any_dirty r0 := by rw [← hR', hR]
        simp [any_dirty, this]
    · have hp : propagate_step l item r' false =
          ({ item with dirty := compute_item_dirty item l r' }, false) := by
        simp [propagate_step, he]
      rw [hp]
      refine ⟨dirty_ok_node.mpr ⟨by simp [compute_item_dirty, hnl],
        by simp [compute_item_dirty, hnr], hokl, hok'⟩, by simp⟩

theorem any_eq_selfAny {t : ItemTree} (h : dirty_ok t = true) :
    any_dirty t = selfAny t := by
  induction t with
  | leaf => rfl
  | node l item r ihl ihr =>
    obtain ⟨h1, h2, h3, h4⟩ := dirty_ok_node.mp h
    rw [any_dirty, selfAny, ← ihl h3, ← ihr h4, DirtyBits.any, h1, h2]
    cases item.dirty.self <;> cases any_dirty l <;> cases any_dirty r <;> rfl

theorem mark_dirty_at_ok (t : ItemTree) (key : Key) (h : dirty_ok t = true) :
    dirty_ok (mark_dirty_at t key).1 = true ∧
    ((mark_dirty_at t key).2.1 = true →
      any_dirty (mark_dirty_at t key).1 = any_dirty t) := by
  induction t with
  | leaf => simp [mark_dirty_at, dirty_ok]
  | node l item r ihl ihr =>
    obtain ⟨h1, h2, h3, h4⟩ := dirty_ok_node.mp h
    cases hc : keyCompare key item.key with
    | lt =>
      have he : mark_dirty_at (ItemTree.node l item r) key =
          (ItemTree.node (mark_dirty_at l key).1
            (propagate_step (mark_dirty_at l key).1 item r
              (mark_dirty_at l key).2.1).1 r,
           (propagate_step (mark_dirty_at l key).1 item r
              (mark_dirty_at l key).2.1).2,
           (mark_dirty_at l key).2.2) := by
        simp [mark_dirty_at, hc]
      rw [he]
      obtain ⟨okl, anyl⟩ := ihl h3
      exact propagate_step_ok_left item r _ okl h4 h1 h2 anyl
    | gt =>
      have he : mark_dirty_at (ItemTree.node l item r) key =
          (ItemTree.node l
            (propagate_step l item (mark_dirty_at r key).1
              (mark_dirty_at r key).2.1).1 (mark_dirty_at r key).1,
           (propagate_step l item (mark_dirty_at r key).1
              (mark_dirty_at r key).2.1).2,
           (mark_dirty_at r key).2.2) := by
        simp [mark_dirty_at, hc]
      rw [he]
      obtain ⟨okr, anyr⟩ := ihr h4
      exact propagate_step_ok_right l item _ h3 okr h1 h2 anyr
    | eq =>
      by_cases hs : item.dirty.self = true
      · have he : mark_dirty_at (ItemTree.node l item r) key =
            (ItemTree.node l item r, true, none) := by
          simp [mark_dirty_at, hc, hs]
        rw [he]
        exact ⟨h, fun _ => rfl⟩
      · have hs' : item.dirty.self = false := by simp at hs; exact hs
        have he : mark_dirty_at (ItemTree.node l item r) key =
            (ItemTree.node l
              { item with dirty := { item.dirty with self := true } } r,
             false, some item) := by
          simp [mark_dirty_at, hc, hs']
        rw [he]
        exact ⟨dirty_ok_node.mpr ⟨h1, h2, h3, h4⟩, by simp⟩

theorem clear_dirty_at_ok (t : ItemTree) (key : Key) (h : dirty_ok t = true) :
    dirty_ok (clear_dirty_at t key).1 = true ∧
    ((clear_dirty_at t key).2.1 = true →
      any_dirty (clear_dirty_at t key).1 = any_dirty t) := by
  induction t with
  | leaf => simp [clear_dirty_at, dirty_ok]
  | node l item r ihl ihr =>
    obtain ⟨h1, h2, h3, h4⟩ := dirty_ok_node.mp h
    cases hc : keyCompare key item.key with
    | lt =>
      have he : clear_dirty_at (ItemTree.node l item r) key =
          (ItemTree.node (clear_dirty_at l key).1
            (propagate_step (clear_dirty_at l key).1 item r
              (clear_dirty_at l key).2.1).1 r,
           (propagate_step (clear_dirty_at l key).1 item r
              (clear_dirty_at l key).2.1).2,
           (clear_dirty_at l key).2.2) := by
        simp [clear_dirty_at, hc]
      rw [he]
      obtain ⟨okl, anyl⟩ := ihl h3
      exact propagate_step_ok_left item r _ okl h4 h1 h2 anyl
    | gt =>
      have he : clear_dirty_at (ItemTree.node l item r) key =
          (ItemTree.node l
            (propagate_step l item (clear_dirty_at r key).1
              (clear_dirty_at r key).2.1).1 (clear_dirty_at r key).1,
           (propagate_step l item (clear_dirty_at r key).1
              (clear_dirty_at r key).2.1).2,
           (clear_dirty_at r key).2.2) := by
        simp [clear_dirty_at, hc]
      rw [he]
      obtain ⟨okr, anyr⟩ := ihr h4
      exact propagate_step_ok_right l item _ h3 okr h1 h2 anyr
    | eq =>
      by_cases hs : item.dirty.self = true
      · have he : clear_dirty_at (ItemTree.node l item r) key =
            (ItemTree.node l
              { item with dirty := { item.dirty with self := false } } r,
             false, some item) := by
          simp [clear_dirty_at, hc, hs]
        rw [he]
        exact ⟨dirty_ok_node.mpr ⟨h1, h2, h3, h4⟩, by simp⟩
      · have hs' : item.dirty.self = false := by simp at hs; exact hs
        have he : clear_dirty_at (ItemTree.node l item r) key =
            (ItemTree.node l item r, true, none) := by
          simp [clear_dirty_at, hc, hs']
        rw [he]
        exact ⟨h, fun _ => rfl⟩

theorem remove_leftmost_ok (t : ItemTree) (h : dirty_ok t = true) :
    ∀ m t' s, remove_leftmost t = some (m, t', s) →
      dirty_ok t' = true ∧ (s = true → any_dirty t' = any_dirty t) := by
  induction t with
  | leaf => intro m t' s hr; simp [remove_leftmost] at hr
  | node l item r ihl ihr =>
    obtain ⟨h1, h2, h3, h4⟩ := dirty_ok_node.mp h
    intro m t' s hr
    cases l with
    | leaf =>
      simp only [remove_leftmost, Option.some.injEq, Prod.mk.injEq] at hr
      obtain ⟨rfl, rfl, rfl⟩ := hr
      exact ⟨h4, by simp⟩
    | node a x b =>
      simp only [remove_leftmost] at hr
      cases hrl : remove_leftmost (.node a x b) with
      | none => rw [hrl] at hr; simp at hr
      | some p =>
        obtain ⟨m0, l', s0⟩ := p
        rw [hrl] at hr
        simp only [Option.some.injEq, Prod.mk.injEq] at hr
        obtain ⟨rfl, rfl, rfl⟩ := hr
        obtain ⟨okl, anyl⟩ := ihl h3 m0 l' s0 hrl
        exact propagate_step_ok_left item r s0 okl h4 h1 h2 anyl

theorem erase_at_ok (t : ItemTree) (key : Key) (h : dirty_ok t = true) :
    dirty_ok (erase_at t key).1 = true ∧
    ((erase_at t key).2.1 = true →
      any_dirty (erase_at t key).1 = any_dirty t) := by
  induction t with
  | leaf => exact ⟨rfl, fun _ => rfl⟩
  | node l item r ihl ihr =>
    obtain ⟨h1, h2, h3, h4⟩ := dirty_ok_node.mp h
    cases hc : keyCompare key item.key with
    | lt =>
      have he : erase_at (ItemTree.node l item r) key =
          (ItemTree.node (erase_at l key).1
            (propagate_step (erase_at l key).1 item r
              (erase_at l key).2.1).1 r,
           (propagate_step (erase_at l key).1 item r
              (erase_at l key).2.1).2,
           (erase_at l key).2.2) := by
        simp [erase_at, hc]
      rw [he]
      obtain ⟨okl, anyl⟩ := ihl h3
      exact propagate_step_ok_left item r _ okl h4 h1 h2 anyl
    | gt =>
      have he : erase_at (ItemTree.node l item r) key =
          (ItemTree.node l
            (propagate_step l item (erase_at r key).1
              (erase_at r key).2.1).1 (erase_at r key).1,
           (propagate_step l item (erase_at r key).1
              (erase_at r key).2.1).2,
           (erase_at r key).2.2) := by
        simp [erase_at, hc]
      rw [he]
      obtain ⟨okr, anyr⟩ := ihr h4
      exact propagate_step_ok_right l item _ h3 okr h1 h2 anyr
    | eq =>
      cases l with
      | leaf =>
        have he : erase_at (ItemTree.node .leaf item r) key =
            (r, false, some item) := by
          simp [erase_at, hc]
        rw [he]
        exact ⟨h4, by simp⟩
      | node la lx lb =>
        cases r with
        | leaf =>
          have he : erase_at (ItemTree.node (.node la lx lb) item .leaf) key =
              (.node la lx lb, false, some item) := by
            simp [erase_at, hc]
          rw [he]
          exact ⟨h3, by simp⟩
        | node ra rx rb =>
          cases hrl : remove_leftmost (.node ra rx rb) with
          | none =>
            have hs := remove_leftmost_isSome ra rx rb
            rw [hrl] at hs
            simp at hs
          | some p =>
            obtain ⟨m0, r', s0⟩ := p
            have he : erase_at
                (ItemTree.node (.node la lx lb) item (.node ra rx rb)) key =
                (ItemTree.node (.node la lx lb)
                  { m0 with dirty :=
                    compute_item_dirty m0 (.node la lx lb) r' } r',
                 false, some item) := by
              simp [erase_at, hc, hrl]
            rw [he]
            obtain ⟨okr', _⟩ := remove_leftmost_ok _ h4 m0 r' s0 hrl
            refine ⟨dirty_ok_node.mpr ⟨?_, ?_, h3, okr'⟩, by simp⟩
            · simp [compute_item_dirty, node_any_eq_any h3]
            · simp [compute_item_dirty, node_any_eq_any okr']

theorem insert_descend_ok (ins : CachedItem)
    (hins : ins.dirty = DirtyBits.clean) (t : ItemTree)
    (h : dirty_ok t = true) :
    (∀ t', insert_descend ins t = .inserted t' →
      dirty_ok t' = true ∧ any_dirty t' = any_dirty t) ∧
    (∀ live t', insert_descend ins t = .matched live t' → t' = t) := by
  have hany : ins.dirty.any = false := by rw [hins]; rfl
  induction t with
  | leaf =>
    constructor
    · intro t' ht
      simp only [insert_descend, InsDescend.inserted.injEq] at ht
      subst ht
      refine ⟨dirty_ok_node.mpr ⟨?_, ?_, rfl, rfl⟩, ?_⟩
      · rw [hins]; rfl
      · rw [hins]; rfl
      · simp [any_dirty, hany]
    · intro live t' ht; simp [insert_descend] at ht
  | node l item r ihl ihr =>
    obtain ⟨h1, h2, h3, h4⟩ := dirty_ok_node.mp h
    cases hc : keyCompare ins.key item.key with
    | lt =>
      have he : insert_descend ins (ItemTree.node l item r) =
          (match insert_descend ins l with
           | .inserted l' => .inserted (.node l' item r)
           | .matched live l' => .matched live (.node l' item r)) := by
        simp [insert_descend, hc, hany]
      rw [he]
      constructor
      · intro t' ht
        cases hi : insert_descend ins l with
        | inserted l' =>
          rw [hi] at ht
          simp only [InsDescend.inserted.injEq] at ht
          subst ht
          obtain ⟨okl', anyl'⟩ := (ihl h3).1 l' hi
          refine ⟨dirty_ok_node.mpr ⟨by rw [h1, anyl'], h2, okl', h4⟩, ?_⟩
          simp [any_dirty, anyl']
        | matched live l' => rw [hi] at ht; simp at ht
      · intro live t' ht
        cases hi : insert_descend ins l with
        | inserted l' => rw [hi] at ht; simp at ht
        | matched live0 l' =>
          rw [hi] at ht
          simp only [InsDescend.matched.injEq] at ht
          obtain ⟨rfl, rfl⟩ := ht
          rw [(ihl h3).2 live0 l' hi]
    | gt =>
      have he : insert_descend ins (ItemTree.node l item r) =
          (match insert_descend ins r with
           | .inserted r' => .inserted (.node l item r')
           | .matched live r' => .matched live (.node l item r')) := by
        simp [insert_descend, hc, hany]
      rw [he]
      constructor
      · intro t' ht
        cases hi : insert_descend ins r with
        | inserted r' =>
          rw [hi] at ht
          simp only [InsDescend.inserted.injEq] at ht
          subst ht
          obtain ⟨okr', anyr'⟩ := (ihr h4).1 r' hi
          refine ⟨dirty_ok_node.mpr ⟨h1, by rw [h2, anyr'], h3, okr'⟩, ?_⟩
          simp [any_dirty, anyr']
        | matched live r' => rw [hi] at ht; simp at ht
      · intro live t' ht
        cases hi : insert_descend ins r with
        | inserted r' => rw [hi] at ht; simp at ht
        | matched live0 r' =>
          rw [hi] at ht
          simp only [InsDescend.matched.injEq] at ht
          obtain ⟨rfl, rfl⟩ := ht
          rw [(ihr h4).2 live0 r' hi]
    | eq =>
      constructor
      · intro t' ht
        simp [insert_descend, hc] at ht
      · intro live t' ht
        simp only [insert_descend, hc, InsDescend.matched.injEq] at ht
        exact ht.2.symm

theorem modify_at_ok (f : CachedItem → CachedItem)
    (hd : ∀ it, (f it).dirty = it.dirty) (t : ItemTree) (key : Key)
    (h : dirty_ok t = true) :
    dirty_ok (modify_at f t key) = true ∧
    any_dirty (modify_at f t key) = any_dirty t := by
  induction t with
  | leaf => exact ⟨rfl, rfl⟩
  | node l item r ihl ihr =>
    obtain ⟨h1, h2, h3, h4⟩ := dirty_ok_node.mp h
    cases hc : keyCompare key item.key with
    | lt =>
      have he : modify_at f (ItemTree.node l item r) key =
          .node (modify_at f l key) item r := by
        simp [modify_at, hc]
      rw [he]
      obtain ⟨ok', anyeq⟩ := ihl h3
      exact ⟨dirty_ok_node.mpr ⟨by rw [h1, anyeq], h2, ok', h4⟩,
             by simp [any_dirty, anyeq]⟩
    | gt =>
      have he : modify_at f (ItemTree.node l item r) key =
          .node l item (modify_at f r key) := by
        simp [modify_at, hc]
      rw [he]
      obtain ⟨ok', anyeq⟩ := ihr h4
      exact ⟨dirty_ok_node.mpr ⟨h1, by rw [h2, anyeq], h3, ok'⟩,
             by simp [any_dirty, anyeq]⟩
    | eq =>
      have he : modify_at f (ItemTree.node l item r) key =
          .node l (f item) r := by
        simp [modify_at, hc]
      rw [he]
      exact ⟨dirty_ok_node.mpr ⟨by rw [hd item]; exact h1,
               by rw [hd item]; exact h2, h3, h4⟩,
             by simp [any_dirty, DirtyBits.any, hd item]⟩

theorem rotate_right_ok (t : ItemTree) (h : dirty_ok t = true) :
    dirty_ok (rotate_right t) = true ∧
    any_dirty (rotate_right t) = any_dirty t := by
  cases t with
  | leaf => exact ⟨h, rfl⟩
  | node l y c =>
    cases l with
    | leaf => exact ⟨h, rfl⟩
    | node a x b =>
      obtain ⟨hy1, hy2, hokl, hokc⟩ := dirty_ok_node.mp h
      obtain ⟨hx1, hx2, hoka, hokb⟩ := dirty_ok_node.mp hokl
      have he : rotate_right (ItemTree.node (.node a x b) y c) =
          .node a
            { x with
              dirty :=
                compute_item_dirty x a
                  (.node b { y with dirty := compute_item_dirty y b c } c) }
            (.node b { y with dirty := compute_item_dirty y b c } c) := rfl
      rw [he]
      have okbyc : dirty_ok
          (ItemTree.node b { y with dirty := compute_item_dirty y b c } c)
          = true := by
        refine dirty_ok_node.mpr ⟨?_, ?_, hokb, hokc⟩
        · exact node_any_eq_any hokb
        · exact node_any_eq_any hokc
      have hok' : dirty_ok (ItemTree.node a
          { x with
            dirty :=
              compute_item_dirty x a
                (.node b { y with dirty := compute_item_dirty y b c } c) }
          (.node b { y with dirty := compute_item_dirty y b c } c)) = true := by
        refine dirty_ok_node.mpr ⟨?_, ?_, hoka, okbyc⟩
        · exact node_any_eq_any hoka
        · exact node_any_eq_any okbyc
      refine ⟨hok', ?_⟩
      rw [any_eq_selfAny hok', any_eq_selfAny h]
      simp only [selfAny, compute_item_dirty]
      cases x.dirty.self <;> cases y.dirty.self <;> cases selfAny a <;>
        cases selfAny b <;> cases selfAny c <;> rfl

theorem rotate_left_ok (t : ItemTree) (h : dirty_ok t = true) :
    dirty_ok (rotate_left t) = true ∧
    any_dirty (rotate_left t) = any_dirty t := by
  cases t with
  | leaf => exact ⟨h, rfl⟩
  | node a x rr =>
    cases rr with
    | leaf => exact ⟨h, rfl⟩
    | node b y c =>
      obtain ⟨hx1, hx2, hoka, hokr⟩ := dirty_ok_node.mp h
      obtain ⟨hy1, hy2, hokb, hokc⟩ := dirty_ok_node.mp hokr
      have he : rotate_left (ItemTree.node a x (.node b y c)) =
          .node (.node a { x with dirty := compute_item_dirty x a b } b)
            { y with
              dirty :=
                compute_item_dirty y
                  (.node a { x with dirty := compute_item_dirty x a b } b) c }
            c := rfl
      rw [he]
      have okaxb : dirty_ok
          (ItemTree.node a { x with dirty := compute_item_dirty x a b } b)
          = true := by
        refine dirty_ok_node.mpr ⟨?_, ?_, hoka, hokb⟩
        · exact node_any_eq_any hoka
        · exact node_any_eq_any hokb
      have hok' : dirty_ok (ItemTree.node
          (.node a { x with dirty := compute_item_dirty x a b } b)
          { y with
            dirty :=
              compute_item_dirty y
                (.node a { x with dirty := compute_item_dirty x a b } b) c }
          c) = true := by
        refine dirty_ok_node.mpr ⟨?_, ?_, okaxb, hokc⟩
        · exact node_any_eq_any okaxb
        · exact node_any_eq_any hokc
      refine ⟨hok', ?_⟩
      rw [any_eq_selfAny hok', any_eq_selfAny h]
      simp only [selfAny, compute_item_dirty]
      cases x.dirty.self <;> cases y.dirty.self <;> cases selfAny a <;>
        cases selfAny b <;> cases selfAny c <;> rfl

theorem rotStep_ok {t t' : ItemTree} (hr : RotStep t t') :
    dirty_ok t = true →
      dirty_ok t' = true ∧ any_dirty t' = any_dirty t := by
  induction hr with
  | hereR s => exact fun h => rotate_right_ok s h
  | hereL s => exact fun h => rotate_left_ok s h
  | inL item r hs ih =>
    intro h
    obtain ⟨h1, h2, h3, h4⟩ := dirty_ok_node.mp h
    obtain ⟨ok', anyeq⟩ := ih h3
    exact ⟨dirty_ok_node.mpr ⟨by rw [h1, anyeq], h2, ok', h4⟩,
           by simp [any_dirty, anyeq]⟩
  | inR l item hs ih =>
    intro h
    obtain ⟨h1, h2, h3, h4⟩ := dirty_ok_node.mp h
    obtain ⟨ok', anyeq⟩ := ih h4
    exact ⟨dirty_ok_node.mpr ⟨h1, by rw [h2, anyeq], h3, ok'⟩,
           by simp [any_dirty, anyeq]⟩

/-! The augmented-index invariant at the cache level. -/

theorem dirty_ok_mark (cac : ItemCache) (key : Key)
    (h : dirty_ok cac.items = true) :
    dirty_ok (mark_item_dirty cac key).items = true := by
  rw [mark_item_dirty_items]
  exact (mark_dirty_at_ok cac.items key h).1

theorem dirty_ok_clear (cac : ItemCache) (key : Key)
    (h : dirty_ok cac.items = true) :
    dirty_ok (clear_item_dirty cac key).items = true := by
  rw [clear_item_dirty_items]
  exact (clear_dirty_at_ok cac.items key h).1

theorem dirty_ok_erase_item (cac : ItemCache) (key : Key)
    (h : dirty_ok cac.items = true) :
    dirty_ok (erase_item cac key).items = true := by
  unfold erase_item
  exact (erase_at_ok _ key (dirty_ok_clear cac key h)).1

theorem dirty_ok_insert_item_go (fuel : Nat) (ins : CachedItem)
    (hins : ins.dirty = DirtyBits.clean) :
    ∀ cac, dirty_ok cac.items = true →
      dirty_ok (insert_item_go fuel cac ins).2.items = true := by
  induction fuel with
  | zero => intro cac h; exact h
  | succ n ih =>
    intro cac h
    simp only [insert_item_go]
    cases hi : insert_descend ins cac.items with
    | inserted t => exact ((insert_descend_ok ins hins cac.items h).1 t hi).1
    | matched live t =>
      have ht : t = cac.items := (insert_descend_ok ins hins cac.items h).2 live t hi
      cases live with
      | true => rw [ht]; exact h
      | false =>
        apply ih
        apply dirty_ok_erase_item
        rw [ht]
        exact h

theorem dirty_ok_insert_item (cac : ItemCache) (ins : CachedItem)
    (hins : ins.dirty = DirtyBits.clean) (h : dirty_ok cac.items = true) :
    dirty_ok (insert_item cac ins).2.items = true :=
  dirty_ok_insert_item_go _ ins hins cac h

theorem dirty_ok_create (cac : ItemCache) (key : Key) (val : Option Val)
    (ok : Bool) (h : dirty_ok cac.items = true) :
    dirty_ok (scoutfs_item_create cac key val ok).2.items = true := by
  unfold scoutfs_item_create
  cases ok with
  | false => exact h
  | true =>
    simp only [Bool.not_true, Bool.false_eq_true, if_false]
    by_cases hr : (insert_item cac { key := key, val := val }).1 = 0
    · rw [if_pos hr]
      exact dirty_ok_mark _ key (dirty_ok_insert_item cac _ rfl h)
    · rw [if_neg hr]
      exact dirty_ok_insert_item cac _ rfl h

theorem dirty_ok_become_deletion (cac : ItemCache) (key : Key)
    (h : dirty_ok cac.items = true) :
    dirty_ok (become_deletion_item cac key).items = true := by
  unfold become_deletion_item
  apply dirty_ok_mark
  exact (modify_at_ok (fun it => { it with val := none, deletion := true })
    (fun _ => rfl) cac.items key h).1

theorem dirty_ok_dirty_locked (cac : ItemCache) (key : Key)
    (h : dirty_ok cac.items = true) :
    dirty_ok (item_dirty_locked cac key).2.2.items = true := by
  unfold item_dirty_locked
  cases hf : find_item cac.items key with
  | some it => exact dirty_ok_mark cac key h
  | none =>
    cases hc : check_range cac.ranges key with
    | mk b e => cases b <;> exact h

theorem dirty_ok_update_locked (cac : ItemCache) (key : Key)
    (val : Option Val) (h : dirty_ok cac.items = true) :
    dirty_ok (item_update_locked cac key val).2.2.items = true := by
  unfold item_update_locked
  cases hf : find_item cac.items key with
  | none =>
    cases hc : check_range cac.ranges key with
    | mk b e => cases b <;> exact h
  | some it =>
    apply dirty_ok_mark
    exact (modify_at_ok (fun it => { it with val := val }) (fun _ => rfl) _
      key (dirty_ok_clear cac key h)).1

theorem dirty_ok_delete_locked (cac : ItemCache) (key : Key)
    (h : dirty_ok cac.items = true) :
    dirty_ok (item_delete_locked cac key).2.2.items = true := by
  unfold item_delete_locked
  cases hf : find_item cac.items key with
  | some it => exact dirty_ok_become_deletion cac key h
  | none =>
    cases hc : check_range cac.ranges key with
    | mk b e => cases b <;> exact h

theorem dirty_ok_delete_dirty (cac : ItemCache) (key : Key)
    (h : dirty_ok cac.items = true) :
    dirty_ok (scoutfs_item_delete_dirty cac key).items = true := by
  unfold scoutfs_item_delete_dirty
  cases hf : find_item cac.items key with
  | some it => exact dirty_ok_become_deletion cac key h
  | none => exact h

theorem dirty_ok_insert_batch_items (list : List CachedItem)
    (hst : staged_ok list) :
    ∀ cac, dirty_ok cac.items = true →
      dirty_ok (insert_batch_items cac list).items = true := by
  induction list with
  | nil => intro cac h; exact h
  | cons item rest ih =>
    intro cac h
    simp only [insert_batch_items]
    exact ih (fun it hit => hst it (by simp [hit])) _
      (dirty_ok_insert_item cac item (hst item (by simp)).1 h)

theorem dirty_ok_insert_batch (cac : ItemCache) (list : List CachedItem)
    (start stop : Key) (ok : Bool) (hst : staged_ok list)
    (h : dirty_ok cac.items = true) :
    dirty_ok (scoutfs_item_insert_batch cac list start stop ok).2.1.items
      = true := by
  unfold scoutfs_item_insert_batch
  by_cases hc : keyCompare start stop = .gt
  · rw [if_pos hc]; exact h
  · rw [if_neg hc]
    cases ok with
    | false => exact h
    | true =>
      simp only [Bool.not_true, Bool.false_eq_true, if_false]
      exact dirty_ok_insert_batch_items list hst _ h

theorem dirty_ok_dirty_seg_go (nrem : Nat) :
    ∀ cac seg cur key_bytes, dirty_ok cac.items = true →
      dirty_ok (dirty_seg_go nrem cac seg cur key_bytes).1.items = true := by
  induction nrem with
  | zero => intro cac seg cur kb h; exact h
  | succ n ih =>
    intro cac seg cur kb h
    simp only [dirty_seg_go]
    cases hcur : (match cur with
        | none => first_dirty cac.items | some it => some it) with
    | none => exact h
    | some item =>
      apply ih
      by_cases hd : item.deletion = true
      · rw [hd]
        simp only [if_true]
        exact dirty_ok_erase_item _ item.key (dirty_ok_clear cac item.key h)
      · simp only [Bool.not_eq_true] at hd
        rw [hd]
        simp only [Bool.false_eq_true, if_false]
        exact dirty_ok_clear cac item.key h

theorem dirty_ok_dirty_seg (fits : FitsSingle) (cac : ItemCache)
    (seg : Segment) (h : dirty_ok cac.items = true) :
    dirty_ok (scoutfs_item_dirty_seg fits cac seg).2.1.items = true := by
  unfold scoutfs_item_dirty_seg
  exact dirty_ok_dirty_seg_go _ cac seg none _ h

/-- C3: in every reachable cache state, including across the rebalancing
rotations of the underlying red-black tree, every node's LEFT_DIRTY bit is
set iff some node of its left subtree has any of its three dirty bits set,
and symmetrically for RIGHT_DIRTY (the dirty_ok predicate states exactly
this for every node of the tree). -/
theorem claim_C3 (cac : ItemCache) (h : Reach cac) :
    dirty_ok cac.items = true := by
  induction h with
  | init => rfl
  | create key val ok _ ih => exact dirty_ok_create _ key val ok ih
  | dirty key _ ih => exact dirty_ok_dirty_locked _ key ih
  | update key val _ ih => exact dirty_ok_update_locked _ key val ih
  | delete key _ ih => exact dirty_ok_delete_locked _ key ih
  | delete_dirty key _ ih => exact dirty_ok_delete_dirty _ key ih
  | insert_batch list start stop ok hst _ ih =>
    exact dirty_ok_insert_batch _ list start stop ok hst ih
  | dirty_seg fits seg _ ih => exact dirty_ok_dirty_seg fits _ seg ih
  | rebalance _ hrot ih => exact (rotStep_ok hrot ih).1

/-- Witness for C3 at a reachable three-item state with marked items. -/
theorem claim_C3_witness :
    dirty_ok (item_delete_locked (scoutfs_item_create
      (scoutfs_item_create empty_cache [2] (some [8]) true).2
      [1] (some [7]) true).2 [2]).2.2.items = true :=
  claim_C3 _ (Reach.delete [2] (Reach.create [1] (some [7]) true
    (Reach.create [2] (some [8]) true Reach.init)))

/-! Binary-search-tree machinery: the ordering facts are untouched by
dirty-bit changes, and erase/insert maintain them. -/

theorem treeAll_imp {p q : CachedItem → Bool}
    (hpq : ∀ it, p it = true → q it = true) :
    ∀ t, treeAllItems p t = true → treeAllItems q t = true := by
  intro t
  induction t with
  | leaf => intro h; rfl
  | node l item r ihl ihr =>
    intro h
    simp only [treeAllItems, Bool.and_eq_true] at h ⊢
    obtain ⟨⟨h1, h2⟩, h3⟩ := h
    exact ⟨⟨hpq item h1, ihl h2⟩, ihr h3⟩

theorem treeAll_propagate (p : CachedItem → Bool)
    (hp : ∀ it d, p { it with dirty := d } = p it) (l : ItemTree)
    (item : CachedItem) (r : ItemTree) (s : Bool) :
    p (propagate_step l item r s).1 = p item := by
  simp only [propagate_step]
  split_ifs <;> first | rfl | exact hp item _

theorem treeAll_clear (p : CachedItem → Bool)
    (hp : ∀ it d, p { it with dirty := d } = p it) (t : ItemTree)
    (key : Key) :
    treeAllItems p (clear_dirty_at t key).1 = treeAllItems p t := by
  induction t with
  | leaf => rfl
  | node l item r ihl ihr =>
    cases hc : keyCompare key item.key with
    | lt =>
      have he : (clear_dirty_at (ItemTree.node l item r) key).1 =
          ItemTree.node (clear_dirty_at l key).1
            (propagate_step (clear_dirty_at l key).1 item r
              (clear_dirty_at l key).2.1).1 r := by
        simp [clear_dirty_at, hc]
      rw [he]
      simp only [treeAllItems, treeAll_propagate p hp, ihl]
    | gt =>
      have he : (clear_dirty_at (ItemTree.node l item r) key).1 =
          ItemTree.node l
            (propagate_step l item (clear_dirty_at r key).1
              (clear_dirty_at r key).2.1).1 (clear_dirty_at r key).1 := by
        simp [clear_dirty_at, hc]
      rw [he]
      simp only [treeAllItems, treeAll_propagate p hp, ihr]
    | eq =>
      by_cases hs : item.dirty.self = true
      · have he : (clear_dirty_at (ItemTree.node l item r) key).1 =
            ItemTree.node l
              { item with dirty := { item.dirty with self := false } } r := by
          simp [clear_dirty_at, hc, hs]
        rw [he]
        simp only [treeAllItems, hp item]
      · have hs' : item.dirty.self = false := by simp at hs; exact hs
        have he : (clear_dirty_at (ItemTree.node l item r) key).1 =
            ItemTree.node l item r := by
          simp [clear_dirty_at, hc, hs']
        rw [he]

theorem treeAll_mark (p : CachedItem → Bool)
    (hp : ∀ it d, p { it with dirty := d } = p it) (t : ItemTree)
    (key : Key) :
    treeAllItems p (mark_dirty_at t key).1 = treeAllItems p t := by
  induction t with
  | leaf => rfl
  | node l item r ihl ihr =>
    cases hc : keyCompare key item.key with
    | lt =>
      have he : (mark_dirty_at (ItemTree.node l item r) key).1 =
          ItemTree.node (mark_dirty_at l key).1
            (propagate_step (mark_dirty_at l key).1 item r
              (mark_dirty_at l key).2.1).1 r := by
        simp [mark_dirty_at, hc]
      rw [he]
      simp only [treeAllItems, treeAll_propagate p hp, ihl]
    | gt =>
      have he : (mark_dirty_at (ItemTree.node l item r) key).1 =
          ItemTree.node l
            (propagate_step l item (mark_dirty_at r key).1
              (mark_dirty_at r key).2.1).1 (mark_dirty_at r key).1 := by
        simp [mark_dirty_at, hc]
      rw [he]
      simp only [treeAllItems, treeAll_propagate p hp, ihr]
    | eq =>
      by_cases hs : item.dirty.self = true
      · have he : (mark_dirty_at (ItemTree.node l item r) key).1 =
            ItemTree.node l item r := by
          simp [mark_dirty_at, hc, hs]
        rw [he]
      · have hs' : item.dirty.self = false := by simp at hs; exact hs
        have he : (mark_dirty_at (ItemTree.node l item r) key).1 =
            ItemTree.node l
              { item with dirty := { item.dirty with self := true } } r := by
          simp [mark_dirty_at, hc, hs']
        rw [he]
        simp only [treeAllItems, hp item]

theorem bst_clear (t : ItemTree) (key : Key) :
    bst (clear_dirty_at t key).1 = bst t := by
  induction t with
  | leaf => rfl
  | node l item r ihl ihr =>
    cases hc : keyCompare key item.key with
    | lt =>
      have he : (clear_dirty_at (ItemTree.node l item r) key).1 =
          ItemTree.node (clear_dirty_at l key).1
            (propagate_step (clear_dirty_at l key).1 item r
              (clear_dirty_at l key).2.1).1 r := by
        simp [clear_dirty_at, hc]
      rw [he]
      have h1 := treeAll_clear
        (fun x => decide (keyCompare x.key item.key = Ordering.lt))
        (fun _ _ => rfl) l key
      simp only [bst, propagate_step_key, ihl, h1]
    | gt =>
      have he : (clear_dirty_at (ItemTree.node l item r) key).1 =
          ItemTree.node l
            (propagate_step l item (clear_dirty_at r key).1
              (clear_dirty_at r key).2.1).1 (clear_dirty_at r key).1 := by
        simp [clear_dirty_at, hc]
      rw [he]
      have h1 := treeAll_clear
        (fun x => decide (keyCompare item.key x.key = Ordering.lt))
        (fun _ _ => rfl) r key
      simp only [bst, propagate_step_key, ihr, h1]
    | eq =>
      by_cases hs : item.dirty.self = true
      · have he : (clear_dirty_at (ItemTree.node l item r) key).1 =
            ItemTree.node l
              { item with dirty := { item.dirty with self := false } } r := by
          simp [clear_dirty_at, hc, hs]
        rw [he]
        simp only [bst]
      · have hs' : item.dirty.self = false := by simp at hs; exact hs
        have he : (clear_dirty_at (ItemTree.node l item r) key).1 =
            ItemTree.node l item r := by
          simp [clear_dirty_at, hc, hs']
        rw [he]

theorem bst_mark (t : ItemTree) (key : Key) :
    bst (mark_dirty_at t key).1 = bst t := by
  induction t with
  | leaf => rfl
  | node l item r ihl ihr =>
    cases hc : keyCompare key item.key with
    | lt =>
      have he : (mark_dirty_at (ItemTree.node l item r) key).1 =
          ItemTree.node (mark_dirty_at l key).1
            (propagate_step (mark_dirty_at l key).1 item r
              (mark_dirty_at l key).2.1).1 r := by
        simp [mark_dirty_at, hc]
      rw [he]
      have h1 := treeAll_mark
        (fun x => decide (keyCompare x.key item.key = Ordering.lt))
        (fun _ _ => rfl) l key
      simp only [bst, propagate_step_key, ihl, h1]
    | gt =>
      have he : (mark_dirty_at (ItemTree.node l item r) key).1 =
          ItemTree.node l
            (propagate_step l item (mark_dirty_at r key).1
              (mark_dirty_at r key).2.1).1 (mark_dirty_at r key).1 := by
        simp [mark_dirty_at, hc]
      rw [he]
      have h1 := treeAll_mark
        (fun x => decide (keyCompare item.key x.key = Ordering.lt))
        (fun _ _ => rfl) r key
      simp only [bst, propagate_step_key, ihr, h1]
    | eq =>
      by_cases hs : item.dirty.self = true
      · have he : (mark_dirty_at (ItemTree.node l item r) key).1 =
            ItemTree.node l item r := by
          simp [mark_dirty_at, hc, hs]
        rw [he]
      · have hs' : item.dirty.self = false := by simp at hs; exact hs
        have he : (mark_dirty_at (ItemTree.node l item r) key).1 =
            ItemTree.node l
              { item with dirty := { item.dirty with self := true } } r := by
          simp [mark_dirty_at, hc, hs']
        rw [he]
        simp only [bst]

theorem treeAll_node {p : CachedItem → Bool} {l : ItemTree}
    {item : CachedItem} {r : ItemTree} :
    treeAllItems p (.node l item r) = true ↔
      p item = true ∧ treeAllItems p l = true ∧ treeAllItems p r = true := by
  simp [treeAllItems, Bool.and_eq_true, and_assoc]

theorem bst_node {l : ItemTree} {item : CachedItem} {r : ItemTree} :
    bst (.node l item r) = true ↔
      treeAllItems (fun x => keyCompare x.key item.key = Ordering.lt) l
        = true ∧
      treeAllItems (fun x => keyCompare item.key x.key = Ordering.lt) r
        = true ∧
      bst l = true ∧ bst r = true := by
  simp [bst, Bool.and_eq_true, and_assoc]

theorem walkFound_none_of_all_gt (t : ItemTree) (key : Key)
    (h : treeAllItems (fun x => keyCompare key x.key = Ordering.lt) t = true) :
    walkFound t key = none := by
  induction t with
  | leaf => rfl
  | node l item r ihl ihr =>
    obtain ⟨h1, h2, h3⟩ := treeAll_node.mp h
    simp only [decide_eq_true_eq] at h1
    simp only [walkFound, h1]
    exact ihl h2

theorem walkFound_none_of_all_lt (t : ItemTree) (key : Key)
    (h : treeAllItems (fun x => keyCompare x.key key = Ordering.lt) t = true) :
    walkFound t key = none := by
  induction t with
  | leaf => rfl
  | node l item r ihl ihr =>
    obtain ⟨h1, h2, h3⟩ := treeAll_node.mp h
    simp only [decide_eq_true_eq] at h1
    have hgt : keyCompare key item.key = Ordering.gt :=
      (keyCompare_gt_iff_lt key item.key).mpr h1
    simp only [walkFound, hgt]
    exact ihr h3

theorem remove_leftmost_all (p : CachedItem → Bool)
    (hp : ∀ it d, p { it with dirty := d } = p it) (t : ItemTree) :
    ∀ m t' s, remove_leftmost t = some (m, t', s) →
      treeAllItems p t = true → p m = true ∧ treeAllItems p t' = true := by
  induction t with
  | leaf => intro m t' s h; simp [remove_leftmost] at h
  | node l item r ihl ihr =>
    intro m t' s h hall
    obtain ⟨h1, h2, h3⟩ := treeAll_node.mp hall
    cases l with
    | leaf =>
      simp only [remove_leftmost, Option.some.injEq, Prod.mk.injEq] at h
      obtain ⟨rfl, rfl, rfl⟩ := h
      exact ⟨h1, h3⟩
    | node a x b =>
      simp only [remove_leftmost] at h
      cases hrl : remove_leftmost (.node a x b) with
      | none => rw [hrl] at h; simp at h
      | some q =>
        obtain ⟨m0, l', s0⟩ := q
        rw [hrl] at h
        simp only [Option.some.injEq, Prod.mk.injEq] at h
        obtain ⟨rfl, rfl, rfl⟩ := h
        obtain ⟨hm, hl'⟩ := ihl m0 l' s0 hrl h2
        refine ⟨hm, treeAll_node.mpr ⟨?_, hl', h3⟩⟩
        rw [treeAll_propagate p hp]
        exact h1

theorem remove_leftmost_bst (t : ItemTree) :
    ∀ m t' s, remove_leftmost t = some (m, t', s) → bst t = true →
      bst t' = true ∧
      treeAllItems (fun x => keyCompare m.key x.key = Ordering.lt) t'
        = true := by
  induction t with
  | leaf => intro m t' s h; simp [remove_leftmost] at h
  | node l item r ihl ihr =>
    intro m t' s h hb
    obtain ⟨hbl, hbr, hl, hr⟩ := bst_node.mp hb
    cases l with
    | leaf =>
      simp only [remove_leftmost, Option.some.injEq, Prod.mk.injEq] at h
      obtain ⟨rfl, rfl, rfl⟩ := h
      exact ⟨hr, hbr⟩
    | node a x b =>
      simp only [remove_leftmost] at h
      cases hrl : remove_leftmost (.node a x b) with
      | none => rw [hrl] at h; simp at h
      | some q =>
        obtain ⟨m0, l', s0⟩ := q
        rw [hrl] at h
        simp only [Option.some.injEq, Prod.mk.injEq] at h
        obtain ⟨rfl, rfl, rfl⟩ := h
        obtain ⟨hbstl', halll'⟩ := ihl m0 l' s0 hrl hl
        obtain ⟨hpm, hpl'⟩ := remove_leftmost_all
          (fun x => decide (keyCompare x.key item.key = Ordering.lt))
          (fun _ _ => rfl) _ m0 l' s0 hrl hbl
        simp only [decide_eq_true_eq] at hpm
        constructor
        · refine bst_node.mpr ⟨?_, ?_, hbstl', hr⟩
          · rw [propagate_step_key]
            exact hpl'
          · rw [propagate_step_key]
            exact hbr
        · refine treeAll_node.mpr ⟨?_, halll', ?_⟩
          · simp only [decide_eq_true_eq, propagate_step_key]
            exact hpm
          · refine treeAll_imp (p := fun x =>
              decide (keyCompare item.key x.key = Ordering.lt)) ?_ r hbr
            intro it hit
            simp only [decide_eq_true_eq] at hit ⊢
            exact keyCompare_lt_trans hpm hit

theorem erase_at_all (p : CachedItem → Bool)
    (hp : ∀ it d, p { it with dirty := d } = p it) (t : ItemTree)
    (key : Key) (h : treeAllItems p t = true) :
    treeAllItems p (erase_at t key).1 = true := by
  induction t with
  | leaf => rfl
  | node l item r ihl ihr =>
    obtain ⟨h1, h2, h3⟩ := treeAll_node.mp h
    cases hc : keyCompare key item.key with
    | lt =>
      have he : (erase_at (ItemTree.node l item r) key).1 =
          ItemTree.node (erase_at l key).1
            (propagate_step (erase_at l key).1 item r
              (erase_at l key).2.1).1 r := by
        simp [erase_at, hc]
      rw [he]
      refine treeAll_node.mpr ⟨?_, ihl h2, h3⟩
      rw [treeAll_propagate p hp]
      exact h1
    | gt =>
      have he : (erase_at (ItemTree.node l item r) key).1 =
          ItemTree.node l
            (propagate_step l item (erase_at r key).1
              (erase_at r key).2.1).1 (erase_at r key).1 := by
        simp [erase_at, hc]
      rw [he]
      refine treeAll_node.mpr ⟨?_, h2, ihr h3⟩
      rw [treeAll_propagate p hp]
      exact h1
    | eq =>
      cases l with
      | leaf =>
        have he : (erase_at (ItemTree.node .leaf item r) key).1 = r := by
          simp [erase_at, hc]
        rw [he]
        exact h3
      | node la lx lb =>
        cases r with
        | leaf =>
          have he : (erase_at
              (ItemTree.node (.node la lx lb) item .leaf) key).1 =
              .node la lx lb := by
            simp [erase_at, hc]
          rw [he]
          exact h2
        | node ra rx rb =>
          cases hrl : remove_leftmost (.node ra rx rb) with
          | none =>
            have hs := remove_leftmost_isSome ra rx rb
            rw [hrl] at hs
            simp at hs
          | some q =>
            obtain ⟨m0, r', s0⟩ := q
            have he : (erase_at (ItemTree.node (.node la lx lb) item
                (.node ra rx rb)) key).1 =
                ItemTree.node (.node la lx lb)
                  { m0 with dirty :=
                    compute_item_dirty m0 (.node la lx lb) r' } r' := by
              simp [erase_at, hc, hrl]
            rw [he]
            obtain ⟨hm, hr'⟩ := remove_leftmost_all p hp _ m0 r' s0 hrl h3
            refine treeAll_node.mpr ⟨?_, h2, hr'⟩
            rw [hp m0]
            exact hm

theorem erase_at_bst (t : ItemTree) (key : Key) (h : bst t = true) :
    bst (erase_at t key).1 = true := by
  induction t with
  | leaf => rfl
  | node l item r ihl ihr =>
    obtain ⟨hbl, hbr, hl, hr⟩ := bst_node.mp h
    cases hc : keyCompare key item.key with
    | lt =>
      have he : (erase_at (ItemTree.node l item r) key).1 =
          ItemTree.node (erase_at l key).1
            (propagate_step (erase_at l key).1 item r
              (erase_at l key).2.1).1 r := by
        simp [erase_at, hc]
      rw [he]
      refine bst_node.mpr ⟨?_, ?_, ihl hl, hr⟩
      · rw [propagate_step_key]
        exact erase_at_all
          (fun x => decide (keyCompare x.key item.key = Ordering.lt))
          (fun _ _ => rfl) l key hbl
      · rw [propagate_step_key]
        exact hbr
    | gt =>
      have he : (erase_at (ItemTree.node l item r) key).1 =
          ItemTree.node l
            (propagate_step l item (erase_at r key).1
              (erase_at r key).2.1).1 (erase_at r key).1 := by
        simp [erase_at, hc]
      rw [he]
      refine bst_node.mpr ⟨?_, ?_, hl, ihr hr⟩
      · rw [propagate_step_key]
        exact hbl
      · rw [propagate_step_key]
        exact erase_at_all
          (fun x => decide (keyCompare item.key x.key = Ordering.lt))
          (fun _ _ => rfl) r key hbr
    | eq =>
      cases l with
      | leaf =>
        have he : (erase_at (ItemTree.node .leaf item r) key).1 = r := by
          simp [erase_at, hc]
        rw [he]
        exact hr
      | node la lx lb =>
        cases r with
        | leaf =>
          have he : (erase_at
              (ItemTree.node (.node la lx lb) item .leaf) key).1 =
              .node la lx lb := by
            simp [erase_at, hc]
          rw [he]
          exact hl
        | node ra rx rb =>
          cases hrl : remove_leftmost (.node ra rx rb) with
          | none =>
            have hs := remove_leftmost_isSome ra rx rb
            rw [hrl] at hs
            simp at hs
          | some q =>
            obtain ⟨m0, r', s0⟩ := q
            have he : (erase_at (ItemTree.node (.node la lx lb) item
                (.node ra rx rb)) key).1 =
                ItemTree.node (.node la lx lb)
                  { m0 with dirty :=
                    compute_item_dirty m0 (.node la lx lb) r' } r' := by
              simp [erase_at, hc, hrl]
            rw [he]
            obtain ⟨hbst', hall'⟩ := remove_leftmost_bst _ m0 r' s0 hrl hr
            obtain ⟨hm, _⟩ := remove_leftmost_all
              (fun x => decide (keyCompare item.key x.key = Ordering.lt))
              (fun _ _ => rfl) _ m0 r' s0 hrl hbr
            simp only [decide_eq_true_eq] at hm
            refine bst_node.mpr ⟨?_, hall', hl, hbst'⟩
            refine treeAll_imp (p := fun x =>
              decide (keyCompare x.key item.key = Ordering.lt)) ?_ _ hbl
            intro it hit
            simp only [decide_eq_true_eq] at hit ⊢
            exact keyCompare_lt_trans hit hm

theorem walkFound_erase (t : ItemTree) (key : Key) (h : bst t = true) :
    walkFound (erase_at t key).1 key = none := by
  induction t with
  | leaf => rfl
  | node l item r ihl ihr =>
    obtain ⟨hbl, hbr, hl, hr⟩ := bst_node.mp h
    cases hc : keyCompare key item.key with
    | lt =>
      have he : (erase_at (ItemTree.node l item r) key).1 =
          ItemTree.node (erase_at l key).1
            (propagate_step (erase_at l key).1 item r
              (erase_at l key).2.1).1 r := by
        simp [erase_at, hc]
      rw [he]
      simp only [walkFound, propagate_step_key, hc]
      exact ihl hl
    | gt =>
      have he : (erase_at (ItemTree.node l item r) key).1 =
          ItemTree.node l
            (propagate_step l item (erase_at r key).1
              (erase_at r key).2.1).1 (erase_at r key).1 := by
        simp [erase_at, hc]
      rw [he]
      simp only [walkFound, propagate_step_key, hc]
      exact ihr hr
    | eq =>
      have hkey : key = item.key := (keyCompare_eq_iff key item.key).mp hc
      cases l with
      | leaf =>
        have he : (erase_at (ItemTree.node .leaf item r) key).1 = r := by
          simp [erase_at, hc]
        rw [he]
        apply walkFound_none_of_all_gt
        refine treeAll_imp (p := fun x =>
          decide (keyCompare item.key x.key = Ordering.lt)) ?_ r hbr
        intro it hit
        rw [hkey]
        exact hit
      | node la lx lb =>
        cases r with
        | leaf =>
          have he : (erase_at
              (ItemTree.node (.node la lx lb) item .leaf) key).1 =
              .node la lx lb := by
            simp [erase_at, hc]
          rw [he]
          apply walkFound_none_of_all_lt
          refine treeAll_imp (p := fun x =>
            decide (keyCompare x.key item.key = Ordering.lt)) ?_ _ hbl
          intro it hit
          rw [hkey]
          exact hit
        | node ra rx rb =>
          cases hrl : remove_leftmost (.node ra rx rb) with
          | none =>
            have hs := remove_leftmost_isSome ra rx rb
            rw [hrl] at hs
            simp at hs
          | some q =>
            obtain ⟨m0, r', s0⟩ := q
            have he : (erase_at (ItemTree.node (.node la lx lb) item
                (.node ra rx rb)) key).1 =
                ItemTree.node (.node la lx lb)
                  { m0 with dirty :=
                    compute_item_dirty m0 (.node la lx lb) r' } r' := by
              simp [erase_at, hc, hrl]
            rw [he]
            obtain ⟨hm, _⟩ := remove_leftmost_all
              (fun x => decide (keyCompare item.key x.key = Ordering.lt))
              (fun _ _ => rfl) _ m0 r' s0 hrl hbr
            simp only [decide_eq_true_eq] at hm
            have hlt : keyCompare key m0.key = Ordering.lt := by
              rw [hkey]
              exact hm
            simp only [walkFound, hlt]
            show walkFound (ItemTree.node la lx lb) key = none
            apply walkFound_none_of_all_lt
            refine treeAll_imp (p := fun x =>
              decide (keyCompare x.key item.key = Ordering.lt)) ?_ _ hbl
            intro it hit
            rw [hkey]
            exact hit

theorem insert_descend_of_found (ins : CachedItem)
    (hins : ins.dirty = DirtyBits.clean) (t : ItemTree) (it0 : CachedItem)
    (hw : walkFound t ins.key = some it0) :
    insert_descend ins t = .matched (!it0.deletion) t := by
  have hany : ins.dirty.any = false := by rw [hins]; rfl
  induction t with
  | leaf => simp [walkFound] at hw
  | node l item r ihl ihr =>
    cases hc : keyCompare ins.key item.key with
    | lt =>
      simp only [walkFound, hc] at hw
      simp only [insert_descend, hc, hany, Bool.false_eq_true, if_false,
        ihl hw]
    | gt =>
      simp only [walkFound, hc] at hw
      simp only [insert_descend, hc, hany, Bool.false_eq_true, if_false,
        ihr hw]
    | eq =>
      simp only [walkFound, hc, Option.some.injEq] at hw
      subst hw
      simp [insert_descend, hc]

theorem insert_descend_of_notfound (ins : CachedItem) (t : ItemTree)
    (hw : walkFound t ins.key = none) :
    ∃ t', insert_descend ins t = .inserted t' := by
  induction t with
  | leaf => exact ⟨_, rfl⟩
  | node l item r ihl ihr =>
    cases hc : keyCompare ins.key item.key with
    | lt =>
      simp only [walkFound, hc] at hw
      obtain ⟨t', ht'⟩ := ihl hw
      exact ⟨_, by simp only [insert_descend, hc, ht']; rfl⟩
    | gt =>
      simp only [walkFound, hc] at hw
      obtain ⟨t', ht'⟩ := ihr hw
      exact ⟨_, by simp only [insert_descend, hc, ht']; rfl⟩
    | eq =>
      simp [walkFound, hc] at hw

theorem insert_descend_walk (ins : CachedItem) (t : ItemTree) :
    ∀ t', insert_descend ins t = .inserted t' →
      walkFound t' ins.key = some ins := by
  induction t with
  | leaf =>
    intro t' h
    simp only [insert_descend, InsDescend.inserted.injEq] at h
    subst h
    simp [walkFound, keyCompare_self]
  | node l item r ihl ihr =>
    intro t' h
    cases hc : keyCompare ins.key item.key with
    | lt =>
      rw [show insert_descend ins (ItemTree.node l item r) =
          (match insert_descend ins l with
           | .inserted l' => .inserted (.node l'
               (if ins.dirty.any then
                 { item with dirty := { item.dirty with left := true } }
                else item) r)
           | .matched live l' => .matched live (.node l'
               (if ins.dirty.any then
                 { item with dirty := { item.dirty with left := true } }
                else item) r)) from by
        simp only [insert_descend, hc]] at h
      cases hi : insert_descend ins l with
      | inserted l' =>
        rw [hi] at h
        simp only [InsDescend.inserted.injEq] at h
        subst h
        have hkey : (if ins.dirty.any then
            { item with dirty := { item.dirty with left := true } }
           else item).key = item.key := by
          split_ifs <;> rfl
        simp only [walkFound, hkey, hc]
        exact ihl l' hi
      | matched live l' => rw [hi] at h; simp at h
    | gt =>
      rw [show insert_descend ins (ItemTree.node l item r) =
          (match insert_descend ins r with
           | .inserted r' => .inserted (.node l
               (if ins.dirty.any then
                 { item with dirty := { item.dirty with right := true } }
                else item) r')
           | .matched live r' => .matched live (.node l
               (if ins.dirty.any then
                 { item with dirty := { item.dirty with right := true } }
                else item) r')) from by
        simp only [insert_descend, hc]] at h
      cases hi : insert_descend ins r with
      | inserted r' =>
        rw [hi] at h
        simp only [InsDescend.inserted.injEq] at h
        subst h
        have hkey : (if ins.dirty.any then
            { item with dirty := { item.dirty with right := true } }
           else item).key = item.key := by
          split_ifs <;> rfl
        simp only [walkFound, hkey, hc]
        exact ihr r' hi
      | matched live r' => rw [hi] at h; simp at h
    | eq =>
      simp only [insert_descend, hc] at h
      simp at h

theorem clear_dirty_at_chg (t : ItemTree) (key : Key) :
    (clear_dirty_at t key).2.2 =
      (walkFound t key).bind
        (fun it => if it.dirty.self then some it else none) := by
  induction t with
  | leaf => rfl
  | node l item r ihl ihr =>
    cases hc : keyCompare key item.key with
    | lt =>
      have he : (clear_dirty_at (ItemTree.node l item r) key).2.2 =
          (clear_dirty_at l key).2.2 := by
        simp [clear_dirty_at, hc]
      rw [he, ihl]
      simp only [walkFound, hc]
    | gt =>
      have he : (clear_dirty_at (ItemTree.node l item r) key).2.2 =
          (clear_dirty_at r key).2.2 := by
        simp [clear_dirty_at, hc]
      rw [he, ihr]
      simp only [walkFound, hc]
    | eq =>
      by_cases hs : item.dirty.self = true
      · have he : (clear_dirty_at (ItemTree.node l item r) key).2.2 =
            some item := by
          simp [clear_dirty_at, hc, hs]
        rw [he]
        simp [walkFound, hc, hs]
      · have hs' : item.dirty.self = false := by simp at hs; exact hs
        have he : (clear_dirty_at (ItemTree.node l item r) key).2.2 =
            none := by
          simp [clear_dirty_at, hc, hs']
        rw [he]
        simp [walkFound, hc, hs']

theorem treeSize_pos_of_walkFound {t : ItemTree} {key : Key}
    {it : CachedItem} (h : walkFound t key = some it) :
    1 ≤ treeSize t := by
  cases t with
  | leaf => simp [walkFound] at h
  | node l item r => simp [treeSize]

/-- C6: insertion descends by key; a live item with the same key yields
EXISTS and leaves the cache unchanged; an existing tombstone is erased,
with its dirty accounting removed from the counters, and the descent
restarts so the new item ends up in the tree; an absent key inserts the
new item directly.  New items are freshly allocated, hence their dirty
bits are clear. -/
theorem claim_C6 (cac : ItemCache) (ins : CachedItem)
    (hbst : bst cac.items = true) (hins : ins.dirty = DirtyBits.clean) :
    (∀ it0, walkFound cac.items ins.key = some it0 → it0.deletion = false →
      insert_item cac ins = (-errEEXIST, cac)) ∧
    (∀ it0, walkFound cac.items ins.key = some it0 → it0.deletion = true →
      (insert_item cac ins).1 = 0 ∧
      walkFound (insert_item cac ins).2.items ins.key = some ins ∧
      (insert_item cac ins).2.nr_dirty_items =
        cac.nr_dirty_items - (if it0.dirty.self then 1 else 0) ∧
      (insert_item cac ins).2.dirty_key_bytes =
        cac.dirty_key_bytes -
          (if it0.dirty.self then (it0.key.length : Int) else 0) ∧
      (insert_item cac ins).2.dirty_val_bytes =
        cac.dirty_val_bytes -
          (if it0.dirty.self then (scoutfs_kvec_length it0.val : Int)
           else 0)) ∧
    (walkFound cac.items ins.key = none →
      (insert_item cac ins).1 = 0 ∧
      walkFound (insert_item cac ins).2.items ins.key = some ins ∧
      (insert_item cac ins).2.nr_dirty_items = cac.nr_dirty_items ∧
      (insert_item cac ins).2.dirty_key_bytes = cac.dirty_key_bytes ∧
      (insert_item cac ins).2.dirty_val_bytes = cac.dirty_val_bytes) := by
  refine ⟨?_, ?_, ?_⟩
  · intro it0 hw hdel
    have hd := insert_descend_of_found ins hins cac.items it0 hw
    rw [hdel, Bool.not_false] at hd
    unfold insert_item
    simp only [insert_item_go, hd]
  · intro it0 hw hdel
    have hd := insert_descend_of_found ins hins cac.items it0 hw
    rw [hdel, Bool.not_true] at hd
    have hsz := treeSize_pos_of_walkFound hw
    obtain ⟨m, hm⟩ : ∃ m, treeSize cac.items = m + 1 :=
      ⟨treeSize cac.items - 1, by omega⟩
    unfold insert_item
    rw [hm]
    have hstep : insert_item_go (m + 1 + 1) cac ins =
        insert_item_go (m + 1) (erase_item cac ins.key) ins := by
      simp only [insert_item_go, hd]
    rw [hstep]
    have hebst : bst (clear_dirty_at cac.items ins.key).1 = true := by
      rw [bst_clear]; exact hbst
    have heitems : (erase_item cac ins.key).items =
        (erase_at (clear_dirty_at cac.items ins.key).1 ins.key).1 := by
      simp [erase_item, clear_item_dirty_items]
    have hwe : walkFound (erase_item cac ins.key).items ins.key = none := by
      rw [heitems]
      exact walkFound_erase _ ins.key hebst
    obtain ⟨t'', ht''⟩ := insert_descend_of_notfound ins _ hwe
    have hstep2 : insert_item_go (m + 1) (erase_item cac ins.key) ins =
        (0, { erase_item cac ins.key with items := t'' }) := by
      simp only [insert_item_go, ht'']
    rw [hstep2]
    have hchg : (clear_dirty_at cac.items ins.key).2.2 =
        (if it0.dirty.self then some it0 else none) := by
      rw [clear_dirty_at_chg, hw]
      rfl
    refine ⟨rfl, insert_descend_walk ins _ t'' ht'', ?_, ?_, ?_⟩ <;>
      by_cases hs : it0.dirty.self = true <;>
      simp only [hs, if_true, if_false] <;>
      simp [erase_item, clear_item_dirty, hchg, hs]
  · intro hw
    obtain ⟨t', ht'⟩ := insert_descend_of_notfound ins _ hw
    unfold insert_item
    simp only [insert_item_go, ht']
    refine ⟨?_, insert_descend_walk ins _ t' ht', ?_, ?_, ?_⟩ <;> trivial

/-- Witness for C6 exercising all three cases. -/
theorem claim_C6_witness :
    insert_item ⟨.node .leaf ⟨[1], some [5], false, .clean⟩ .leaf,
        .leaf, 0, 0, 0⟩ ⟨[1], some [6], false, .clean⟩ =
      (-errEEXIST, ⟨.node .leaf ⟨[1], some [5], false, .clean⟩ .leaf,
        .leaf, 0, 0, 0⟩) ∧
    ((insert_item ⟨.node .leaf ⟨[1], none, true, ⟨true, false, false⟩⟩ .leaf,
        .leaf, 1, 1, 0⟩ ⟨[1], some [6], false, .clean⟩).1 = 0 ∧
      walkFound (insert_item
        ⟨.node .leaf ⟨[1], none, true, ⟨true, false, false⟩⟩ .leaf,
          .leaf, 1, 1, 0⟩ ⟨[1], some [6], false, .clean⟩).2.items [1] =
        some ⟨[1], some [6], false, .clean⟩) ∧
    (insert_item empty_cache ⟨[2], some [6], false, .clean⟩).1 = 0 :=
  ⟨(claim_C6 ⟨.node .leaf ⟨[1], some [5], false, .clean⟩ .leaf,
      .leaf, 0, 0, 0⟩ ⟨[1], some [6], false, .clean⟩ (by decide) rfl).1
      ⟨[1], some [5], false, .clean⟩ (by decide) rfl,
   ⟨((claim_C6 ⟨.node .leaf ⟨[1], none, true, ⟨true, false, false⟩⟩ .leaf,
      .leaf, 1, 1, 0⟩ ⟨[1], some [6], false, .clean⟩ (by decide) rfl).2.1
      ⟨[1], none, true, ⟨true, false, false⟩⟩ (by decide) rfl).1,
    ((claim_C6 ⟨.node .leaf ⟨[1], none, true, ⟨true, false, false⟩⟩ .leaf,
      .leaf, 1, 1, 0⟩ ⟨[1], some [6], false, .clean⟩ (by decide) rfl).2.1
      ⟨[1], none, true, ⟨true, false, false⟩⟩ (by decide) rfl).2.1⟩,
   ((claim_C6 empty_cache ⟨[2], some [6], false, .clean⟩ rfl rfl).2.2
      rfl).1⟩

theorem insert_item_live (cac : ItemCache) (ins : CachedItem)
    (hins : ins.dirty = DirtyBits.clean) (it0 : CachedItem)
    (hw : walkFound cac.items ins.key = some it0)
    (hdel : it0.deletion = false) :
    insert_item cac ins = (-errEEXIST, cac) := by
  have hd := insert_descend_of_found ins hins cac.items it0 hw
  rw [hdel, Bool.not_false] at hd
  unfold insert_item
  simp only [insert_item_go, hd]

theorem insert_item_tombstone (cac : ItemCache) (ins : CachedItem)
    (hbst : bst cac.items = true) (hins : ins.dirty = DirtyBits.clean)
    (it0 : CachedItem) (hw : walkFound cac.items ins.key = some it0)
    (hdel : it0.deletion = true) :
    (insert_item cac ins).1 = 0 ∧
    walkFound (insert_item cac ins).2.items ins.key = some ins := by
  have hd := insert_descend_of_found ins hins cac.items it0 hw
  rw [hdel, Bool.not_true] at hd
  have hsz := treeSize_pos_of_walkFound hw
  obtain ⟨m, hm⟩ : ∃ m, treeSize cac.items = m + 1 :=
    ⟨treeSize cac.items - 1, by omega⟩
  unfold insert_item
  rw [hm]
  have hstep : insert_item_go (m + 1 + 1) cac ins =
      insert_item_go (m + 1) (erase_item cac ins.key) ins := by
    simp only [insert_item_go, hd]
  rw [hstep]
  have hebst : bst (clear_dirty_at cac.items ins.key).1 = true := by
    rw [bst_clear]; exact hbst
  have heitems : (erase_item cac ins.key).items =
      (erase_at (clear_dirty_at cac.items ins.key).1 ins.key).1 := by
    simp [erase_item, clear_item_dirty_items]
  have hwe : walkFound (erase_item cac ins.key).items ins.key = none := by
    rw [heitems]
    exact walkFound_erase _ ins.key hebst
  obtain ⟨t'', ht''⟩ := insert_descend_of_notfound ins _ hwe
  have hstep2 : insert_item_go (m + 1) (erase_item cac ins.key) ins =
      (0, { erase_item cac ins.key with items := t'' }) := by
    simp only [insert_item_go, ht'']
  rw [hstep2]
  exact ⟨rfl, insert_descend_walk ins _ t'' ht''⟩

/-- C2: a staged batch item whose key matches a cached tombstone replaces
it: insert_batch erases the tombstone and links the staged clean item, so
it is afterwards found live at that key; only a collision with a live item
discards the staged item, leaving the tree unchanged.  Consequently
create(k,v); delete(k); insert_batch([(k,v')],k,k); lookup(k) returns the
copied byte count of v' rather than NOT_FOUND. -/
theorem claim_C2 :
    (∀ (cac : ItemCache) (it it0 : CachedItem) (start stop : Key),
      bst cac.items = true → it.dirty = DirtyBits.clean →
      it.deletion = false → ¬ keyCompare start stop = Ordering.gt →
      walkFound cac.items it.key = some it0 →
      (it0.deletion = true →
        (scoutfs_item_insert_batch cac [it] start stop true).1 = 0 ∧
        (scoutfs_item_insert_batch cac [it] start stop true).2.2 = [] ∧
        find_item
          (scoutfs_item_insert_batch cac [it] start stop true).2.1.items
          it.key = some it) ∧
      (it0.deletion = false →
        (scoutfs_item_insert_batch cac [it] start stop true).2.1.items =
          cac.items)) ∧
    (∀ (v v' : Val) (buf fuel : Nat) (reader : Reader),
      (scoutfs_item_lookup (fuel + 1)
        (scoutfs_item_insert_batch
          (scoutfs_item_delete 1
            (scoutfs_item_create empty_cache [0] (some v) true).2
            [0] reader true).2
          [⟨[0], some v', false, DirtyBits.clean⟩] [0] [0] true).2.1
        [0] buf reader true).1 = ((min buf v'.length : Nat) : Int)) := by
  constructor
  · intro cac it it0 start stop hbst hcl hlive hne hw
    have hb : scoutfs_item_insert_batch cac [it] start stop true =
        (0, (insert_item
          { cac with ranges := insert_range cac.ranges ⟨start, stop⟩ }
          it).2, []) := by
      simp [scoutfs_item_insert_batch, if_neg hne, insert_batch_items]
    constructor
    · intro hdel
      have hT := insert_item_tombstone
        { cac with ranges := insert_range cac.ranges ⟨start, stop⟩ }
        it hbst hcl it0 hw hdel
      refine ⟨by rw [hb], by rw [hb], ?_⟩
      rw [hb]
      rw [find_item_eq, hT.2]
      simp [hlive]
    · intro hdel
      have hL := insert_item_live
        { cac with ranges := insert_range cac.ranges ⟨start, stop⟩ }
        it hcl it0 hw hdel
      rw [hb, hL]
  · intro v v' buf fuel reader
    have hD : (scoutfs_item_insert_batch
        (scoutfs_item_delete 1
          (scoutfs_item_create empty_cache [0] (some v) true).2
          [0] reader true).2
        [⟨[0], some v', false, DirtyBits.clean⟩] [0] [0] true).2.1.items =
        ItemTree.node .leaf ⟨[0], some v', false, DirtyBits.clean⟩ .leaf :=
      rfl
    have hp : lookup_locked (scoutfs_item_insert_batch
        (scoutfs_item_delete 1
          (scoutfs_item_create empty_cache [0] (some v) true).2
          [0] reader true).2
        [⟨[0], some v', false, DirtyBits.clean⟩] [0] [0] true).2.1 [0] buf =
        ((buf : Int) ⊓ ((v'.length : Nat) : Int), none) := by
      simp [lookup_locked, hD, find_item, walk_items, walk_items_go,
        keyCompare, scoutfs_kvec_memcpy, scoutfs_kvec_length]
    have hge : (0 : Int) ≤ (buf : Int) ⊓ ((v'.length : Nat) : Int) :=
      le_min (Int.natCast_nonneg _) (Int.natCast_nonneg _)
    have hne : ¬ ((buf : Int) ⊓ ((v'.length : Nat) : Int) = -errENODATA) := by
      simp only [errENODATA]
      omega
    simp [scoutfs_item_lookup, lookup_loop, hp, hne, Nat.cast_min]

/-- Witness for C2: a staged item replaces a cached dirty tombstone. -/
theorem claim_C2_witness :
    (scoutfs_item_insert_batch
      ⟨.node .leaf ⟨[1], none, true, ⟨true, false, false⟩⟩ .leaf,
        .leaf, 1, 1, 0⟩
      [⟨[1], some [5], false, DirtyBits.clean⟩] [1] [1] true).1 = 0 ∧
    find_item (scoutfs_item_insert_batch
      ⟨.node .leaf ⟨[1], none, true, ⟨true, false, false⟩⟩ .leaf,
        .leaf, 1, 1, 0⟩
      [⟨[1], some [5], false, DirtyBits.clean⟩] [1] [1] true).2.1.items [1] =
      some ⟨[1], some [5], false, DirtyBits.clean⟩ :=
  ⟨((claim_C2.1 ⟨.node .leaf ⟨[1], none, true, ⟨true, false, false⟩⟩ .leaf,
        .leaf, 1, 1, 0⟩
      ⟨[1], some [5], false, DirtyBits.clean⟩
      ⟨[1], none, true, ⟨true, false, false⟩⟩ [1] [1]
      (by decide) rfl rfl (by decide) (by decide)).1 rfl).1,
   ((claim_C2.1 ⟨.node .leaf ⟨[1], none, true, ⟨true, false, false⟩⟩ .leaf,
        .leaf, 1, 1, 0⟩
      ⟨[1], some [5], false, DirtyBits.clean⟩
      ⟨[1], none, true, ⟨true, false, false⟩⟩ [1] [1]
      (by decide) rfl rfl (by decide) (by decide)).1 rfl).2.2⟩

theorem rangeLtB_iff (a b : CachedRange) :
    rangeLtB a b = true ↔ keyCompare a.stop b.start = Ordering.lt := by
  simp only [rangeLtB, scoutfs_key_compare_ranges, decide_eq_true_eq]
  by_cases h : keyCompare a.stop b.start = Ordering.lt
  · simp [h]
  · simp only [if_neg h]
    constructor
    · intro h2
      split at h2 <;> simp at h2
    · intro h2
      exact absurd h2 h

theorem compare_ranges_gt_start {s1 e1 s2 e2 : Key}
    (h : scoutfs_key_compare_ranges s1 e1 s2 e2 = .gt) :
    keyCompare s1 e2 = .gt := by
  simp only [scoutfs_key_compare_ranges] at h
  by_cases h1 : keyCompare e1 s2 = .lt
  · rw [if_pos h1] at h; simp at h
  · rw [if_neg h1] at h
    by_cases h2 : keyCompare s1 e2 = .gt
    · exact h2
    · rw [if_neg h2] at h; simp at h

theorem compare_ranges_eq_facts {s1 e1 s2 e2 : Key}
    (h : scoutfs_key_compare_ranges s1 e1 s2 e2 = .eq) :
    keyCompare e1 s2 ≠ .lt ∧ keyCompare s1 e2 ≠ .gt := by
  simp only [scoutfs_key_compare_ranges] at h
  by_cases h1 : keyCompare e1 s2 = .lt
  · rw [if_pos h1] at h; simp at h
  · rw [if_neg h1] at h
    by_cases h2 : keyCompare s1 e2 = .gt
    · rw [if_pos h2] at h; simp at h
    · exact ⟨h1, h2⟩

theorem rangeLtB_trans {a b c : CachedRange}
    (hb : keyCompare b.start b.stop ≠ Ordering.gt)
    (h1 : rangeLtB a b = true) (h2 : rangeLtB b c = true) :
    rangeLtB a c = true := by
  rw [rangeLtB_iff] at h1 h2 ⊢
  exact keyCompare_lt_trans (keyCompare_lt_le_trans h1 hb) h2

theorem rangeAllB_imp {p q : CachedRange → Bool}
    (h : ∀ x, p x = true → q x = true) (t : RangeTree)
    (ht : rangeAllB p t = true) : rangeAllB q t = true := by
  induction t with
  | leaf => rfl
  | node l rng r ihl ihr =>
    simp only [rangeAllB, Bool.and_eq_true] at ht ⊢
    exact ⟨⟨h _ ht.1.1, ihl ht.1.2⟩, ihr ht.2⟩

theorem rangeAllB_mem (p : CachedRange → Bool) (t : RangeTree)
    (ht : rangeAllB p t = true) (x : CachedRange)
    (hx : x ∈ inorderRanges t) : p x = true := by
  induction t with
  | leaf => simp [inorderRanges] at hx
  | node l rng r ihl ihr =>
    simp only [rangeAllB, Bool.and_eq_true] at ht
    simp only [inorderRanges, List.mem_append, List.mem_cons] at hx
    rcases hx with h1 | h2 | h3
    · exact ihl ht.1.2 h1
    · rw [h2]; exact ht.1.1
    · exact ihr ht.2 h3

theorem range_remove_leftmost_ne_none (a : RangeTree) :
    ∀ x b, range_remove_leftmost (.node a x b) ≠ none := by
  induction a with
  | leaf => intro x b; simp [range_remove_leftmost]
  | node aa ax ab iha =>
    intro x b
    simp only [range_remove_leftmost]
    cases h : range_remove_leftmost (.node aa ax ab) with
    | none => exact absurd h (iha ax ab)
    | some p => simp

theorem rangeAllB_node {p : CachedRange → Bool} {l : RangeTree}
    {rng : CachedRange} {r : RangeTree} :
    rangeAllB p (.node l rng r) = true ↔
      p rng = true ∧ rangeAllB p l = true ∧ rangeAllB p r = true := by
  simp only [rangeAllB, Bool.and_eq_true]
  exact ⟨fun h => ⟨h.1.1, h.1.2, h.2⟩, fun h => ⟨⟨h.1, h.2.1⟩, h.2.2⟩⟩

theorem rwf_node {l : RangeTree} {rng : CachedRange} {r : RangeTree} :
    rwf (.node l rng r) = true ↔
      keyCompare rng.start rng.stop ≠ Ordering.gt ∧
      rangeAllB (fun x => rangeLtB x rng) l = true ∧
      rangeAllB (fun x => rangeLtB rng x) r = true ∧
      rwf l = true ∧ rwf r = true := by
  simp only [rwf, Bool.and_eq_true, decide_eq_true_eq]
  exact ⟨fun h => ⟨h.1.1.1.1, h.1.1.1.2, h.1.1.2, h.1.2, h.2⟩,
    fun h => ⟨⟨⟨⟨h.1, h.2.1⟩, h.2.2.1⟩, h.2.2.2.1⟩, h.2.2.2.2⟩⟩

theorem range_remove_leftmost_spec (t : RangeTree) :
    rwf t = true → ∀ m r', range_remove_leftmost t = some (m, r') →
      rwf r' = true ∧ keyCompare m.start m.stop ≠ Ordering.gt ∧
      rangeAllB (fun y => rangeLtB m y) r' = true ∧
      (∀ p : CachedRange → Bool, rangeAllB p t = true →
        p m = true ∧ rangeAllB p r' = true) := by
  induction t with
  | leaf => intro _ m r' h; simp [range_remove_leftmost] at h
  | node l rng r ihl ihr =>
    intro hw m r' h
    obtain ⟨h1, h2, h3, h4, h5⟩ := rwf_node.mp hw
    cases l with
    | leaf =>
      simp only [range_remove_leftmost, Option.some.injEq, Prod.mk.injEq] at h
      obtain ⟨rfl, rfl⟩ := h
      refine ⟨h5, h1, h3, ?_⟩
      intro p hp
      obtain ⟨hprng, _, hpr⟩ := rangeAllB_node.mp hp
      exact ⟨hprng, hpr⟩
    | node la lx lb =>
      simp only [range_remove_leftmost] at h
      cases hrl : range_remove_leftmost (.node la lx lb) with
      | none => exact absurd hrl (range_remove_leftmost_ne_none la lx lb)
      | some p0 =>
        obtain ⟨m0, l'⟩ := p0
        rw [hrl] at h
        simp only [Option.some.injEq, Prod.mk.injEq] at h
        obtain ⟨rfl, rfl⟩ := h
        obtain ⟨ihw, ihne, ihlt, ihp⟩ := ihl h4 m0 l' hrl
        have hmr : rangeLtB m0 rng = true :=
          (ihp (fun x => rangeLtB x rng) h2).1
        refine ⟨?_, ihne, ?_, ?_⟩
        · exact rwf_node.mpr
            ⟨h1, (ihp (fun x => rangeLtB x rng) h2).2, h3, ihw, h5⟩
        · refine rangeAllB_node.mpr ⟨hmr, ihlt, ?_⟩
          exact rangeAllB_imp
            (fun y hy => rangeLtB_trans h1 hmr hy) r h3
        · intro p hp
          obtain ⟨hprng, hpl, hpr2⟩ := rangeAllB_node.mp hp
          obtain ⟨hpm, hpl'⟩ := ihp p hpl
          exact ⟨hpm, rangeAllB_node.mpr ⟨hprng, hpl', hpr2⟩⟩

theorem range_join_spec (l r : RangeTree) (hl : rwf l = true)
    (hr : rwf r = true) (rng : CachedRange)
    (hne : keyCompare rng.start rng.stop ≠ Ordering.gt)
    (hbl : rangeAllB (fun x => rangeLtB x rng) l = true)
    (hbr : rangeAllB (fun x => rangeLtB rng x) r = true) :
    rwf (range_join l r) = true ∧
    ∀ p : CachedRange → Bool, rangeAllB p l = true →
      rangeAllB p r = true → rangeAllB p (range_join l r) = true := by
  cases l with
  | leaf => exact ⟨by simpa [range_join] using hr, fun p _ h2 => by
      simpa [range_join] using h2⟩
  | node la lx lb =>
    cases r with
    | leaf => exact ⟨by simpa [range_join] using hl, fun p h1 _ => by
        simpa [range_join] using h1⟩
    | node ra rx rb =>
      cases hrl : range_remove_leftmost (.node ra rx rb) with
      | none => exact absurd hrl (range_remove_leftmost_ne_none ra rx rb)
      | some p0 =>
        obtain ⟨m, r'⟩ := p0
        have hj : range_join (.node la lx lb) (.node ra rx rb) =
            .node (.node la lx lb) m r' := by
          simp [range_join, hrl]
        obtain ⟨hwr', hnem, hltr', hpr⟩ :=
          range_remove_leftmost_spec (.node ra rx rb) hr m r' hrl
        have hrm : rangeLtB rng m = true :=
          (hpr (fun x => rangeLtB rng x) hbr).1
        rw [hj]
        constructor
        · refine rwf_node.mpr ⟨hnem, ?_, hltr', hl, hwr'⟩
          exact rangeAllB_imp
            (fun x hx => rangeLtB_trans hne hx hrm) _ hbl
        · intro p h1 h2
          obtain ⟨hpm, hpr'⟩ := hpr p h2
          exact rangeAllB_node.mpr ⟨hpm, h1, hpr'⟩

theorem range_ins_descend_spec (ins : CachedRange) (t : RangeTree) :
    rwf t = true → keyCompare ins.start ins.stop ≠ Ordering.gt →
    (∀ t', range_ins_descend ins t = .placed t' →
      rwf t' = true ∧
      ∀ p : CachedRange → Bool, p ins = true → rangeAllB p t = true →
        rangeAllB p t' = true) ∧
    (∀ i t', range_ins_descend ins t = .overlap i t' →
      rwf t' = true ∧ keyCompare i.start i.stop ≠ Ordering.gt ∧
      ∀ p : CachedRange → Bool,
        (∀ a b, p a = true → p b = true →
          p { start := a.start, stop := b.stop } = true) →
        p ins = true → rangeAllB p t = true →
        p i = true ∧ rangeAllB p t' = true) := by
  induction t with
  | leaf =>
    intro _ hne
    constructor
    · intro t' h
      simp only [range_ins_descend, RangeIns.placed.injEq] at h
      subst h
      constructor
      · exact rwf_node.mpr ⟨hne, rfl, rfl, rfl, rfl⟩
      · intro p hp _
        exact rangeAllB_node.mpr ⟨hp, rfl, rfl⟩
    · intro i t' h
      simp [range_ins_descend] at h
  | node l rng r ihl ihr =>
    intro hw hne
    obtain ⟨h1, h2, h3, h4, h5⟩ := rwf_node.mp hw
    cases hc : scoutfs_key_compare_ranges ins.start ins.stop rng.start
        rng.stop with
    | lt =>
      have hinsrng : rangeLtB ins rng = true := by
        simp [rangeLtB, hc]
      constructor
      · intro t' h
        simp only [range_ins_descend, hc] at h
        cases hdl : range_ins_descend ins l with
        | placed l' =>
          rw [hdl] at h
          simp only [RangeIns.placed.injEq] at h
          subst h
          obtain ⟨hwl', hpl'⟩ := ((ihl h4 hne).1) l' hdl
          constructor
          · exact rwf_node.mpr
              ⟨h1, hpl' (fun x => rangeLtB x rng) hinsrng h2, h3, hwl', h5⟩
          · intro p hp hall
            obtain ⟨ha, hb, hcc⟩ := rangeAllB_node.mp hall
            exact rangeAllB_node.mpr ⟨ha, hpl' p hp hb, hcc⟩
        | dropped => rw [hdl] at h; simp at h
        | overlap i0 t0 => rw [hdl] at h; simp at h
      · intro i t' h
        simp only [range_ins_descend, hc] at h
        cases hdl : range_ins_descend ins l with
        | placed l' => rw [hdl] at h; simp at h
        | dropped => rw [hdl] at h; simp at h
        | overlap i0 t0 =>
          rw [hdl] at h
          simp only [RangeIns.overlap.injEq] at h
          obtain ⟨rfl, rfl⟩ := h
          obtain ⟨hwt0, hnei, hpt0⟩ := ((ihl h4 hne).2) i0 t0 hdl
          have hclo : ∀ a b, rangeLtB a rng = true → rangeLtB b rng = true →
              rangeLtB { start := a.start, stop := b.stop } rng = true := by
            intro a b _ hb2
            rw [rangeLtB_iff] at hb2 ⊢
            exact hb2
          obtain ⟨hpi, hpall⟩ :=
            hpt0 (fun x => rangeLtB x rng) hclo hinsrng h2
          refine ⟨?_, hnei, ?_⟩
          · exact rwf_node.mpr ⟨h1, hpall, h3, hwt0, h5⟩
          · intro p hcp hp hall
            obtain ⟨ha, hb, hcc⟩ := rangeAllB_node.mp hall
            obtain ⟨hpi2, hpt2⟩ := hpt0 p hcp hp hb
            exact ⟨hpi2, rangeAllB_node.mpr ⟨ha, hpt2, hcc⟩⟩
    | gt =>
      have hrngins : rangeLtB rng ins = true := by
        rw [rangeLtB_iff]
        exact (keyCompare_gt_iff_lt _ _).mp (compare_ranges_gt_start hc)
      constructor
      · intro t' h
        simp only [range_ins_descend, hc] at h
        cases hdr : range_ins_descend ins r with
        | placed r' =>
          rw [hdr] at h
          simp only [RangeIns.placed.injEq] at h
          subst h
          obtain ⟨hwr', hpr'⟩ := ((ihr h5 hne).1) r' hdr
          constructor
          · exact rwf_node.mpr
              ⟨h1, h2, hpr' (fun x => rangeLtB rng x) hrngins h3, h4, hwr'⟩
          · intro p hp hall
            obtain ⟨ha, hb, hcc⟩ := rangeAllB_node.mp hall
            exact rangeAllB_node.mpr ⟨ha, hb, hpr' p hp hcc⟩
        | dropped => rw [hdr] at h; simp at h
        | overlap i0 t0 => rw [hdr] at h; simp at h
      · intro i t' h
        simp only [range_ins_descend, hc] at h
        cases hdr : range_ins_descend ins r with
        | placed r' => rw [hdr] at h; simp at h
        | dropped => rw [hdr] at h; simp at h
        | overlap i0 t0 =>
          rw [hdr] at h
          simp only [RangeIns.overlap.injEq] at h
          obtain ⟨rfl, rfl⟩ := h
          obtain ⟨hwt0, hnei, hpt0⟩ := ((ihr h5 hne).2) i0 t0 hdr
          have hclo : ∀ a b, rangeLtB rng a = true → rangeLtB rng b = true →
              rangeLtB rng { start := a.start, stop := b.stop } = true := by
            intro a b ha2 _
            rw [rangeLtB_iff] at ha2 ⊢
            exact ha2
          obtain ⟨hpi, hpall⟩ :=
            hpt0 (fun x => rangeLtB rng x) hclo hrngins h3
          refine ⟨?_, hnei, ?_⟩
          · exact rwf_node.mpr ⟨h1, h2, hpall, h4, hwt0⟩
          · intro p hcp hp hall
            obtain ⟨ha, hb, hcc⟩ := rangeAllB_node.mp hall
            obtain ⟨hpi2, hpt2⟩ := hpt0 p hcp hp hcc
            exact ⟨hpi2, rangeAllB_node.mpr ⟨ha, hb, hpt2⟩⟩
    | eq =>
      obtain ⟨hf1, hf2⟩ := compare_ranges_eq_facts hc
      constructor
      · intro t' h
        simp only [range_ins_descend, hc] at h
        split at h <;> simp at h
      · intro i t' h
        simp only [range_ins_descend, hc] at h
        by_cases hcond : keyCompare ins.start rng.start ≠ Ordering.lt ∧
            keyCompare ins.stop rng.stop ≠ Ordering.gt
        · rw [if_pos hcond] at h
          simp at h
        · rw [if_neg hcond] at h
          simp only [RangeIns.overlap.injEq] at h
          obtain ⟨rfl, rfl⟩ := h
          obtain ⟨hwj, hpj⟩ := range_join_spec l r h4 h5 rng h1 h2 h3
          refine ⟨hwj, ?_, ?_⟩
          · by_cases hll : keyCompare ins.start rng.start = Ordering.lt ∧
                keyCompare ins.stop rng.stop = Ordering.lt
            · rw [if_pos hll]
              exact hf2
            · rw [if_neg hll]
              by_cases hgg : keyCompare ins.start rng.start = Ordering.gt ∧
                  keyCompare ins.stop rng.stop = Ordering.gt
              · rw [if_pos hgg]
                intro hgt
                exact absurd ((keyCompare_gt_iff_lt _ _).mp hgt) hf1
              · rw [if_neg hgg]
                exact hne
          · intro p hcp hp hall
            obtain ⟨ha, hb, hcc⟩ := rangeAllB_node.mp hall
            refine ⟨?_, hpj p hb hcc⟩
            by_cases hll : keyCompare ins.start rng.start = Ordering.lt ∧
                keyCompare ins.stop rng.stop = Ordering.lt
            · rw [if_pos hll]
              exact hcp ins rng hp ha
            · rw [if_neg hll]
              by_cases hgg : keyCompare ins.start rng.start = Ordering.gt ∧
                  keyCompare ins.stop rng.stop = Ordering.gt
              · rw [if_pos hgg]
                exact hcp rng ins ha hp
              · rw [if_neg hgg]
                exact hp

theorem insert_range_go_rwf (fuel : Nat) :
    ∀ (t : RangeTree) (ins : CachedRange), rwf t = true →
      keyCompare ins.start ins.stop ≠ Ordering.gt →
      rwf (insert_range_go fuel t ins) = true := by
  induction fuel with
  | zero => intro t ins hw _; simpa [insert_range_go] using hw
  | succ n ih =>
    intro t ins hw hne
    simp only [insert_range_go]
    cases hd : range_ins_descend ins t with
    | placed t' => exact ((range_ins_descend_spec ins t hw hne).1 t' hd).1
    | dropped => exact hw
    | overlap i t' =>
      obtain ⟨hwt', hnei, _⟩ :=
        (range_ins_descend_spec ins t hw hne).2 i t' hd
      exact ih t' i hwt' hnei

theorem insert_range_rwf (t : RangeTree) (ins : CachedRange)
    (hw : rwf t = true) (hne : keyCompare ins.start ins.stop ≠ Ordering.gt) :
    rwf (insert_range t ins) = true :=
  insert_range_go_rwf _ t ins hw hne

theorem rwf_pairwise (t : RangeTree) (hw : rwf t = true) :
    (inorderRanges t).Pairwise (fun a b => rangeLtB a b = true) := by
  induction t with
  | leaf => simp [inorderRanges]
  | node l rng r ihl ihr =>
    obtain ⟨h1, h2, h3, h4, h5⟩ := rwf_node.mp hw
    simp only [inorderRanges]
    rw [List.pairwise_append]
    refine ⟨ihl h4, ?_, ?_⟩
    · rw [List.pairwise_cons]
      exact ⟨fun y hy => rangeAllB_mem _ _ h3 y hy, ihr h5⟩
    · intro x hx y hy
      have hxr : rangeLtB x rng = true := rangeAllB_mem _ _ h2 x hx
      rcases List.mem_cons.mp hy with rfl | hy'
      · exact hxr
      · exact rangeLtB_trans h1 hxr (rangeAllB_mem _ _ h3 y hy')

theorem insert_range_fold_rwf (l : List CachedRange) :
    ∀ t, rwf t = true →
      (∀ rng ∈ l, keyCompare rng.start rng.stop ≠ Ordering.gt) →
      rwf (l.foldl insert_range t) = true := by
  induction l with
  | nil => intro t hw _; simpa using hw
  | cons a as ih =>
    intro t hw hall
    simp only [List.foldl_cons]
    exact ih _ (insert_range_rwf t a hw (hall a (List.mem_cons_self a as)))
      (fun rng hr => hall rng (List.mem_cons_of_mem a hr))

/-- C4: after any sequence of range insertions, each inserted interval
having start ≤ stop, the range tree is well formed and its in-order
ranges are pairwise strictly ordered by the range comparison (each
range's stop strictly below the next range's start): no two cached
ranges overlap or touch, because insertion greedily merges with every
overlapping neighbour, dropping a contained insertion and absorbing the
neighbours' far endpoints before linking a single merged range. -/
theorem claim_C4 (l : List CachedRange)
    (h : ∀ rng ∈ l, keyCompare rng.start rng.stop ≠ Ordering.gt) :
    rwf (l.foldl insert_range RangeTree.leaf) = true ∧
    (inorderRanges (l.foldl insert_range RangeTree.leaf)).Pairwise
      (fun a b => rangeLtB a b = true) := by
  have hw := insert_range_fold_rwf l RangeTree.leaf rfl h
  exact ⟨hw, rwf_pairwise _ hw⟩

/-- Witness for C4: three insertions where the third overlaps both
earlier ranges and is absorbed into a single merged range. -/
theorem claim_C4_witness :
    rwf ([⟨[1], [3]⟩, ⟨[5], [6]⟩, ⟨[2], [5]⟩].foldl insert_range
      RangeTree.leaf) = true ∧
    (inorderRanges ([⟨[1], [3]⟩, ⟨[5], [6]⟩, ⟨[2], [5]⟩].foldl insert_range
      RangeTree.leaf)).Pairwise (fun a b => rangeLtB a b = true) :=
  claim_C4 [⟨[1], [3]⟩, ⟨[5], [6]⟩, ⟨[2], [5]⟩] (by decide)

theorem map_id_on {α : Type} (f : α → α) (l : List α)
    (h : ∀ a ∈ l, f a = a) : l.map f = l := by
  induction l with
  | nil => rfl
  | cons a t ih =>
    simp only [List.map_cons, h a (List.mem_cons_self a t)]
    rw [ih (fun x hx => h x (List.mem_cons_of_mem a hx))]

theorem filter_id_on {α : Type} (f : α → Bool) (l : List α)
    (h : ∀ a ∈ l, f a = true) : l.filter f = l := by
  induction l with
  | nil => rfl
  | cons a t ih =>
    rw [List.filter_cons, if_pos (h a (List.mem_cons_self a t))]
    rw [ih (fun x hx => h x (List.mem_cons_of_mem a hx))]

theorem sview_node (l : ItemTree) (item : CachedItem) (r : ItemTree) :
    sview (.node l item r) =
      sview l ++ (itemData item, item.dirty.self) :: sview r := rfl

theorem sview_all (p : Key → Bool) (t : ItemTree)
    (h : treeAllItems (fun x => p x.key) t = true) :
    ∀ e ∈ sview t, p e.1.key = true := by
  induction t with
  | leaf => intro e he; simp [sview] at he
  | node l item r ihl ihr =>
    obtain ⟨h1, h2, h3⟩ := treeAll_node.mp h
    intro e he
    rw [sview_node] at he
    rcases List.mem_append.mp he with hl | hm
    · exact ihl h2 e hl
    · rcases List.mem_cons.mp hm with rfl | hr
      · exact h1
      · exact ihr h3 e hr

theorem sview_sorted (t : ItemTree) (h : bst t = true) :
    (sview t).Pairwise
      (fun a b => keyCompare a.1.key b.1.key = Ordering.lt) := by
  induction t with
  | leaf => simp [sview]
  | node l item r ihl ihr =>
    obtain ⟨hbl, hbr, hl, hr⟩ := bst_node.mp h
    rw [sview_node, List.pairwise_append]
    refine ⟨ihl hl, ?_, ?_⟩
    · rw [List.pairwise_cons]
      refine ⟨fun e he => ?_, ihr hr⟩
      have := sview_all (fun k => decide (keyCompare item.key k = Ordering.lt))
        r hbr e he
      simpa using this
    · intro a ha b hb
      have hal : keyCompare a.1.key item.key = Ordering.lt := by
        have := sview_all (fun k => decide (keyCompare k item.key = Ordering.lt))
          l hbl a ha
        simpa using this
      rcases List.mem_cons.mp hb with rfl | hb'
      · exact hal
      · have hbr2 : keyCompare item.key b.1.key = Ordering.lt := by
          have := sview_all
            (fun k => decide (keyCompare item.key k = Ordering.lt)) r hbr b hb'
          simpa using this
        exact keyCompare_lt_trans hal hbr2

theorem pairwise_key_unique (s : List (ItemData × Bool))
    (hs : s.Pairwise (fun a b => keyCompare a.1.key b.1.key = Ordering.lt)) :
    ∀ a ∈ s, ∀ b ∈ s, a.1.key = b.1.key → a = b := by
  induction s with
  | nil => intro a ha; simp at ha
  | cons x t ih =>
    obtain ⟨hx, ht⟩ := List.pairwise_cons.mp hs
    intro a ha b hb hk
    rcases List.mem_cons.mp ha with rfl | ha' <;>
      rcases List.mem_cons.mp hb with rfl | hb'
    · rfl
    · exact absurd hk (keyCompare_lt_ne (hx b hb'))
    · exact absurd hk.symm (keyCompare_lt_ne (hx a ha'))
    · exact ih ht a ha' b hb' hk

theorem dirtyData_node (l : ItemTree) (item : CachedItem) (r : ItemTree) :
    dirtyData (.node l item r) =
      dirtyData l ++ (if item.dirty.self then [itemData item] else []) ++
        dirtyData r := by
  simp only [dirtyData, sview_node, List.filter_append, List.map_append,
    List.filter_cons]
  cases item.dirty.self <;> simp

theorem dirtyData_mem_sview (t : ItemTree) (e : ItemData)
    (h : e ∈ dirtyData t) : (e, true) ∈ sview t := by
  simp only [dirtyData, List.mem_map, List.mem_filter] at h
  obtain ⟨p, ⟨hp, hp2⟩, hp1⟩ := h
  cases p with
  | mk p1 p2 =>
    simp at hp2 hp1
    rw [← hp1, ← hp2]
    exact hp

theorem dirtyData_sorted (t : ItemTree) (h : bst t = true) :
    dataSorted (dirtyData t) := by
  have hs := sview_sorted t h
  have hf : ((sview t).filter fun e => e.2).Pairwise
      (fun a b => keyCompare a.1.key b.1.key = Ordering.lt) :=
    List.Pairwise.sublist (List.filter_sublist (sview t)) hs
  unfold dataSorted dirtyData
  exact List.Pairwise.map _ (fun a b hab => hab) hf

theorem dirtyData_nil_iff (t : ItemTree) :
    dirtyData t = [] ↔ selfAny t = false := by
  induction t with
  | leaf => simp [dirtyData, sview, selfAny]
  | node l item r ihl ihr =>
    rw [dirtyData_node, selfAny]
    cases hs : item.dirty.self
    · simp [ihl, ihr]
    · simp

theorem sview_clear (t : ItemTree) (k : Key) (h : bst t = true) :
    sview (clear_dirty_at t k).1 = (sview t).map (flipAt k) := by
  induction t with
  | leaf => rfl
  | node l item r ihl ihr =>
    obtain ⟨hbl, hbr, hl, hr⟩ := bst_node.mp h
    cases hc : keyCompare k item.key with
    | lt =>
      have he : (clear_dirty_at (ItemTree.node l item r) k).1 =
          ItemTree.node (clear_dirty_at l k).1
            (propagate_step (clear_dirty_at l k).1 item r
              (clear_dirty_at l k).2.1).1 r := by
        simp [clear_dirty_at, hc]
      rw [he, sview_node, sview_node, List.map_append, List.map_cons,
        ihl hl, propagate_step_data, propagate_step_self]
      have hne : ¬ (itemData item, item.dirty.self).1.key = k :=
        fun hk => keyCompare_lt_ne hc hk.symm
      rw [show flipAt k (itemData item, item.dirty.self) =
          (itemData item, item.dirty.self) from if_neg hne]
      rw [map_id_on (flipAt k) (sview r) ?hid]
      case hid =>
        intro e he2
        have hgt : decide (keyCompare item.key e.1.key = Ordering.lt) = true :=
          sview_all (fun kk => decide (keyCompare item.key kk = Ordering.lt))
            r hbr e he2
        simp only [decide_eq_true_eq] at hgt
        have hke : keyCompare k e.1.key = Ordering.lt :=
          keyCompare_lt_trans hc hgt
        exact if_neg (fun hk => keyCompare_lt_ne hke hk.symm)
    | gt =>
      have he : (clear_dirty_at (ItemTree.node l item r) k).1 =
          ItemTree.node l
            (propagate_step l item (clear_dirty_at r k).1
              (clear_dirty_at r k).2.1).1 (clear_dirty_at r k).1 := by
        simp [clear_dirty_at, hc]
      have hik : keyCompare item.key k = Ordering.lt :=
        (keyCompare_gt_iff_lt _ _).mp hc
      rw [he, sview_node, sview_node, List.map_append, List.map_cons,
        ihr hr, propagate_step_data, propagate_step_self]
      have hne : ¬ (itemData item, item.dirty.self).1.key = k :=
        fun hk => keyCompare_lt_ne hik hk
      rw [show flipAt k (itemData item, item.dirty.self) =
          (itemData item, item.dirty.self) from if_neg hne]
      rw [map_id_on (flipAt k) (sview l) ?hid2]
      case hid2 =>
        intro e he2
        have hlt : decide (keyCompare e.1.key item.key = Ordering.lt) = true :=
          sview_all (fun kk => decide (keyCompare kk item.key = Ordering.lt))
            l hbl e he2
        simp only [decide_eq_true_eq] at hlt
        have hek : keyCompare e.1.key k = Ordering.lt :=
          keyCompare_lt_trans hlt hik
        exact if_neg (fun hk => keyCompare_lt_ne hek hk)
    | eq =>
      have hk := (keyCompare_eq_iff k item.key).mp hc
      have hmapl : (sview l).map (flipAt k) = sview l := by
        apply map_id_on
        intro e he2
        have hlt : decide (keyCompare e.1.key item.key = Ordering.lt) = true :=
          sview_all (fun kk => decide (keyCompare kk item.key = Ordering.lt))
            l hbl e he2
        simp only [decide_eq_true_eq] at hlt
        exact if_neg (fun hk2 => keyCompare_lt_ne hlt (hk ▸ hk2))
      have hmapr : (sview r).map (flipAt k) = sview r := by
        apply map_id_on
        intro e he2
        have hgt : decide (keyCompare item.key e.1.key = Ordering.lt) = true :=
          sview_all (fun kk => decide (keyCompare item.key kk = Ordering.lt))
            r hbr e he2
        simp only [decide_eq_true_eq] at hgt
        exact if_neg (fun hk2 => keyCompare_lt_ne hgt (hk ▸ hk2).symm)
      cases hs : item.dirty.self with
      | true =>
        have he : (clear_dirty_at (ItemTree.node l item r) k).1 =
            ItemTree.node l
              { item with dirty := { item.dirty with self := false } } r := by
          simp [clear_dirty_at, hc, hs]
        rw [he, sview_node, sview_node, List.map_append, List.map_cons,
          hmapl, hmapr]
        rw [show flipAt k (itemData item, item.dirty.self) =
          (itemData item, false) from if_pos hk.symm]
        rfl
      | false =>
        have he : (clear_dirty_at (ItemTree.node l item r) k).1 =
            ItemTree.node l item r := by
          simp [clear_dirty_at, hc, hs]
        rw [he, sview_node, List.map_append, List.map_cons,
          hmapl, hmapr, hs]
        rw [show flipAt k (itemData item, false) =
          (itemData item, false) from if_pos hk.symm]

theorem remove_leftmost_sview (t : ItemTree) :
    ∀ m t' s, remove_leftmost t = some (m, t', s) →
      sview t = (itemData m, m.dirty.self) :: sview t' := by
  induction t with
  | leaf => intro m t' s h; simp [remove_leftmost] at h
  | node l item r ihl ihr =>
    intro m t' s h
    cases l with
    | leaf =>
      simp only [remove_leftmost, Option.some.injEq, Prod.mk.injEq] at h
      obtain ⟨rfl, rfl, _⟩ := h
      rfl
    | node la lx lb =>
      simp only [remove_leftmost] at h
      cases hrl : remove_leftmost (.node la lx lb) with
      | none =>
        rw [hrl] at h
        simp at h
      | some p0 =>
        obtain ⟨m0, l', st⟩ := p0
        rw [hrl] at h
        simp only [Option.some.injEq, Prod.mk.injEq] at h
        obtain ⟨rfl, rfl, _⟩ := h
        rw [sview_node, ihl m0 l' st hrl, sview_node,
          propagate_step_data, propagate_step_self]
        rfl

theorem sview_erase (t : ItemTree) (k : Key) (h : bst t = true) :
    sview (erase_at t k).1 =
      (sview t).filter (fun p => decide (¬ p.1.key = k)) := by
  induction t with
  | leaf => rfl
  | node l item r ihl ihr =>
    obtain ⟨hbl, hbr, hl, hr⟩ := bst_node.mp h
    have hfl : ∀ e ∈ sview l,
        keyCompare e.1.key item.key = Ordering.lt := by
      intro e he2
      have := sview_all (fun kk => decide (keyCompare kk item.key =
        Ordering.lt)) l hbl e he2
      simpa using this
    have hfr : ∀ e ∈ sview r,
        keyCompare item.key e.1.key = Ordering.lt := by
      intro e he2
      have := sview_all (fun kk => decide (keyCompare item.key kk =
        Ordering.lt)) r hbr e he2
      simpa using this
    cases hc : keyCompare k item.key with
    | lt =>
      have he : (erase_at (ItemTree.node l item r) k).1 =
          ItemTree.node (erase_at l k).1
            (propagate_step (erase_at l k).1 item r
              (erase_at l k).2.1).1 r := by
        simp [erase_at, hc]
      have hkeep : (decide (¬ (itemData item, item.dirty.self).1.key = k))
          = true :=
        decide_eq_true (fun hk2 => keyCompare_lt_ne hc hk2.symm)
      rw [he, sview_node, sview_node, List.filter_append, List.filter_cons,
        ihl hl, propagate_step_data, propagate_step_self]
      rw [if_pos hkeep]
      rw [filter_id_on (fun p => decide (¬ p.1.key = k)) (sview r)
        (fun e he2 => decide_eq_true
        (fun hk => keyCompare_lt_ne
          (keyCompare_lt_trans hc (hfr e he2)) (hk : e.1.key = k).symm))]
    | gt =>
      have hik : keyCompare item.key k = Ordering.lt :=
        (keyCompare_gt_iff_lt _ _).mp hc
      have he : (erase_at (ItemTree.node l item r) k).1 =
          ItemTree.node l
            (propagate_step l item (erase_at r k).1
              (erase_at r k).2.1).1 (erase_at r k).1 := by
        simp [erase_at, hc]
      have hkeep : (decide (¬ (itemData item, item.dirty.self).1.key = k))
          = true :=
        decide_eq_true (fun hk2 => keyCompare_lt_ne hik hk2)
      rw [he, sview_node, sview_node, List.filter_append, List.filter_cons,
        ihr hr, propagate_step_data, propagate_step_self]
      rw [if_pos hkeep]
      rw [filter_id_on (fun p => decide (¬ p.1.key = k)) (sview l)
        (fun e he2 => decide_eq_true
        (fun hk => keyCompare_lt_ne
          (keyCompare_lt_trans (hfl e he2) hik) (hk : e.1.key = k)))]
    | eq =>
      have hk := (keyCompare_eq_iff k item.key).mp hc
      have hfiltl : (sview l).filter (fun p => decide (¬ p.1.key = k)) =
          sview l :=
        filter_id_on (fun p => decide (¬ p.1.key = k)) (sview l)
          (fun e he2 => decide_eq_true
          (fun hk2 => keyCompare_lt_ne (hfl e he2) (hk ▸ hk2)))
      have hfiltr : (sview r).filter (fun p => decide (¬ p.1.key = k)) =
          sview r :=
        filter_id_on (fun p => decide (¬ p.1.key = k)) (sview r)
          (fun e he2 => decide_eq_true
          (fun hk2 => keyCompare_lt_ne (hfr e he2) (hk ▸ hk2).symm))
      have hdrop : (decide (¬ (itemData item, item.dirty.self).1.key = k))
          = false := by
        simp [itemData, hk]
      cases l with
      | leaf =>
        have he : (erase_at (ItemTree.node .leaf item r) k).1 = r := by
          simp [erase_at, hc]
        rw [he, sview_node, List.filter_append, List.filter_cons, hdrop,
          hfiltr]
        rfl
      | node la lx lb =>
        cases r with
        | leaf =>
          have he : (erase_at (ItemTree.node (.node la lx lb) item .leaf)
              k).1 = ItemTree.node la lx lb := by
            simp [erase_at, hc]
          rw [he, sview_node (ItemTree.node la lx lb) item ItemTree.leaf,
            List.filter_append, List.filter_cons, hdrop, hfiltl]
          simp [sview]
        | node ra rx rb =>
          cases hrl : remove_leftmost (.node ra rx rb) with
          | none =>
            have := remove_leftmost_isSome ra rx rb
            rw [hrl] at this
            simp at this
          | some p0 =>
            obtain ⟨succ, r', st⟩ := p0
            have he : (erase_at (ItemTree.node (.node la lx lb) item
                (.node ra rx rb)) k).1 =
                ItemTree.node (.node la lx lb)
                  { succ with dirty :=
                      compute_item_dirty succ (.node la lx lb) r' } r' := by
              simp [erase_at, hc, hrl]
            rw [he,
              sview_node (ItemTree.node la lx lb)
                { succ with dirty :=
                    compute_item_dirty succ (.node la lx lb) r' } r',
              sview_node (ItemTree.node la lx lb) item (.node ra rx rb),
              List.filter_append, List.filter_cons, hdrop, hfiltl, hfiltr,
              remove_leftmost_sview (.node ra rx rb) succ r' st hrl]
            rfl

theorem filter_false_on {α : Type} (f : α → Bool) (l : List α)
    (h : ∀ a ∈ l, f a = false) : l.filter f = [] := by
  induction l with
  | nil => rfl
  | cons a t ih =>
    rw [List.filter_cons, if_neg (by simp [h a (List.mem_cons_self a t)])]
    exact ih (fun x hx => h x (List.mem_cons_of_mem a hx))

theorem dirty_of_flip (s : List (ItemData × Bool)) (k : Key) :
    ((s.map (flipAt k)).filter (fun e => e.2)).map (fun e => e.1) =
      ((s.filter (fun e => e.2)).map (fun e => e.1)).filter
        (fun e => decide (¬ e.key = k)) := by
  induction s with
  | nil => rfl
  | cons p rest ih =>
    by_cases hp : p.1.key = k
    · have hflip : flipAt k p = (p.1, false) := if_pos hp
      rw [List.map_cons, hflip]
      cases hd : p.2
      · simp [hd, ih]
      · simp [hd, hp, ih]
    · have hflip : flipAt k p = p := if_neg hp
      rw [List.map_cons, hflip]
      cases hd : p.2
      · simp [hd, ih]
      · simp [hd, hp, ih]

theorem dirty_of_filter (s : List (ItemData × Bool)) (k : Key) :
    (((s.filter (fun p => decide (¬ p.1.key = k))).filter
        (fun e => e.2)).map (fun e => e.1)) =
      ((s.filter (fun e => e.2)).map (fun e => e.1)).filter
        (fun e => decide (¬ e.key = k)) := by
  induction s with
  | nil => rfl
  | cons p rest ih =>
    by_cases hp : p.1.key = k
    · cases hd : p.2
      · simp [hd, hp]
        simpa using ih
      · simp [hd, hp]
        simpa using ih
    · cases hd : p.2
      · simp [hd, hp]
        simpa using ih
      · simp [hd, hp]
        simpa using ih

theorem dirtyData_clear (t : ItemTree) (k : Key) (h : bst t = true) :
    dirtyData (clear_dirty_at t k).1 =
      (dirtyData t).filter (fun e => decide (¬ e.key = k)) := by
  unfold dirtyData
  rw [sview_clear t k h]
  exact dirty_of_flip (sview t) k

theorem dirtyData_erase (t : ItemTree) (k : Key) (h : bst t = true) :
    dirtyData (erase_at t k).1 =
      (dirtyData t).filter (fun e => decide (¬ e.key = k)) := by
  unfold dirtyData
  rw [sview_erase t k h]
  exact dirty_of_filter (sview t) k

theorem filter_ne_head (e : ItemData) (rest : List ItemData)
    (h : ∀ x ∈ rest, keyCompare e.key x.key = Ordering.lt) :
    (e :: rest).filter (fun x => decide (¬ x.key = e.key)) = rest := by
  rw [List.filter_cons, if_neg (by simp)]
  exact filter_id_on _ rest (fun x hx => decide_eq_true
    (fun hk => keyCompare_lt_ne (h x hx) hk.symm))

theorem dirtyData_all_lt (l : ItemTree) (kk : Key)
    (h : treeAllItems (fun x => decide (keyCompare x.key kk = Ordering.lt)) l
      = true) : ∀ e ∈ dirtyData l, keyCompare e.key kk = Ordering.lt := by
  intro e he
  have := sview_all (fun k2 => decide (keyCompare k2 kk = Ordering.lt)) l h
    (e, true) (dirtyData_mem_sview l e he)
  simpa using this

theorem dirtyData_all_gt (r : ItemTree) (kk : Key)
    (h : treeAllItems (fun x => decide (keyCompare kk x.key = Ordering.lt)) r
      = true) : ∀ e ∈ dirtyData r, keyCompare kk e.key = Ordering.lt := by
  intro e he
  have := sview_all (fun k2 => decide (keyCompare kk k2 = Ordering.lt)) r h
    (e, true) (dirtyData_mem_sview r e he)
  simpa using this

theorem first_dirty_spec (t : ItemTree) (hok : dirty_ok t = true) :
    Option.map itemData (first_dirty t) = (dirtyData t).head? ∧
    ∀ it, first_dirty t = some it → it.dirty.self = true := by
  induction t with
  | leaf => exact ⟨rfl, by intro it h; simp [first_dirty] at h⟩
  | node l item r ihl ihr =>
    obtain ⟨hL, hR, hokl, hokr⟩ := dirty_ok_node.mp hok
    obtain ⟨ihl1, ihl2⟩ := ihl hokl
    obtain ⟨ihr1, ihr2⟩ := ihr hokr
    cases hlb : item.dirty.left with
    | true =>
      have hsl : selfAny l = true := by
        rw [← any_eq_selfAny hokl, ← hL, hlb]
      have hf : first_dirty (ItemTree.node l item r) = first_dirty l := by
        simp [first_dirty, hlb]
      cases hdl : dirtyData l with
      | nil => rw [(dirtyData_nil_iff l).mp hdl] at hsl; simp at hsl
      | cons x dx =>
        refine ⟨?_, fun it hit => ihl2 it (hf ▸ hit)⟩
        rw [hf, ihl1, hdl, dirtyData_node, hdl]
        simp
    | false =>
      have hsl : selfAny l = false := by
        rw [← any_eq_selfAny hokl, ← hL, hlb]
      have hdl : dirtyData l = [] := (dirtyData_nil_iff l).mpr hsl
      cases hs : item.dirty.self with
      | true =>
        have hf : first_dirty (ItemTree.node l item r) = some item := by
          simp [first_dirty, hlb, hs]
        refine ⟨?_, fun it hit => by
          rw [hf] at hit
          simp only [Option.some.injEq] at hit
          rw [← hit]
          exact hs⟩
        rw [hf, dirtyData_node, hdl, hs]
        simp
      | false =>
        cases hrb : item.dirty.right with
        | true =>
          have hf : first_dirty (ItemTree.node l item r) = first_dirty r := by
            simp [first_dirty, hlb, hs, hrb]
          refine ⟨?_, fun it hit => ihr2 it (hf ▸ hit)⟩
          rw [hf, ihr1, dirtyData_node, hdl, hs]
          simp
        | false =>
          have hsr : selfAny r = false := by
            rw [← any_eq_selfAny hokr, ← hR, hrb]
          have hdr : dirtyData r = [] := (dirtyData_nil_iff r).mpr hsr
          have hf : first_dirty (ItemTree.node l item r) = none := by
            simp [first_dirty, hlb, hs, hrb]
          refine ⟨?_, fun it hit => by rw [hf] at hit; simp at hit⟩
          rw [hf, dirtyData_node, hdl, hdr, hs]
          simp

theorem next_dirty_anc_spec (anc : List (CachedItem × ItemTree))
    (h : ∀ pr ∈ anc, dirty_ok pr.2 = true ∧
      pr.1.dirty.right = any_dirty pr.2) :
    Option.map itemData (next_dirty_anc anc) = (ancData anc).head? ∧
    ∀ it, next_dirty_anc anc = some it → it.dirty.self = true := by
  induction anc with
  | nil => exact ⟨rfl, by intro it hit; simp [next_dirty_anc] at hit⟩
  | cons pr rest ih =>
    obtain ⟨hok, hrb⟩ := h pr (List.mem_cons_self pr rest)
    obtain ⟨item, r⟩ := pr
    cases hs : item.dirty.self with
    | true =>
      have hn : next_dirty_anc ((item, r) :: rest) = some item := by
        simp [next_dirty_anc, hs]
      refine ⟨?_, fun it hit => by
        rw [hn] at hit
        simp only [Option.some.injEq] at hit
        rw [← hit]
        exact hs⟩
      rw [hn]
      simp [ancData, hs]
    | false =>
      cases hrbit : item.dirty.right with
      | true =>
        have hany : any_dirty r = true := by rw [← hrb]; exact hrbit
        have hsr : selfAny r = true := by
          rw [← any_eq_selfAny hok]; exact hany
        have hn : next_dirty_anc ((item, r) :: rest) = first_dirty r := by
          simp [next_dirty_anc, hs, hrbit]
        obtain ⟨f1, f2⟩ := first_dirty_spec r hok
        cases hdr : dirtyData r with
        | nil => rw [(dirtyData_nil_iff r).mp hdr] at hsr; simp at hsr
        | cons x dx =>
          refine ⟨?_, fun it hit => f2 it (hn ▸ hit)⟩
          rw [hn, f1, hdr]
          simp [ancData, hs, hdr]
      | false =>
        have hany : any_dirty r = false := by rw [← hrb]; exact hrbit
        have hsr : selfAny r = false := by
          rw [← any_eq_selfAny hok]; exact hany
        have hdr : dirtyData r = [] := (dirtyData_nil_iff r).mpr hsr
        have hn : next_dirty_anc ((item, r) :: rest) =
            next_dirty_anc rest := by
          simp [next_dirty_anc, hs, hrbit]
        obtain ⟨i1, i2⟩ := ih (fun p2 hp2 => h p2 (List.mem_cons_of_mem _ hp2))
        refine ⟨?_, fun it hit => i2 it (hn ▸ hit)⟩
        rw [hn, i1]
        simp [ancData, hs, hdr]

theorem next_dirty_go_spec (t : ItemTree) (k : Key) :
    ∀ anc, bst t = true → dirty_ok t = true →
    (∀ pr ∈ anc, dirty_ok pr.2 = true ∧
      pr.1.dirty.right = any_dirty pr.2) →
    Option.map itemData (next_dirty_go t k anc) =
      (dirtyAbove t k ++ ancData anc).head? ∧
    ∀ it, next_dirty_go t k anc = some it → it.dirty.self = true := by
  induction t with
  | leaf =>
    intro anc _ _ hanc
    obtain ⟨a1, a2⟩ := next_dirty_anc_spec anc hanc
    refine ⟨?_, fun it hit => a2 it hit⟩
    simpa [next_dirty_go, dirtyAbove, dirtyData, sview] using a1
  | node l item r ihl ihr =>
    intro anc hbst hok hanc
    obtain ⟨hbl, hbr, hl, hr⟩ := bst_node.mp hbst
    obtain ⟨hL, hR, hokl, hokr⟩ := dirty_ok_node.mp hok
    have hflt := dirtyData_all_lt l item.key hbl
    have hfgt := dirtyData_all_gt r item.key hbr
    cases hc : keyCompare k item.key with
    | lt =>
      have hgo : next_dirty_go (ItemTree.node l item r) k anc =
          next_dirty_go l k ((item, r) :: anc) := by
        simp [next_dirty_go, hc]
      have hanc' : ∀ pr ∈ (item, r) :: anc, dirty_ok pr.2 = true ∧
          pr.1.dirty.right = any_dirty pr.2 := by
        intro pr hpr
        rcases List.mem_cons.mp hpr with rfl | hpr'
        · exact ⟨hokr, hR⟩
        · exact hanc pr hpr'
      obtain ⟨g1, g2⟩ := ihl ((item, r) :: anc) hl hokl hanc'
      refine ⟨?_, fun it hit => g2 it (hgo ▸ hit)⟩
      rw [hgo, g1]
      have hda : dirtyAbove (ItemTree.node l item r) k =
          dirtyAbove l k ++
            ((if item.dirty.self then [itemData item] else []) ++
              dirtyData r) := by
        unfold dirtyAbove
        rw [dirtyData_node, List.filter_append, List.filter_append]
        rw [filter_id_on _ (dirtyData r) (fun e he => decide_eq_true
          (keyCompare_lt_trans hc (hfgt e he)))]
        rw [show List.filter (fun e => decide (keyCompare k e.key =
            Ordering.lt)) (if item.dirty.self then [itemData item] else [])
            = (if item.dirty.self then [itemData item] else []) by
          cases item.dirty.self <;> simp [hc, itemData]]
        rw [List.append_assoc]
      rw [hda]
      simp [ancData, List.append_assoc]
    | gt =>
      have hik : keyCompare item.key k = Ordering.lt :=
        (keyCompare_gt_iff_lt _ _).mp hc
      have hgo : next_dirty_go (ItemTree.node l item r) k anc =
          next_dirty_go r k anc := by
        simp [next_dirty_go, hc]
      obtain ⟨g1, g2⟩ := ihr anc hr hokr hanc
      refine ⟨?_, fun it hit => g2 it (hgo ▸ hit)⟩
      rw [hgo, g1]
      have hda : dirtyAbove (ItemTree.node l item r) k = dirtyAbove r k := by
        unfold dirtyAbove
        rw [dirtyData_node, List.filter_append, List.filter_append]
        rw [filter_false_on _ (dirtyData l) (fun e he => decide_eq_false
          (fun hk2 => by
            have hkk := keyCompare_lt_trans hk2 (hflt e he)
            rw [hc] at hkk
            simp at hkk))]
        rw [show List.filter (fun e => decide (keyCompare k e.key =
            Ordering.lt)) (if item.dirty.self then [itemData item] else [])
            = [] by
          cases item.dirty.self <;> simp [hc, itemData]]
        simp
      rw [hda]
    | eq =>
      have hk := (keyCompare_eq_iff k item.key).mp hc
      have hda : dirtyAbove (ItemTree.node l item r) k = dirtyData r := by
        unfold dirtyAbove
        rw [dirtyData_node, List.filter_append, List.filter_append]
        rw [filter_false_on _ (dirtyData l) (fun e he => decide_eq_false
          (fun hk2 => by
            have hkk := keyCompare_lt_trans hk2 (hflt e he)
            rw [hc] at hkk
            simp at hkk))]
        rw [filter_id_on _ (dirtyData r) (fun e he => decide_eq_true
          (by rw [hk]; exact hfgt e he))]
        rw [show List.filter (fun e => decide (keyCompare k e.key =
            Ordering.lt)) (if item.dirty.self then [itemData item] else [])
            = [] by
          cases item.dirty.self <;> simp [hc, itemData]]
        simp
      cases hrbit : item.dirty.right with
      | true =>
        have hany : any_dirty r = true := by rw [← hR]; exact hrbit
        have hsr : selfAny r = true := by
          rw [← any_eq_selfAny hokr]; exact hany
        have hn : next_dirty_go (ItemTree.node l item r) k anc =
            first_dirty r := by
          simp [next_dirty_go, hc, hrbit]
        obtain ⟨f1, f2⟩ := first_dirty_spec r hokr
        cases hdr : dirtyData r with
        | nil => rw [(dirtyData_nil_iff r).mp hdr] at hsr; simp at hsr
        | cons x dx =>
          refine ⟨?_, fun it hit => f2 it (hn ▸ hit)⟩
          rw [hn, f1, hdr, hda, hdr]
          simp
      | false =>
        have hany : any_dirty r = false := by rw [← hR]; exact hrbit
        have hsr : selfAny r = false := by
          rw [← any_eq_selfAny hokr]; exact hany
        have hdr : dirtyData r = [] := (dirtyData_nil_iff r).mpr hsr
        have hn : next_dirty_go (ItemTree.node l item r) k anc =
            next_dirty_anc anc := by
          simp [next_dirty_go, hc, hrbit]
        obtain ⟨a1, a2⟩ := next_dirty_anc_spec anc hanc
        refine ⟨?_, fun it hit => a2 it (hn ▸ hit)⟩
        rw [hn, a1, hda, hdr]
        simp

theorem next_dirty_spec (t : ItemTree) (k : Key) (hbst : bst t = true)
    (hok : dirty_ok t = true) :
    Option.map itemData (next_dirty t k) = (dirtyAbove t k).head? ∧
    ∀ it, next_dirty t k = some it → it.dirty.self = true := by
  obtain ⟨g1, g2⟩ := next_dirty_go_spec t k [] hbst hok
    (by intro pr hpr; simp at hpr)
  refine ⟨?_, fun it hit => g2 it hit⟩
  simpa [next_dirty, ancData] using g1

theorem sview_length (t : ItemTree) : (sview t).length = treeSize t := by
  induction t with
  | leaf => rfl
  | node l item r ihl ihr =>
    rw [sview_node, treeSize]
    simp [ihl, ihr]
    omega

theorem dirtyData_length_le (t : ItemTree) :
    (dirtyData t).length ≤ treeSize t := by
  rw [← sview_length t]
  unfold dirtyData
  rw [List.length_map]
  exact List.length_filter_le _ _

theorem sorted_filter_gt (pre : List ItemData) (e : ItemData)
    (rest : List ItemData)
    (hs : (pre ++ e :: rest).Pairwise
      (fun a b => keyCompare a.key b.key = Ordering.lt)) :
    (pre ++ e :: rest).filter
      (fun x => decide (keyCompare e.key x.key = Ordering.lt)) = rest := by
  induction pre with
  | nil =>
    simp only [List.nil_append] at hs ⊢
    rw [List.filter_cons, if_neg (by simp [keyCompare_self])]
    exact filter_id_on _ rest (fun x hx =>
      decide_eq_true ((List.pairwise_cons.mp hs).1 x hx))
  | cons p pre' ih =>
    simp only [List.cons_append] at hs ⊢
    obtain ⟨hp, hs'⟩ := List.pairwise_cons.mp hs
    rw [List.filter_cons, if_neg ?hnp]
    case hnp =>
      have hpe : keyCompare p.key e.key = Ordering.lt := hp e (by simp)
      simp only [decide_eq_true_eq]
      intro hk2
      have hkk := keyCompare_lt_trans hk2 hpe
      rw [keyCompare_self] at hkk
      simp at hkk
    exact ih hs'

theorem dataKeyBytes_cons (e : ItemData) (l : List ItemData) :
    dataKeyBytes (e :: l) = e.key.length + dataKeyBytes l := by
  simp [dataKeyBytes]

theorem count_go_spec (fits : FitsSingle) (t : ItemTree)
    (hbst : bst t = true) (hok : dirty_ok t = true) :
    ∀ fuel pre rest (cur : Option CachedItem) a k v bN bK,
    dirtyData t = pre ++ rest →
    rest.length < fuel →
    Option.map itemData cur = rest.head? →
    count_seg_items_go fits t fuel cur a k v bN bK =
      (if countFit fits rest a k v = 0 then (bN, bK)
       else (a + countFit fits rest a k v,
             k + dataKeyBytes (rest.take (countFit fits rest a k v)))) := by
  intro fuel
  induction fuel with
  | zero =>
    intro pre rest cur a k v bN bK hds hlen hcur
    exact absurd hlen (Nat.not_lt_zero _)
  | succ f ih =>
    intro pre rest cur a k v bN bK hds hlen hcur
    cases rest with
    | nil =>
      have hcn : cur = none := by
        cases cur with
        | none => rfl
        | some it => simp at hcur
      rw [hcn]
      simp [count_seg_items_go, countFit]
    | cons e rest' =>
      obtain ⟨it, hit, hdata⟩ : ∃ it, cur = some it ∧ itemData it = e := by
        cases cur with
        | none => simp at hcur
        | some it => exact ⟨it, rfl, by simpa using hcur⟩
      rw [hit]
      have hkey : it.key = e.key := congrArg ItemData.key hdata
      have hval : it.val = e.val := congrArg ItemData.val hdata
      by_cases hfit : fits (a + 1) (k + e.key.length)
          (v + scoutfs_kvec_length e.val) = true
      · have hstep : count_seg_items_go fits t (f + 1) (some it) a k v bN bK
            = count_seg_items_go fits t f (next_dirty t it.key) (a + 1)
              (k + e.key.length) (v + scoutfs_kvec_length e.val) (a + 1)
              (k + e.key.length) := by
          simp [count_seg_items_go, hkey, hval, hfit]
        have hnext : Option.map itemData (next_dirty t it.key) =
            rest'.head? := by
          obtain ⟨n1, _⟩ := next_dirty_spec t it.key hbst hok
          rw [n1, hkey]
          have hsorted : (pre ++ e :: rest').Pairwise
              (fun a b => keyCompare a.key b.key = Ordering.lt) :=
            hds ▸ dirtyData_sorted t hbst
          unfold dirtyAbove
          rw [hds, sorted_filter_gt pre e rest' hsorted]
        have hlen' : rest'.length < f := by
          simp only [List.length_cons] at hlen
          omega
        rw [hstep, ih (pre ++ [e]) rest' (next_dirty t it.key) (a + 1)
          (k + e.key.length) (v + scoutfs_kvec_length e.val) (a + 1)
          (k + e.key.length) (by rw [hds]; simp) hlen' hnext]
        have hcf : countFit fits (e :: rest') a k v =
            countFit fits rest' (a + 1) (k + e.key.length)
              (v + scoutfs_kvec_length e.val) + 1 := by
          simp [countFit, hfit]
        rw [hcf]
        by_cases hm0 : countFit fits rest' (a + 1) (k + e.key.length)
            (v + scoutfs_kvec_length e.val) = 0
        · simp [hm0, dataKeyBytes]
        · simp only [hm0, if_neg hm0, Nat.succ_ne_zero, if_false]
          rw [List.take_succ_cons, dataKeyBytes_cons]
          refine Prod.ext ?_ ?_ <;> simp <;> omega
      · have hstep : count_seg_items_go fits t (f + 1) (some it) a k v bN bK
            = (bN, bK) := by
          simp [count_seg_items_go, hkey, hval, hfit]
        have hcf : countFit fits (e :: rest') a k v = 0 := by
          simp [countFit, hfit]
        rw [hstep, hcf]
        simp

theorem count_seg_items_spec (fits : FitsSingle) (t : ItemTree)
    (hbst : bst t = true) (hok : dirty_ok t = true) :
    count_seg_items fits t =
      (countFit fits (dirtyData t) 0 0 0,
       dataKeyBytes ((dirtyData t).take
         (countFit fits (dirtyData t) 0 0 0))) := by
  unfold count_seg_items
  obtain ⟨f1, _⟩ := first_dirty_spec t hok
  rw [count_go_spec fits t hbst hok (treeSize t + 1) [] (dirtyData t)
    (first_dirty t) 0 0 0 0 0 (by simp)
    (by have := dirtyData_length_le t; omega) f1]
  by_cases h0 : countFit fits (dirtyData t) 0 0 0 = 0
  · simp [h0, dataKeyBytes]
  · simp [h0]

theorem wb_nil (s : List (ItemData × Bool)) : wb [] s = s := by
  induction s with
  | nil => rfl
  | cons p rest ih => simp [wb, ih]

theorem wb_cons (e : ItemData) (w' : List ItemData)
    (s : List (ItemData × Bool))
    (hu : ∀ p ∈ s, p.1.key = e.key → p.1 = e)
    (hw : ∀ x ∈ w', ¬ x.key = e.key) :
    wb (e :: w') s =
      if e.deletion then
        wb w' ((s.map (flipAt e.key)).filter
          (fun p => decide (¬ p.1.key = e.key)))
      else wb w' (s.map (flipAt e.key)) := by
  have hcw : ((w'.map ItemData.key).contains e.key) = false := by
    cases hcc : (w'.map ItemData.key).contains e.key
    · rfl
    · exfalso
      have hmem : e.key ∈ w'.map ItemData.key :=
        List.mem_of_elem_eq_true hcc
      obtain ⟨x, hx, hxk⟩ := List.mem_map.mp hmem
      exact hw x hx hxk
  induction s with
  | nil => cases e.deletion <;> simp [wb]
  | cons p rest ih =>
    have ih' := ih (fun q hq hk => hu q (List.mem_cons_of_mem p hq) hk)
    by_cases hpk : p.1.key = e.key
    · have hp1 : p.1 = e := hu p (List.mem_cons_self p rest) hpk
      have hflip : flipAt e.key p = (p.1, false) := if_pos hpk
      cases hdel : e.deletion with
      | true =>
        have hpd : p.1.deletion = true := by rw [hp1, hdel]
        simp [wb, hpk, hpd, hflip, ih', hdel]
      | false =>
        have hpd : p.1.deletion = false := by rw [hp1, hdel]
        simp [wb, hpk, hpd, hflip, ih', hdel, hcw]
    · have hflip : flipAt e.key p = p := if_neg hpk
      have hbeq : (p.1.key == e.key) = false :=
        beq_eq_false_iff_ne.mpr hpk
      cases hdel : e.deletion with
      | true =>
        simp [wb, hbeq, hpk, hflip, ih', hdel]
      | false =>
        simp [wb, hbeq, hpk, hflip, ih', hdel]

theorem flipAt_invol (k : Key) (s : List (ItemData × Bool)) :
    (s.map (flipAt k)).map (flipAt k) = s.map (flipAt k) := by
  apply map_id_on
  intro a ha
  obtain ⟨b, _, rfl⟩ := List.mem_map.mp ha
  by_cases hb : b.1.key = k
  · rw [show flipAt k b = (b.1, false) from if_pos hb]
    exact if_pos hb
  · rw [show flipAt k b = b from if_neg hb]
    exact if_neg hb

theorem erase_item_items (cac : ItemCache) (key : Key) :
    (erase_item cac key).items =
      (erase_at (clear_item_dirty cac key).items key).1 := by
  simp [erase_item]

theorem dirty_seg_tail (n : Nat)
    (IH : ∀ (cac : ItemCache) (seg : Segment) (cur : Option CachedItem)
      (kb : Nat), bst cac.items = true → dirty_ok cac.items = true →
      n ≤ (dirtyData cac.items).length →
      (cur = none ∨ ∃ it, cur = some it ∧
        (dirtyData cac.items).head? = some (itemData it)) →
      SegSpec n cac seg cur kb)
    (cac : ItemCache) (seg' : Segment) (it : CachedItem) (e : ItemData)
    (rest : List ItemData) (kb : Nat)
    (hbst : bst cac.items = true) (hok : dirty_ok cac.items = true)
    (hds : dirtyData cac.items = e :: rest) (hdata : itemData it = e)
    (hlen : n ≤ rest.length) :
    sview (dirty_seg_go n
        (if it.deletion then erase_item (clear_item_dirty cac it.key) it.key
         else clear_item_dirty cac it.key) seg'
        (next_dirty (clear_item_dirty cac it.key).items it.key) kb).1.items =
      wb (e :: rest.take n) (sview cac.items) ∧
    dirtyData (dirty_seg_go n
        (if it.deletion then erase_item (clear_item_dirty cac it.key) it.key
         else clear_item_dirty cac it.key) seg'
        (next_dirty (clear_item_dirty cac it.key).items it.key) kb).1.items =
      rest.drop n ∧
    bst (dirty_seg_go n
        (if it.deletion then erase_item (clear_item_dirty cac it.key) it.key
         else clear_item_dirty cac it.key) seg'
        (next_dirty (clear_item_dirty cac it.key).items it.key) kb).1.items
      = true ∧
    dirty_ok (dirty_seg_go n
        (if it.deletion then erase_item (clear_item_dirty cac it.key) it.key
         else clear_item_dirty cac it.key) seg'
        (next_dirty (clear_item_dirty cac it.key).items it.key) kb).1.items
      = true ∧
    (dirty_seg_go n
        (if it.deletion then erase_item (clear_item_dirty cac it.key) it.key
         else clear_item_dirty cac it.key) seg'
        (next_dirty (clear_item_dirty cac it.key).items it.key) kb).2.entries
      = seg'.entries ++ (rest.take n).map dataEntry ∧
    (dirty_seg_go n
        (if it.deletion then erase_item (clear_item_dirty cac it.key) it.key
         else clear_item_dirty cac it.key) seg'
        (next_dirty (clear_item_dirty cac it.key).items it.key) kb).2.hdr
      = seg'.hdr := by
  have hkey : it.key = e.key := congrArg ItemData.key hdata
  have hdel : it.deletion = e.deletion := congrArg ItemData.deletion hdata
  have hsorted : dataSorted (e :: rest) := hds ▸ dirtyData_sorted _ hbst
  have hrest_gt : ∀ x ∈ rest, keyCompare e.key x.key = Ordering.lt :=
    (List.pairwise_cons.mp hsorted).1
  have hmem : (e, true) ∈ sview cac.items :=
    dirtyData_mem_sview _ e (by rw [hds]; simp)
  have hu1 : ∀ p ∈ sview cac.items, p.1.key = e.key → p.1 = e := by
    intro p hp hk
    exact congrArg Prod.fst
      (pairwise_key_unique (sview cac.items) (sview_sorted _ hbst) p hp
        (e, true) hmem hk)
  have hwkeys : ∀ x ∈ rest.take n, ¬ x.key = e.key := by
    intro x hx hk
    exact keyCompare_lt_ne (hrest_gt x (List.mem_of_mem_take hx)) hk.symm
  have hc1items : (clear_item_dirty cac it.key).items =
      (clear_dirty_at cac.items e.key).1 := by
    rw [clear_item_dirty_items, hkey]
  have hs1 : sview (clear_item_dirty cac it.key).items =
      (sview cac.items).map (flipAt e.key) := by
    rw [hc1items, sview_clear _ _ hbst]
  have hb1 : bst (clear_item_dirty cac it.key).items = true := by
    rw [hc1items, bst_clear]
    exact hbst
  have ho1 : dirty_ok (clear_item_dirty cac it.key).items = true := by
    rw [hc1items]
    exact (clear_dirty_at_ok cac.items e.key hok).1
  have hd1 : dirtyData (clear_item_dirty cac it.key).items = rest := by
    rw [hc1items, dirtyData_clear _ _ hbst, hds]
    exact filter_ne_head e rest hrest_gt
  have hnxt : Option.map itemData
      (next_dirty (clear_item_dirty cac it.key).items it.key) =
      rest.head? := by
    obtain ⟨n1, _⟩ := next_dirty_spec _ it.key hb1 ho1
    rw [n1]
    unfold dirtyAbove
    rw [hd1, hkey]
    exact congrArg List.head? (filter_id_on _ rest
      (fun x hx => decide_eq_true (hrest_gt x hx)))
  cases hdelE : e.deletion with
  | false =>
    have hitd : it.deletion = false := by rw [hdel, hdelE]
    rw [if_neg (by rw [hitd]; simp)]
    have hmode : next_dirty (clear_item_dirty cac it.key).items it.key
          = none ∨
        ∃ x, next_dirty (clear_item_dirty cac it.key).items it.key = some x ∧
          (dirtyData (clear_item_dirty cac it.key).items).head? =
            some (itemData x) := by
      cases hnn : next_dirty (clear_item_dirty cac it.key).items it.key with
      | none => exact Or.inl rfl
      | some x =>
        refine Or.inr ⟨x, rfl, ?_⟩
        rw [hnn] at hnxt
        rw [hd1]
        simpa using hnxt.symm
    obtain ⟨i1, i2, i3, i4, i5, i6⟩ := IH (clear_item_dirty cac it.key) seg'
      (next_dirty (clear_item_dirty cac it.key).items it.key) kb hb1 ho1
      (by rw [hd1]; exact hlen) hmode
    refine ⟨?_, ?_, i3, i4, ?_, ?_⟩
    · rw [i1, hd1, hs1]
      rw [wb_cons e (rest.take n) (sview cac.items) hu1 hwkeys]
      rw [if_neg (by rw [hdelE]; simp)]
    · rw [i2, hd1]
    · rw [i5, hd1]
    · rw [i6]
      by_cases hn0 : n = 0
      · simp [hn0]
      · have hrne : rest ≠ [] := by
          intro hre
          rw [hre] at hlen
          simp at hlen
          exact hn0 hlen
        cases hnn : next_dirty (clear_item_dirty cac it.key).items it.key with
        | none =>
          rw [hnn] at hnxt
          cases hre : rest with
          | nil => exact absurd hre hrne
          | cons y ys => rw [hre] at hnxt; simp at hnxt
        | some x => simp [hn0]
  | true =>
    have hitd : it.deletion = true := by rw [hdel, hdelE]
    rw [if_pos (by rw [hitd])]
    have hc2items : (erase_item (clear_item_dirty cac it.key) it.key).items =
        (erase_at (clear_dirty_at
          (clear_item_dirty cac it.key).items it.key).1 it.key).1 := by
      rw [erase_item_items, clear_item_dirty_items]
    have hb1' : bst (clear_dirty_at
        (clear_item_dirty cac it.key).items it.key).1 = true := by
      rw [bst_clear]
      exact hb1
    have hsinner : sview (clear_dirty_at
        (clear_item_dirty cac it.key).items it.key).1 =
        (sview cac.items).map (flipAt e.key) := by
      rw [sview_clear _ _ hb1, hs1, hkey, flipAt_invol]
    have hb2 : bst (erase_item (clear_item_dirty cac it.key) it.key).items
        = true := by
      rw [hc2items]
      exact erase_at_bst _ _ hb1'
    have ho2 : dirty_ok
        (erase_item (clear_item_dirty cac it.key) it.key).items = true := by
      rw [hc2items]
      exact (erase_at_ok _ _ ((clear_dirty_at_ok _ _ ho1).1)).1
    have hs2 : sview (erase_item (clear_item_dirty cac it.key) it.key).items
        = ((sview cac.items).map (flipAt e.key)).filter
            (fun p => decide (¬ p.1.key = e.key)) := by
      rw [hc2items, sview_erase _ _ hb1', hsinner, hkey]
    have hd2 : dirtyData
        (erase_item (clear_item_dirty cac it.key) it.key).items = rest := by
      rw [hc2items, dirtyData_erase _ _ hb1', dirtyData_clear _ _ hb1,
        hd1, hkey]
      rw [filter_id_on (fun x => decide (¬ x.key = e.key)) rest
        (fun x hx => decide_eq_true
          (fun hk => keyCompare_lt_ne (hrest_gt x hx) hk.symm))]
      exact filter_id_on (fun x => decide (¬ x.key = e.key)) rest
        (fun x hx => decide_eq_true
          (fun hk => keyCompare_lt_ne (hrest_gt x hx) hk.symm))
    have hmode : next_dirty (clear_item_dirty cac it.key).items it.key
          = none ∨
        ∃ x, next_dirty (clear_item_dirty cac it.key).items it.key = some x ∧
          (dirtyData (erase_item (clear_item_dirty cac it.key)
            it.key).items).head? = some (itemData x) := by
      cases hnn : next_dirty (clear_item_dirty cac it.key).items it.key with
      | none => exact Or.inl rfl
      | some x =>
        refine Or.inr ⟨x, rfl, ?_⟩
        rw [hnn] at hnxt
        rw [hd2]
        simpa using hnxt.symm
    obtain ⟨i1, i2, i3, i4, i5, i6⟩ := IH
      (erase_item (clear_item_dirty cac it.key) it.key) seg'
      (next_dirty (clear_item_dirty cac it.key).items it.key) kb hb2 ho2
      (by rw [hd2]; exact hlen) hmode
    refine ⟨?_, ?_, i3, i4, ?_, ?_⟩
    · rw [i1, hd2, hs2]
      rw [wb_cons e (rest.take n) (sview cac.items) hu1 hwkeys]
      rw [if_pos (by rw [hdelE])]
    · rw [i2, hd2]
    · rw [i5, hd2]
    · rw [i6]
      by_cases hn0 : n = 0
      · simp [hn0]
      · have hrne : rest ≠ [] := by
          intro hre
          rw [hre] at hlen
          simp at hlen
          exact hn0 hlen
        cases hnn : next_dirty (clear_item_dirty cac it.key).items it.key with
        | none =>
          rw [hnn] at hnxt
          cases hre : rest with
          | nil => exact absurd hre hrne
          | cons y ys => rw [hre] at hnxt; simp at hnxt
        | some x => simp [hn0]

theorem dirty_seg_go_spec : ∀ (nrem : Nat) (cac : ItemCache) (seg : Segment)
    (cur : Option CachedItem) (kb : Nat),
    bst cac.items = true → dirty_ok cac.items = true →
    nrem ≤ (dirtyData cac.items).length →
    (cur = none ∨ ∃ it, cur = some it ∧
      (dirtyData cac.items).head? = some (itemData it)) →
    SegSpec nrem cac seg cur kb := by
  intro nrem
  induction nrem with
  | zero =>
    intro cac seg cur kb hbst hok _ _
    unfold SegSpec
    simp [dirty_seg_go, wb_nil, hbst, hok]
  | succ n ih =>
    intro cac seg cur kb hbst hok hlen hcur
    cases hds : dirtyData cac.items with
    | nil => rw [hds] at hlen; simp at hlen
    | cons e rest =>
      have hlen' : n ≤ rest.length := by
        rw [hds] at hlen
        simp at hlen
        omega
      rcases hcur with rfl | ⟨it0, rfl, hhead⟩
      · obtain ⟨f1, _⟩ := first_dirty_spec cac.items hok
        rw [hds] at f1
        cases hf : first_dirty cac.items with
        | none => rw [hf] at f1; simp at f1
        | some it =>
          rw [hf] at f1
          have hdata : itemData it = e := by simpa using f1
          have hkey : it.key = e.key := congrArg ItemData.key hdata
          have hval : it.val = e.val := congrArg ItemData.val hdata
          have hdel : it.deletion = e.deletion :=
            congrArg ItemData.deletion hdata
          have hstep : dirty_seg_go (n + 1) cac seg none kb =
              dirty_seg_go n
                (if it.deletion then
                  erase_item (clear_item_dirty cac it.key) it.key
                 else clear_item_dirty cac it.key)
                (scoutfs_seg_first_item seg it.key it.val (item_flags it)
                  (n + 1) kb)
                (next_dirty (clear_item_dirty cac it.key).items it.key)
                (kb - it.key.length) := by
            simp only [dirty_seg_go, hf]
          obtain ⟨t1, t2, t3, t4, t5, t6⟩ := dirty_seg_tail n ih cac
            (scoutfs_seg_first_item seg it.key it.val (item_flags it)
              (n + 1) kb)
            it e rest (kb - it.key.length) hbst hok hds hdata hlen'
          unfold SegSpec
          rw [hstep, hds]
          refine ⟨?_, ?_, t3, t4, ?_, ?_⟩
          · rw [t1, List.take_succ_cons]
          · rw [t2, List.drop_succ_cons]
          · rw [t5, List.take_succ_cons, List.map_cons]
            simp [scoutfs_seg_first_item, dataEntry, item_flags, hkey,
              hval, hdel]
          · rw [t6]
            simp [scoutfs_seg_first_item]
      · have hdata : itemData it0 = e := by
          rw [hds] at hhead
          simpa using hhead.symm
        have hkey : it0.key = e.key := congrArg ItemData.key hdata
        have hval : it0.val = e.val := congrArg ItemData.val hdata
        have hdel : it0.deletion = e.deletion :=
          congrArg ItemData.deletion hdata
        have hstep : dirty_seg_go (n + 1) cac seg (some it0) kb =
            dirty_seg_go n
              (if it0.deletion then
                erase_item (clear_item_dirty cac it0.key) it0.key
               else clear_item_dirty cac it0.key)
              (scoutfs_seg_append_item seg it0.key it0.val (item_flags it0))
              (next_dirty (clear_item_dirty cac it0.key).items it0.key)
              (kb - it0.key.length) := by
          simp only [dirty_seg_go]
        obtain ⟨t1, t2, t3, t4, t5, t6⟩ := dirty_seg_tail n ih cac
          (scoutfs_seg_append_item seg it0.key it0.val (item_flags it0))
          it0 e rest (kb - it0.key.length) hbst hok hds hdata hlen'
        unfold SegSpec
        rw [hstep, hds]
        refine ⟨?_, ?_, t3, t4, ?_, ?_⟩
        · rw [t1, List.take_succ_cons]
        · rw [t2, List.drop_succ_cons]
        · rw [t5, List.take_succ_cons, List.map_cons]
          simp [scoutfs_seg_append_item, dataEntry, item_flags, hkey,
            hval, hdel]
        · rw [t6]
          simp [scoutfs_seg_append_item]

theorem countFit_le_length (fits : FitsSingle) :
    ∀ (l : List ItemData) (a k v : Nat), countFit fits l a k v ≤ l.length := by
  intro l
  induction l with
  | nil => intro a k v; simp [countFit]
  | cons e rest ih =>
    intro a k v
    simp only [countFit, List.length_cons]
    split
    · omega
    · have := ih (a + 1) (k + e.key.length) (v + scoutfs_kvec_length e.val)
      omega

/-- C7: with the augmented dirty index intact, dirty_seg returns 0; the
counting pass computes the longest in-key-order prefix of the dirty items
whose cumulative totals still fit one segment, together with its key-byte
total; the write pass emits exactly that prefix in strictly ascending key
order, the first item priming the header with the count and key-byte
total and the rest appended; afterwards every written item's dirty flag
is clear, written tombstones are gone from the tree, written live items
remain as clean entries, and everything unwritten is untouched. -/
theorem claim_C7 (fits : FitsSingle) (cac : ItemCache) (seg : Segment)
    (hbst : bst cac.items = true) (hok : dirty_ok cac.items = true)
    (hseg : seg.entries = []) :
    (scoutfs_item_dirty_seg fits cac seg).1 = 0 ∧
    count_seg_items fits cac.items =
      (countFit fits (dirtyData cac.items) 0 0 0,
       dataKeyBytes ((dirtyData cac.items).take
         (countFit fits (dirtyData cac.items) 0 0 0))) ∧
    (scoutfs_item_dirty_seg fits cac seg).2.2.entries =
      ((dirtyData cac.items).take
        (countFit fits (dirtyData cac.items) 0 0 0)).map dataEntry ∧
    ((scoutfs_item_dirty_seg fits cac seg).2.2.entries.map
      (fun en => en.key)).Pairwise
        (fun a b => keyCompare a b = Ordering.lt) ∧
    (0 < countFit fits (dirtyData cac.items) 0 0 0 →
      (scoutfs_item_dirty_seg fits cac seg).2.2.hdr =
        some (countFit fits (dirtyData cac.items) 0 0 0,
          dataKeyBytes ((dirtyData cac.items).take
            (countFit fits (dirtyData cac.items) 0 0 0)))) ∧
    dirtyData (scoutfs_item_dirty_seg fits cac seg).2.1.items =
      (dirtyData cac.items).drop
        (countFit fits (dirtyData cac.items) 0 0 0) ∧
    sview (scoutfs_item_dirty_seg fits cac seg).2.1.items =
      wb ((dirtyData cac.items).take
        (countFit fits (dirtyData cac.items) 0 0 0)) (sview cac.items) := by
  have hcount := count_seg_items_spec fits cac.items hbst hok
  have hun : scoutfs_item_dirty_seg fits cac seg =
      (0,
       (dirty_seg_go (countFit fits (dirtyData cac.items) 0 0 0) cac seg
         none (dataKeyBytes ((dirtyData cac.items).take
           (countFit fits (dirtyData cac.items) 0 0 0)))).1,
       (dirty_seg_go (countFit fits (dirtyData cac.items) 0 0 0) cac seg
         none (dataKeyBytes ((dirtyData cac.items).take
           (countFit fits (dirtyData cac.items) 0 0 0)))).2) := by
    unfold scoutfs_item_dirty_seg
    rw [hcount]
  have hspec := dirty_seg_go_spec
    (countFit fits (dirtyData cac.items) 0 0 0) cac seg none
    (dataKeyBytes ((dirtyData cac.items).take
      (countFit fits (dirtyData cac.items) 0 0 0)))
    hbst hok (countFit_le_length fits (dirtyData cac.items) 0 0 0)
    (Or.inl rfl)
  unfold SegSpec at hspec
  obtain ⟨s1, s2, s3, s4, s5, s6⟩ := hspec
  have hent : (scoutfs_item_dirty_seg fits cac seg).2.2.entries =
      ((dirtyData cac.items).take
        (countFit fits (dirtyData cac.items) 0 0 0)).map dataEntry := by
    rw [hun]
    rw [s5, hseg]
    simp
  refine ⟨by rw [hun], hcount, hent, ?_, ?_, ?_, ?_⟩
  · rw [hent, List.map_map]
    have hsor : ((dirtyData cac.items).take
        (countFit fits (dirtyData cac.items) 0 0 0)).Pairwise
          (fun a b => keyCompare a.key b.key = Ordering.lt) :=
      List.Pairwise.sublist (List.take_sublist _ _)
        (dirtyData_sorted cac.items hbst)
    exact List.pairwise_map.mpr (List.Pairwise.imp (fun h => h) hsor)
  · intro h0
    rw [hun]
    rw [s6, if_neg (by omega)]
  · rw [hun]
    exact s2
  · rw [hun]
    exact s1

/-- Witness for C7 on a three-item cache with two dirty items, one of
them a tombstone, and a segment that fits two items. -/
theorem claim_C7_witness :
    (scoutfs_item_dirty_seg (fun n _ _ => decide (n ≤ 2))
      ⟨.node (.node .leaf ⟨[1], some [9], false, ⟨true, false, false⟩⟩ .leaf)
        ⟨[2], some [7], false, ⟨false, true, true⟩⟩
        (.node .leaf ⟨[3], none, true, ⟨true, false, false⟩⟩ .leaf),
        .leaf, 2, 2, 1⟩ ⟨none, []⟩).1 = 0 ∧
    dirtyData (scoutfs_item_dirty_seg (fun n _ _ => decide (n ≤ 2))
      ⟨.node (.node .leaf ⟨[1], some [9], false, ⟨true, false, false⟩⟩ .leaf)
        ⟨[2], some [7], false, ⟨false, true, true⟩⟩
        (.node .leaf ⟨[3], none, true, ⟨true, false, false⟩⟩ .leaf),
        .leaf, 2, 2, 1⟩ ⟨none, []⟩).2.1.items =
      (dirtyData (⟨.node
          (.node .leaf ⟨[1], some [9], false, ⟨true, false, false⟩⟩ .leaf)
          ⟨[2], some [7], false, ⟨false, true, true⟩⟩
          (.node .leaf ⟨[3], none, true, ⟨true, false, false⟩⟩ .leaf),
          .leaf, 2, 2, 1⟩ : ItemCache).items).drop
        (countFit (fun n _ _ => decide (n ≤ 2))
          (dirtyData (⟨.node
            (.node .leaf ⟨[1], some [9], false, ⟨true, false, false⟩⟩ .leaf)
            ⟨[2], some [7], false, ⟨false, true, true⟩⟩
            (.node .leaf ⟨[3], none, true, ⟨true, false, false⟩⟩ .leaf),
            .leaf, 2, 2, 1⟩ : ItemCache).items) 0 0 0) :=
  ⟨(claim_C7 (fun n _ _ => decide (n ≤ 2))
      ⟨.node (.node .leaf ⟨[1], some [9], false, ⟨true, false, false⟩⟩ .leaf)
        ⟨[2], some [7], false, ⟨false, true, true⟩⟩
        (.node .leaf ⟨[3], none, true, ⟨true, false, false⟩⟩ .leaf),
        .leaf, 2, 2, 1⟩ ⟨none, []⟩ (by decide) (by decide) rfl).1,
   (claim_C7 (fun n _ _ => decide (n ≤ 2))
      ⟨.node (.node .leaf ⟨[1], some [9], false, ⟨true, false, false⟩⟩ .leaf)
        ⟨[2], some [7], false, ⟨false, true, true⟩⟩
        (.node .leaf ⟨[3], none, true, ⟨true, false, false⟩⟩ .leaf),
        .leaf, 2, 2, 1⟩ ⟨none, []⟩ (by decide) (by decide) rfl).2.2.2.2.2.1⟩
